import Mathlib

/-!
The dpasswd store: the replicated key-value state machine and its HTTP control plane

A shallow embedding of `fsm/fsm.go` (the raft FSM over badger), of
`httpd/httpd.go` (the echo handlers) and of `Decrypt` in `client/app.go`, together
with executable models of the library calls they make:

* `encoding/json`: JSON syntax trees and their text, the Go values an `interface{}`
  holds (numbers are `float64`: a literal is rounded to the nearest float and is
  rejected above the largest one, a float is written with the shortest digits that
  read back), `json.Marshal`, `json.Unmarshal`, and the streaming `json.Decoder`
  (`More`, `Decode`, `Token`);
* `strings.TrimSpace`, `strings.ToUpper`;
* `badger`: a key-value store with transactions, with the checks `txn.Set` and
  `txn.Delete` make on a key and a value, and a commit that the engine may fail;
* `raft`: the consensus engine as seen from a request handler;
* `echo`: a handler takes the outcome of `Bind` or the path parameter and returns
  the response together with the calls it made;
* Go slices with length and capacity, and `scrypt`, `crypto/aes`, `crypto/cipher` with
  their argument checks (the primitives themselves are parameters).

Text is modelled as `List Char` (byte strings of valid UTF-8).  Outside the model:
the nesting limit of the decoder, the upper-case forms of letters that are not ASCII
after upper-casing, and the entries the storage engine keeps for itself under its
reserved prefix.
-/

set_option linter.dupNamespace false
set_option exponentiation.threshold 100000

namespace Dpasswd

/-- A byte string (`[]byte`), modelled as the list of its characters. -/
abbrev Bytes := List Char

/-! ## Errors -/

/-- The Go `error` values that can flow through the modelled code. -/
inductive Error where
  /-- The error `badger.ErrKeyNotFound`. -/
  | ErrKeyNotFound
  /-- The error `badger.ErrEmptyKey`. -/
  | ErrEmptyKey
  /-- The error `badger.ErrReadOnlyTxn`. -/
  | ErrReadOnlyTxn
  /-- The error `badger.ErrInvalidKey`. -/
  | ErrInvalidKey
  /-- The error `badger.ErrTxnTooBig`. -/
  | ErrTxnTooBig
  /-- The error of the helper `exceedsSize`: the key or the value (`what`) of `size`
  bytes is above the `limit`. -/
  | ErrExceedsSize (what : String) (size limit : Nat)
  /-- A `*json.SyntaxError`, with its message. -/
  | SyntaxError (msg : String)
  /-- A `*json.UnmarshalTypeError`: a JSON value of kind `value` met the Go type `target`. -/
  | UnmarshalTypeError (value : String) (target : String)
  /-- The error `io.EOF`. -/
  | EOF
  /-- The error `io.ErrUnexpectedEOF`. -/
  | ErrUnexpectedEOF
  /-- Any other error, identified by its message (engine, binding, ...). -/
  | other (msg : String)
  deriving DecidableEq, Repr

/-- The `Error()` method: the message of an error.  The message of `exceedsSize` ends in a
dump of the data, which is left out. -/
def Error.Error : Error → String
  | .ErrKeyNotFound => "Key not found"
  | .ErrEmptyKey => "Key cannot be empty"
  | .ErrReadOnlyTxn => "No sets or deletes are allowed in a read-only transaction"
  | .ErrInvalidKey => "Key is using a reserved !badger! prefix"
  | .ErrTxnTooBig => "Txn is too big to fit into one request"
  | .ErrExceedsSize what size limit =>
      what ++ " with size " ++ toString size ++ " exceeded " ++ toString limit ++ " limit"
  | .SyntaxError msg => msg
  | .UnmarshalTypeError value target =>
      "json: cannot unmarshal " ++ value ++ " into Go " ++ target
  | .EOF => "EOF"
  | .ErrUnexpectedEOF => "unexpected EOF"
  | .other msg => msg

/-! ## `strings.TrimSpace` and `strings.ToUpper` -/

/-- The predicate `unicode.IsSpace`: the Unicode White_Space code points. -/
def unicodeIsSpace (c : Char) : Bool :=
  let n := c.toNat
  (9 ≤ n && n ≤ 13) || n = 32 || n = 0x85 || n = 0xA0 || n = 0x1680 ||
  (0x2000 ≤ n && n ≤ 0x200a) || n = 0x2028 || n = 0x2029 || n = 0x202f ||
  n = 0x205f || n = 0x3000

/-- Drop the leading white space of a character list. -/
def trimLeft : List Char → List Char
  | [] => []
  | c :: cs => if unicodeIsSpace c then trimLeft cs else c :: cs

/-- The function `strings.TrimSpace`: remove leading and trailing white space. -/
def TrimSpace (s : String) : String :=
  ⟨(trimLeft (trimLeft s.data).reverse).reverse⟩

/-- The function `unicode.ToUpper` on the code points whose upper case is an ASCII
letter: the letters `a` to `z`, the long s (U+017F, upper case `S`) and the dotless i
(U+0131, upper case `I`).  Every other code point is kept: Go maps a letter among them to
an upper-case form that is not ASCII either, so the result of `ToUpper` is a given ASCII
word in the model exactly when it is in Go. -/
def upperRune (c : Char) : Char :=
  if 97 ≤ c.toNat ∧ c.toNat ≤ 122 then Char.ofNat (c.toNat - 32)
  else if c.toNat = 0x17F then 'S'
  else if c.toNat = 0x131 then 'I'
  else c

/-- The function `strings.ToUpper`. -/
def ToUpper (s : String) : String := ⟨s.data.map upperRune⟩

/-! ## JSON syntax trees -/

/-- The literal of a JSON number as it stands in a text: sign, integer part, fraction,
exponent.  The number it denotes in Go is `Numeral.toFloat`. -/
structure Numeral where
  /-- A leading minus sign. -/
  neg : Bool
  /-- Integer part: `none` is the single digit zero, `some (d, ds)` is the non-zero
  digit `d + 1` followed by the digits `ds`. -/
  int : Option (Fin 9 × List (Fin 10))
  /-- Fraction digits after the decimal point (at least one), when present. -/
  frac : Option (Fin 10 × List (Fin 10))
  /-- Exponent, when present: the letter is upper case, the sign (`none`, `some false`
  for plus, `some true` for minus), and the digits (at least one). -/
  exp : Option (Bool × Option Bool × Fin 10 × List (Fin 10))
  deriving DecidableEq, Repr

/-- The syntax tree of a JSON text: what the scanner of `encoding/json` reads, before
anything is stored into a Go value.  Numbers are literals, the members of an object are in
text order and may repeat a key. -/
inductive Json where
  | null
  | bool (b : Bool)
  | number (n : Numeral)
  | string (s : String)
  | array (elems : List Json)
  | object (members : List (String × Json))
  deriving Repr

mutual
/-- Decidable equality of JSON values. -/
def Json.decEq : (a b : Json) → Decidable (a = b)
  | .null, .null => isTrue rfl
  | .bool a, .bool b =>
      if h : a = b then isTrue (by rw [h]) else isFalse (by intro e; cases e; exact h rfl)
  | .number a, .number b =>
      if h : a = b then isTrue (by rw [h]) else isFalse (by intro e; cases e; exact h rfl)
  | .string a, .string b =>
      if h : a = b then isTrue (by rw [h]) else isFalse (by intro e; cases e; exact h rfl)
  | .array a, .array b =>
      match Json.decEqList a b with
      | isTrue h => isTrue (by rw [h])
      | isFalse h => isFalse (by intro e; cases e; exact h rfl)
  | .object a, .object b =>
      match Json.decEqMembers a b with
      | isTrue h => isTrue (by rw [h])
      | isFalse h => isFalse (by intro e; cases e; exact h rfl)
  | .null, .bool _ | .null, .number _ | .null, .string _ | .null, .array _ | .null, .object _
  | .bool _, .null | .bool _, .number _ | .bool _, .string _ | .bool _, .array _
  | .bool _, .object _
  | .number _, .null | .number _, .bool _ | .number _, .string _ | .number _, .array _
  | .number _, .object _
  | .string _, .null | .string _, .bool _ | .string _, .number _ | .string _, .array _
  | .string _, .object _
  | .array _, .null | .array _, .bool _ | .array _, .number _ | .array _, .string _
  | .array _, .object _
  | .object _, .null | .object _, .bool _ | .object _, .number _ | .object _, .string _
  | .object _, .array _ => isFalse (by intro e; cases e)
/-- Decidable equality of lists of JSON values. -/
def Json.decEqList : (a b : List Json) → Decidable (a = b)
  | [], [] => isTrue rfl
  | [], _ :: _ | _ :: _, [] => isFalse (by intro e; cases e)
  | x :: xs, y :: ys =>
      match Json.decEq x y, Json.decEqList xs ys with
      | isTrue h₁, isTrue h₂ => isTrue (by rw [h₁, h₂])
      | isFalse h, _ => isFalse (by intro e; cases e; exact h rfl)
      | _, isFalse h => isFalse (by intro e; cases e; exact h rfl)
/-- Decidable equality of member lists. -/
def Json.decEqMembers : (a b : List (String × Json)) → Decidable (a = b)
  | [], [] => isTrue rfl
  | [], _ :: _ | _ :: _, [] => isFalse (by intro e; cases e)
  | (k, x) :: xs, (l, y) :: ys =>
      if hk : k = l then
        match Json.decEq x y, Json.decEqMembers xs ys with
        | isTrue h₁, isTrue h₂ => isTrue (by rw [hk, h₁, h₂])
        | isFalse h, _ => isFalse (by intro e; cases e; exact h rfl)
        | _, isFalse h => isFalse (by intro e; cases e; exact h rfl)
      else isFalse (by intro e; cases e; exact hk rfl)
end

instance : DecidableEq Json := Json.decEq

/-! ## The encoder: the text of a syntax tree -/

/-- The character of a decimal digit. -/
def digitChar (d : Fin 10) : Char := Char.ofNat (48 + d.val)

/-- The character of a non-zero decimal digit, `d + 1`. -/
def leadChar (d : Fin 9) : Char := Char.ofNat (49 + d.val)

/-- The lower-case hexadecimal digit of `n < 16`. -/
def hexChar (n : Nat) : Char := if n < 10 then Char.ofNat (48 + n) else Char.ofNat (87 + n)

/-- The integer part of a number literal. -/
def renderInt : Option (Fin 9 × List (Fin 10)) → Bytes
  | none => ['0']
  | some (d, ds) => leadChar d :: ds.map digitChar

/-- The fraction of a number literal. -/
def renderFrac : Option (Fin 10 × List (Fin 10)) → Bytes
  | none => []
  | some (d, ds) => '.' :: digitChar d :: ds.map digitChar

/-- The sign of an exponent. -/
def renderSign : Option Bool → Bytes
  | none => []
  | some false => ['+']
  | some true => ['-']

/-- The exponent of a number literal. -/
def renderExp : Option (Bool × Option Bool × Fin 10 × List (Fin 10)) → Bytes
  | none => []
  | some (up, sign, d, ds) =>
      (if up then 'E' else 'e') :: (renderSign sign ++ digitChar d :: ds.map digitChar)

/-- The literal of a number. -/
def Numeral.render (n : Numeral) : Bytes :=
  (if n.neg then ['-'] else []) ++ (renderInt n.int ++ (renderFrac n.frac ++ renderExp n.exp))

/-- The encoding of one character inside a string literal, as `json.Marshal` writes it
(HTML escaping on, Go 1.22 or later): quote and backslash are backslash-escaped,
backspace, form feed, line feed, carriage return and tab get their short escapes (before
Go 1.22 backspace and form feed were written like the other control characters, which
reads back the same), the other control characters and the characters
less-than, greater-than and ampersand are written as a four-digit unicode escape, and so
are U+2028 and U+2029. -/
def escapeChar (c : Char) : Bytes :=
  if c = '"' then ['\\', '"']
  else if c = '\\' then ['\\', '\\']
  else if c = '\x08' then ['\\', 'b']
  else if c = '\x0c' then ['\\', 'f']
  else if c = '\n' then ['\\', 'n']
  else if c = '\r' then ['\\', 'r']
  else if c = '\t' then ['\\', 't']
  else if c.toNat < 32 ∨ c = '<' ∨ c = '>' ∨ c = '&' then
    ['\\', 'u', '0', '0', hexChar (c.toNat / 16), hexChar (c.toNat % 16)]
  else if c.toNat = 0x2028 then ['\\', 'u', '2', '0', '2', '8']
  else if c.toNat = 0x2029 then ['\\', 'u', '2', '0', '2', '9']
  else [c]

/-- The body of a string literal. -/
def escape : List Char → Bytes
  | [] => []
  | c :: cs => escapeChar c ++ escape cs

/-- A quoted string literal. -/
def renderString (s : String) : Bytes := '"' :: (escape s.data ++ ['"'])

mutual
/-- The compact text of a syntax tree: no white space, members in list order. -/
def Json.render : Json → Bytes
  | .null => ['n', 'u', 'l', 'l']
  | .bool true => ['t', 'r', 'u', 'e']
  | .bool false => ['f', 'a', 'l', 's', 'e']
  | .number n => n.render
  | .string s => renderString s
  | .array [] => ['[', ']']
  | .array (x :: xs) => '[' :: (x.render ++ renderElems xs)
  | .object [] => [Char.ofNat 123, Char.ofNat 125]
  | .object ((k, x) :: ms) =>
      Char.ofNat 123 :: (renderString k ++ ':' :: (x.render ++ renderMembers ms))
/-- The remaining elements of an array, each after a comma, and the closing bracket. -/
def renderElems : List Json → Bytes
  | [] => [']']
  | x :: xs => ',' :: (x.render ++ renderElems xs)
/-- The remaining members of an object, each after a comma, and the closing brace. -/
def renderMembers : List (String × Json) → Bytes
  | [] => [Char.ofNat 125]
  | (k, x) :: ms => ',' :: (renderString k ++ ':' :: (x.render ++ renderMembers ms))
end

/-! ## The decoder: scanning and parsing JSON text -/

instance {ε α : Type} [DecidableEq ε] [DecidableEq α] : DecidableEq (Except ε α)
  | .ok a, .ok b =>
      if h : a = b then isTrue (by rw [h]) else isFalse (by intro e; cases e; exact h rfl)
  | .error a, .error b =>
      if h : a = b then isTrue (by rw [h]) else isFalse (by intro e; cases e; exact h rfl)
  | .ok _, .error _ | .error _, .ok _ => isFalse (by intro e; cases e)

/-- Why a text is not a JSON value. -/
inductive ParseError where
  /-- The text ended inside a value. -/
  | eof
  /-- The character `c` cannot stand where it is; `context` is the scanner position. -/
  | bad (c : Char) (context : String)
  deriving DecidableEq, Repr

/-- JSON white space: space, tab, carriage return, line feed. -/
def isSpace (c : Char) : Bool := c = ' ' || c = '\t' || c = '\r' || c = '\n'

/-- Skip leading JSON white space. -/
def skipSpace : List Char → List Char
  | [] => []
  | c :: cs => if isSpace c then skipSpace cs else c :: cs

/-- The decimal digit a character denotes. -/
def charDigit? (c : Char) : Option (Fin 10) :=
  if h : 48 ≤ c.toNat ∧ c.toNat ≤ 57 then some ⟨c.toNat - 48, by omega⟩ else none

/-- The non-zero decimal digit a character denotes, less one. -/
def charLead? (c : Char) : Option (Fin 9) :=
  if h : 49 ≤ c.toNat ∧ c.toNat ≤ 57 then some ⟨c.toNat - 49, by omega⟩ else none

/-- The value of a hexadecimal digit, either case. -/
def hexVal? (c : Char) : Option Nat :=
  let n := c.toNat
  if 48 ≤ n ∧ n ≤ 57 then some (n - 48)
  else if 97 ≤ n ∧ n ≤ 102 then some (n - 87)
  else if 65 ≤ n ∧ n ≤ 70 then some (n - 55)
  else none

/-- The value of four hexadecimal digits (the helper `getu4`). -/
def hex4? (a b c d : Char) : Option Nat :=
  match hexVal? a, hexVal? b, hexVal? c, hexVal? d with
  | some x, some y, some z, some w => some (((x * 16 + y) * 16 + z) * 16 + w)
  | _, _, _, _ => none

/-- The longest run of decimal digits at the head of a text, and what follows it. -/
def parseDigits : List Char → List (Fin 10) × List Char
  | [] => ([], [])
  | c :: cs =>
    match charDigit? c with
    | some d => ((d :: (parseDigits cs).1), (parseDigits cs).2)
    | none => ([], c :: cs)

/-- The integer part of a number literal: a single zero, or a non-zero digit and a run
of digits. -/
def parseInt : List Char → Except ParseError (Option (Fin 9 × List (Fin 10)) × List Char)
  | [] => .error .eof
  | c :: r =>
    if c = '0' then .ok (none, r)
    else match charLead? c with
      | some d => .ok (some (d, (parseDigits r).1), (parseDigits r).2)
      | none => .error (.bad c "in numeric literal")

/-- The optional fraction of a number literal. -/
def parseFrac : List Char → Except ParseError (Option (Fin 10 × List (Fin 10)) × List Char)
  | [] => .ok (none, [])
  | c :: r =>
    if c = '.' then
      match r with
      | [] => .error .eof
      | c₁ :: r₁ =>
        match charDigit? c₁ with
        | some d => .ok (some (d, (parseDigits r₁).1), (parseDigits r₁).2)
        | none => .error (.bad c₁ "after decimal point in numeric literal")
    else .ok (none, c :: r)

/-- The digits of an exponent: at least one. -/
def parseExpDigits (up : Bool) (sign : Option Bool) :
    List Char → Except ParseError (Option (Bool × Option Bool × Fin 10 × List (Fin 10)) × List Char)
  | [] => .error .eof
  | c :: r =>
    match charDigit? c with
    | some d => .ok (some (up, sign, d, (parseDigits r).1), (parseDigits r).2)
    | none => .error (.bad c "in exponent of numeric literal")

/-- The optional exponent of a number literal. -/
def parseExp :
    List Char → Except ParseError (Option (Bool × Option Bool × Fin 10 × List (Fin 10)) × List Char)
  | [] => .ok (none, [])
  | c :: r =>
    if c = 'e' ∨ c = 'E' then
      match r with
      | [] => .error .eof
      | c₁ :: r₁ =>
        if c₁ = '+' then parseExpDigits (decide (c = 'E')) (some false) r₁
        else if c₁ = '-' then parseExpDigits (decide (c = 'E')) (some true) r₁
        else parseExpDigits (decide (c = 'E')) none (c₁ :: r₁)
    else .ok (none, c :: r)

/-- The number literal after its optional sign. -/
def parseUnsigned (neg : Bool) (s : List Char) : Except ParseError (Numeral × List Char) :=
  match parseInt s with
  | .error e => .error e
  | .ok (int, s₁) =>
    match parseFrac s₁ with
    | .error e => .error e
    | .ok (frac, s₂) =>
      match parseExp s₂ with
      | .error e => .error e
      | .ok (exp, s₃) => .ok (⟨neg, int, frac, exp⟩, s₃)

/-- A number literal at the head of a text. -/
def parseNumber : List Char → Except ParseError (Numeral × List Char)
  | [] => .error .eof
  | c :: r => if c = '-' then parseUnsigned true r else parseUnsigned false (c :: r)

/-- The first character of a text that is no hexadecimal digit. -/
def firstNonHex : List Char → Option Char
  | [] => none
  | c :: r => if (hexVal? c).isNone then some c else firstNonHex r

/-- The four hexadecimal digits of a unicode escape at the head of a text (the helper
`getu4` after the backslash and the letter): their value and the text after them. -/
def hexEscape : List Char → Except ParseError (Nat × List Char)
  | a :: b :: c :: d :: r =>
    match hex4? a b c d with
    | some n => .ok (n, r)
    | none =>
      .error (.bad ((firstNonHex [a, b, c, d]).getD a) "in \\u hexadecimal character escape")
  | s =>
    match firstNonHex s with
    | some x => .error (.bad x "in \\u hexadecimal character escape")
    | none => .error .eof

/-- A complete unicode escape at the head of a text, if there is one. -/
def peekEscape : List Char → Option (Nat × List Char)
  | c :: u :: r =>
    if c = '\\' ∧ u = 'u' then
      match hexEscape r with
      | .ok p => some p
      | .error _ => none
    else none
  | _ => none

/-- The rune of a unicode escape of value `n` that is followed by the text `r`, and
the text to go on with.  A high surrogate directly followed by the escape of a low
surrogate is combined with it; any other surrogate becomes U+FFFD. -/
def decodeEscape (n : Nat) (r : List Char) : Char × List Char :=
  if 0xD800 ≤ n ∧ n < 0xE000 then
    match peekEscape r with
    | some (m, r₁) =>
      if n < 0xDC00 ∧ 0xDC00 ≤ m ∧ m < 0xE000 then
        (Char.ofNat ((n - 0xD800) * 1024 + (m - 0xDC00) + 0x10000), r₁)
      else (Char.ofNat 0xFFFD, r)
    | none => (Char.ofNat 0xFFFD, r)
  else (Char.ofNat n, r)

/-- The character of a one-letter escape. -/
def simpleEscape? (e : Char) : Option Char :=
  if e = '"' then some '"'
  else if e = '\\' then some '\\'
  else if e = '/' then some '/'
  else if e = 'b' then some (Char.ofNat 8)
  else if e = 'f' then some (Char.ofNat 12)
  else if e = 'n' then some '\n'
  else if e = 'r' then some '\r'
  else if e = 't' then some '\t'
  else none

/-- Put a character in front of the decoded string of a parse result. -/
def consChar (c : Char) :
    Except ParseError (List Char × List Char) → Except ParseError (List Char × List Char)
  | .ok (cs, rest) => .ok (c :: cs, rest)
  | .error e => .error e

/-- The loop over a string literal after its opening quote.  The first argument bounds
the number of rounds; the length of the text is enough. -/
def stringLoop : Nat → List Char → Except ParseError (List Char × List Char)
  | 0, _ => .error .eof
  | _ + 1, [] => .error .eof
  | fuel + 1, c :: r =>
    if c = '"' then .ok ([], r)
    else if c = '\\' then
      match r with
      | [] => .error .eof
      | e :: r₁ =>
        match simpleEscape? e with
        | some x => consChar x (stringLoop fuel r₁)
        | none =>
          if e = 'u' then
            match hexEscape r₁ with
            | .error err => .error err
            | .ok (n, r₂) =>
              consChar (decodeEscape n r₂).1 (stringLoop fuel (decodeEscape n r₂).2)
          else .error (.bad e "in string escape code")
    else if c.toNat < 32 then .error (.bad c "in string literal")
    else consChar c (stringLoop fuel r)

/-- A string literal after its opening quote: the decoded characters, and the text
after the closing quote.  Control characters must be escaped. -/
def parseString (s : List Char) : Except ParseError (List Char × List Char) :=
  stringLoop s.length s

/-- The rest of a literal name (`null`, `true`, `false`) after its first letter. -/
def parseLiteral (context : String) : List Char → List Char → Except ParseError (List Char)
  | [], s => .ok s
  | _ :: _, [] => .error .eof
  | l :: ls, c :: r => if c = l then parseLiteral context ls r else .error (.bad c context)

mutual
/-- A JSON value at the head of a text (white space already skipped): the value and
the text after it.  The first argument bounds the recursion; a text of `n` characters
never needs more than `n + 1`. -/
def parseValue : Nat → List Char → Except ParseError (Json × List Char)
  | 0, _ => .error .eof
  | _ + 1, [] => .error .eof
  | fuel + 1, c :: r =>
    if c = Char.ofNat 123 then
      match skipSpace r with
      | [] => .error .eof
      | c₁ :: r₁ =>
        if c₁ = Char.ofNat 125 then .ok (.object [], r₁)
        else
          match parseMembers fuel (c₁ :: r₁) with
          | .ok (ms, rest) => .ok (.object ms, rest)
          | .error e => .error e
    else if c = '[' then
      match skipSpace r with
      | [] => .error .eof
      | c₁ :: r₁ =>
        if c₁ = ']' then .ok (.array [], r₁)
        else
          match parseElems fuel (c₁ :: r₁) with
          | .ok (vs, rest) => .ok (.array vs, rest)
          | .error e => .error e
    else if c = '"' then
      match parseString r with
      | .ok (cs, rest) => .ok (.string ⟨cs⟩, rest)
      | .error e => .error e
    else if c = 'n' then
      match parseLiteral "in literal null" ['u', 'l', 'l'] r with
      | .ok rest => .ok (.null, rest)
      | .error e => .error e
    else if c = 't' then
      match parseLiteral "in literal true" ['r', 'u', 'e'] r with
      | .ok rest => .ok (.bool true, rest)
      | .error e => .error e
    else if c = 'f' then
      match parseLiteral "in literal false" ['a', 'l', 's', 'e'] r with
      | .ok rest => .ok (.bool false, rest)
      | .error e => .error e
    else if c = '-' ∨ (charDigit? c).isSome then
      match parseNumber (c :: r) with
      | .ok (n, rest) => .ok (.number n, rest)
      | .error e => .error e
    else .error (.bad c "looking for beginning of value")
/-- The elements of an array from the start of an element on, up to and including the
closing bracket. -/
def parseElems : Nat → List Char → Except ParseError (List Json × List Char)
  | 0, _ => .error .eof
  | fuel + 1, s =>
    match parseValue fuel s with
    | .error e => .error e
    | .ok (v, rest) =>
      match skipSpace rest with
      | [] => .error .eof
      | c :: r =>
        if c = ',' then
          match parseElems fuel (skipSpace r) with
          | .ok (vs, rest₁) => .ok (v :: vs, rest₁)
          | .error e => .error e
        else if c = ']' then .ok ([v], r)
        else .error (.bad c "after array element")
/-- The members of an object from the start of a key on, up to and including the
closing brace. -/
def parseMembers : Nat → List Char → Except ParseError (List (String × Json) × List Char)
  | 0, _ => .error .eof
  | _ + 1, [] => .error .eof
  | fuel + 1, q :: s =>
    if q = '"' then
      match parseString s with
      | .error e => .error e
      | .ok (k, rest) =>
        match skipSpace rest with
        | [] => .error .eof
        | c :: r =>
          if c = ':' then
            match parseValue fuel (skipSpace r) with
            | .error e => .error e
            | .ok (v, rest₁) =>
              match skipSpace rest₁ with
              | [] => .error .eof
              | c₁ :: r₁ =>
                if c₁ = ',' then
                  match parseMembers fuel (skipSpace r₁) with
                  | .ok (ms, rest₂) => .ok ((⟨k⟩, v) :: ms, rest₂)
                  | .error e => .error e
                else if c₁ = Char.ofNat 125 then .ok ([(⟨k⟩, v)], r₁)
                else .error (.bad c₁ "after object key:value pair")
          else .error (.bad c "after object key")
    else .error (.bad q "looking for beginning of object key string")
end

/-- A complete JSON document: one value, with white space around it and nothing else. -/
def parseDocument (data : Bytes) : Except ParseError Json :=
  match parseValue (data.length + 1) (skipSpace data) with
  | .error e => .error e
  | .ok (v, rest) =>
    match skipSpace rest with
    | [] => .ok v
    | c :: _ => .error (.bad c "after top-level value")

/-! ## The type `float64`, `strconv.ParseFloat` and the number format of `json.Marshal` -/

/-- Evaluate a number, then go on with it: the same as `k n`, written by cases so that
the number is computed once. -/
def withNat {α : Type} (n : Nat) (k : Nat → α) : α :=
  match n with
  | 0 => k 0
  | m + 1 => k (m + 1)

/-- The bits of a finite `float64`: the value is `mant * 2 ^ shift / 2 ^ 1074`, negated
when `sign` is set. -/
structure FloatBits where
  sign : Bool
  mant : Nat
  shift : Nat
  deriving DecidableEq, Repr

/-- The finite floats, each written once: the mantissa has at most 53 bits and has all 53
unless the exponent is the least one (zero and the subnormal numbers), and the exponent
is at most the one of the largest float. -/
def FloatBits.Valid (f : FloatBits) : Prop :=
  f.mant < 2 ^ 53 ∧ f.shift ≤ 2045 ∧ (f.shift = 0 ∨ 2 ^ 52 ≤ f.mant)

instance (f : FloatBits) : Decidable f.Valid :=
  inferInstanceAs (Decidable (f.mant < 2 ^ 53 ∧ f.shift ≤ 2045 ∧ (f.shift = 0 ∨ 2 ^ 52 ≤ f.mant)))

/-- A `float64` that is neither NaN nor infinite: the Go value of a JSON number. -/
def Float64 : Type := { f : FloatBits // f.Valid }

instance : DecidableEq Float64 := inferInstanceAs (DecidableEq { f : FloatBits // f.Valid })

instance : Repr Float64 := ⟨fun f n => reprPrec f.val n⟩

/-- The least `x` from `lo` to `hi` with `p x`, by bisection, for a predicate that stays
true once it is true; `hi` when no smaller number has it.  The first argument bounds the
number of halvings. -/
def leastAux (p : Nat → Bool) : Nat → Nat → Nat → Nat
  | 0, _, hi => hi
  | fuel + 1, lo, hi =>
    if hi ≤ lo then hi
    else if p ((lo + hi) / 2) then leastAux p fuel lo ((lo + hi) / 2)
    else leastAux p fuel ((lo + hi) / 2 + 1) hi

/-- The quotient `n / d` rounded to the nearest integer, a tie to the even one. -/
def halfEven (n d : Nat) : Nat :=
  if 2 * (n % d) < d then n / d
  else if d < 2 * (n % d) then n / d + 1
  else if (n / d) % 2 = 0 then n / d else n / d + 1

/-- The float nearest to the fraction `n / d`, a tie to the even mantissa, as
`strconv.ParseFloat` rounds.  The exponent is the least one under which the mantissa
fits into 53 bits; a fraction above the largest float gets an exponent out of range, so
the result is not `Valid`. -/
def roundRatio (sign : Bool) (n d : Nat) : FloatBits :=
  withNat (n * 2 ^ 1074) fun n₁ =>
  withNat (leastAux (fun x => decide (n₁ < d * 2 ^ (x + 53))) 12 0 2046) fun shift =>
  withNat (halfEven n₁ (d * 2 ^ shift)) fun mant =>
  if mant = 2 ^ 53 then ⟨sign, 2 ^ 52, shift + 1⟩ else ⟨sign, mant, shift⟩

/-- The float nearest to the decimal `D * 10 ^ E`. -/
def roundDecimal (sign : Bool) (D : Nat) (E : Int) : FloatBits :=
  if 0 ≤ E then withNat (D * 10 ^ E.toNat) fun n => roundRatio sign n 1
  else withNat (10 ^ (-E).toNat) fun d => roundRatio sign D d

/-- The number a list of decimal digits denotes. -/
def digitsNat (ds : List (Fin 10)) : Nat := ds.foldl (fun a d => 10 * a + d.val) 0

/-- The decimal digits of a number in front of `acc`; the first argument bounds the
number of digits. -/
def natDigitsAux : Nat → Nat → List (Fin 10) → List (Fin 10)
  | 0, _, acc => acc
  | fuel + 1, n, acc =>
    if n < 10 then ⟨n % 10, Nat.mod_lt _ (by decide)⟩ :: acc
    else withNat (n / 10) fun m => natDigitsAux fuel m (⟨n % 10, Nat.mod_lt _ (by decide)⟩ :: acc)

/-- The decimal digits of a number, without leading zero (zero is the digit zero). -/
def natDigits (n : Nat) : List (Fin 10) := natDigitsAux (n + 1) n []

/-- The digits of the integer part of a literal. -/
def intDigits : Option (Fin 9 × List (Fin 10)) → List (Fin 10)
  | none => [0]
  | some (d, ds) => ⟨d.val + 1, by omega⟩ :: ds

/-- The digits of the fraction of a literal. -/
def fracDigits : Option (Fin 10 × List (Fin 10)) → List (Fin 10)
  | none => []
  | some (d, ds) => d :: ds

/-- The exponent of a literal. -/
def expValue : Option (Bool × Option Bool × Fin 10 × List (Fin 10)) → Int
  | none => 0
  | some (_, sign, d, ds) =>
    if sign = some true then -(digitsNat (d :: ds) : Int) else (digitsNat (d :: ds) : Int)

/-- The float a number literal is rounded to (`strconv.ParseFloat(s, 64)`): the digits of
the integer part and of the fraction, scaled by the exponent less the length of the
fraction. -/
def Numeral.toBits (n : Numeral) : FloatBits :=
  roundDecimal n.neg (digitsNat (intDigits n.int ++ fracDigits n.frac))
    (expValue n.exp - ((fracDigits n.frac).length : Int))

/-- The `float64` of a number literal, or `none` when the literal is out of range
(`strconv.ErrRange`: more than half a unit above the largest float). -/
def Numeral.toFloat (n : Numeral) : Option Float64 :=
  if h : n.toBits.Valid then some ⟨n.toBits, h⟩ else none

/-- The exact decimal of a float: `(D, E)` with value `D * 10 ^ E`. -/
def FloatBits.exactDecimal (f : FloatBits) : Nat × Int :=
  if 1074 ≤ f.shift then (f.mant * 2 ^ (f.shift - 1074), 0)
  else (f.mant * 5 ^ (1074 - f.shift), -((1074 - f.shift : Nat) : Int))

/-- The integer part of a literal with the given digits; leading zeros are not written. -/
def mkInt : List (Fin 10) → Option (Fin 9 × List (Fin 10))
  | [] => none
  | d :: ds => if h : d.val = 0 then mkInt ds else some (⟨d.val - 1, by omega⟩, ds)

/-- The fraction of a literal with the given digits. -/
def mkFrac : List (Fin 10) → Option (Fin 10 × List (Fin 10))
  | [] => none
  | d :: ds => some (d, ds)

/-- The exponent of a literal as the verb `%e` writes it after `json.Marshal` has removed
the padding: a lower-case letter, always a sign, and the digits. -/
def mkExp (e : Int) : Option (Bool × Option Bool × Fin 10 × List (Fin 10)) :=
  match natDigits e.natAbs with
  | [] => none
  | d :: ds => some (false, some (decide (e < 0)), d, ds)

/-- The number of zeros a positive number ends in. -/
def trailingZeros : Nat → Nat → Nat
  | 0, _ => 0
  | fuel + 1, c =>
    if c ≠ 0 ∧ c % 10 = 0 then withNat (c / 10) fun c₁ => trailingZeros fuel c₁ + 1 else 0

/-- The verb `%f` with the shortest digits `ds`, the decimal point after `dp` of them. -/
def layoutF (sign : Bool) (ds : List (Fin 10)) (dp : Int) : Numeral :=
  if dp ≤ 0 then ⟨sign, none, mkFrac (List.replicate (-dp).toNat 0 ++ ds), none⟩
  else if dp.toNat < ds.length then
    ⟨sign, mkInt (ds.take dp.toNat), mkFrac (ds.drop dp.toNat), none⟩
  else ⟨sign, mkInt (ds ++ List.replicate (dp.toNat - ds.length) 0), none, none⟩

/-- The verb `%e` with the shortest digits `ds`: one digit, the others as the fraction,
and the exponent. -/
def layoutE (sign : Bool) (ds : List (Fin 10)) (dp : Int) : Numeral :=
  ⟨sign, mkInt (ds.take 1), mkFrac (ds.drop 1), mkExp (dp - 1)⟩

/-- The literal of the decimal `c * 10 ^ x` in the exponent form or in the plain form;
zeros at the end of `c` are not digits of it. -/
def layout (useE sign : Bool) (c : Nat) (x : Int) : Numeral :=
  withNat (trailingZeros (c + 1) c) fun z =>
  withNat (c / 10 ^ z) fun c₁ =>
  if useE then layoutE sign (natDigits c₁) (((natDigits c₁).length : Int) + x + (z : Int))
  else layoutF sign (natDigits c₁) (((natDigits c₁).length : Int) + x + (z : Int))

/-- The float nearest to `1e-6`; `json.Marshal` writes a float below it in the exponent
form. -/
def smallCutoff : FloatBits := ⟨false, 4722366482869645, 1002⟩

/-- Whether `json.Marshal` writes the float in the exponent form: its magnitude is below
`1e-6` or at least `1e21`. -/
def FloatBits.useE (f : FloatBits) : Bool :=
  decide (f.mant * 2 ^ f.shift < smallCutoff.mant * 2 ^ smallCutoff.shift) ||
    decide (10 ^ 21 * 2 ^ 1074 ≤ f.mant * 2 ^ f.shift)

/-- The literal of `f` with `n` digits, if there is one that reads back as `f`: the exact
decimal `D * 10 ^ E` of `f`, which has `L` digits, is cut after `n` digits; the cut
decimal and the next one up are tried, and when both read back as `f` the one nearer to
`f` is taken, a tie going to the even digit. -/
def candidate (f : FloatBits) (D : Nat) (E : Int) (L n : Nat) : Option Numeral :=
  withNat (D / 10 ^ (L - n)) fun q =>
  withNat (D % 10 ^ (L - n)) fun r =>
  if (layout f.useE f.sign q (E + ((L - n : Nat) : Int))).toBits = f ∧
      (layout f.useE f.sign (q + 1) (E + ((L - n : Nat) : Int))).toBits = f then
    if 2 * r < 10 ^ (L - n) then some (layout f.useE f.sign q (E + ((L - n : Nat) : Int)))
    else if 10 ^ (L - n) < 2 * r then
      some (layout f.useE f.sign (q + 1) (E + ((L - n : Nat) : Int)))
    else if q % 2 = 0 then some (layout f.useE f.sign q (E + ((L - n : Nat) : Int)))
    else some (layout f.useE f.sign (q + 1) (E + ((L - n : Nat) : Int)))
  else if (layout f.useE f.sign q (E + ((L - n : Nat) : Int))).toBits = f then
    some (layout f.useE f.sign q (E + ((L - n : Nat) : Int)))
  else if (layout f.useE f.sign (q + 1) (E + ((L - n : Nat) : Int))).toBits = f then
    some (layout f.useE f.sign (q + 1) (E + ((L - n : Nat) : Int)))
  else none

/-- The literal with the fewest digits that reads back as `f`, trying `n`, `n + 1`, ...
digits; the first argument bounds the number of tries. -/
def shortestAux (f : FloatBits) (D : Nat) (E : Int) (L : Nat) : Nat → Nat → Option Numeral
  | 0, _ => none
  | fuel + 1, n =>
    match candidate f D E L n with
    | some lit => some lit
    | none => shortestAux f D E L fuel (n + 1)

/-- The literal of the decimal `D * 10 ^ E` with all its digits. -/
def exactLiteral (sign : Bool) (D : Nat) (E : Int) : Numeral :=
  ⟨sign, mkInt (natDigits D), none, mkExp E⟩

/-- The literal `json.Marshal` writes for a float (`strconv.AppendFloat` with precision
`-1`): the shortest decimal that reads back as the float, in the plain form or, for a
magnitude below `1e-6` or from `1e21` on, in the exponent form.  Seventeen digits always
identify a `float64`, so the search ends by then; the decimal with all digits stands
behind it to make the function total. -/
def FloatBits.format (f : FloatBits) : Numeral :=
  withNat f.mant fun mant =>
  withNat f.shift fun shift =>
  if mant = 0 then ⟨f.sign, none, none, none⟩
  else
    withNat (FloatBits.exactDecimal ⟨f.sign, mant, shift⟩).1 fun D =>
    withNat (leastAux (fun k => decide (D < 10 ^ k)) 12 0 800) fun L =>
    (shortestAux ⟨f.sign, mant, shift⟩ D (FloatBits.exactDecimal ⟨f.sign, mant, shift⟩).2
      L L 1).getD (exactLiteral f.sign D (FloatBits.exactDecimal ⟨f.sign, mant, shift⟩).2)

/-- The literal `json.Marshal` writes for a `float64`. -/
def Float64.format (f : Float64) : Numeral := f.val.format

/-! ## Go values: `json.Marshal` and `json.Unmarshal` on an `interface{}` -/

/-- A Go value held in an `interface{}` that `json.Unmarshal` filled: `nil`, a `bool`, a
`float64`, a `string`, a `[]interface{}` or a `map[string]interface{}`.  A Go map is
represented by its members sorted by key, without duplicates. -/
inductive Value where
  | null
  | bool (b : Bool)
  | number (f : Float64)
  | string (s : String)
  | array (elems : List Value)
  | object (members : List (String × Value))
  deriving Repr

mutual
/-- Decidable equality of Go values. -/
def Value.decEq : (a b : Value) → Decidable (a = b)
  | .null, .null => isTrue rfl
  | .bool a, .bool b =>
      if h : a = b then isTrue (by rw [h]) else isFalse (by intro e; cases e; exact h rfl)
  | .number a, .number b =>
      if h : a = b then isTrue (by rw [h]) else isFalse (by intro e; cases e; exact h rfl)
  | .string a, .string b =>
      if h : a = b then isTrue (by rw [h]) else isFalse (by intro e; cases e; exact h rfl)
  | .array a, .array b =>
      match Value.decEqList a b with
      | isTrue h => isTrue (by rw [h])
      | isFalse h => isFalse (by intro e; cases e; exact h rfl)
  | .object a, .object b =>
      match Value.decEqMembers a b with
      | isTrue h => isTrue (by rw [h])
      | isFalse h => isFalse (by intro e; cases e; exact h rfl)
  | .null, .bool _ | .null, .number _ | .null, .string _ | .null, .array _ | .null, .object _
  | .bool _, .null | .bool _, .number _ | .bool _, .string _ | .bool _, .array _
  | .bool _, .object _
  | .number _, .null | .number _, .bool _ | .number _, .string _ | .number _, .array _
  | .number _, .object _
  | .string _, .null | .string _, .bool _ | .string _, .number _ | .string _, .array _
  | .string _, .object _
  | .array _, .null | .array _, .bool _ | .array _, .number _ | .array _, .string _
  | .array _, .object _
  | .object _, .null | .object _, .bool _ | .object _, .number _ | .object _, .string _
  | .object _, .array _ => isFalse (by intro e; cases e)
/-- Decidable equality of lists of Go values. -/
def Value.decEqList : (a b : List Value) → Decidable (a = b)
  | [], [] => isTrue rfl
  | [], _ :: _ | _ :: _, [] => isFalse (by intro e; cases e)
  | x :: xs, y :: ys =>
      match Value.decEq x y, Value.decEqList xs ys with
      | isTrue h₁, isTrue h₂ => isTrue (by rw [h₁, h₂])
      | isFalse h, _ => isFalse (by intro e; cases e; exact h rfl)
      | _, isFalse h => isFalse (by intro e; cases e; exact h rfl)
/-- Decidable equality of member lists. -/
def Value.decEqMembers : (a b : List (String × Value)) → Decidable (a = b)
  | [], [] => isTrue rfl
  | [], _ :: _ | _ :: _, [] => isFalse (by intro e; cases e)
  | (k, x) :: xs, (l, y) :: ys =>
      if hk : k = l then
        match Value.decEq x y, Value.decEqMembers xs ys with
        | isTrue h₁, isTrue h₂ => isTrue (by rw [hk, h₁, h₂])
        | isFalse h, _ => isFalse (by intro e; cases e; exact h rfl)
        | _, isFalse h => isFalse (by intro e; cases e; exact h rfl)
      else isFalse (by intro e; cases e; exact hk rfl)
end

instance : DecidableEq Value := Value.decEq

mutual
/-- The syntax tree `json.Marshal` writes for a Go value: a float as its shortest
literal, the members of a map in list order (sorted by key). -/
def Value.toJson : Value → Json
  | .null => .null
  | .bool b => .bool b
  | .number f => .number f.format
  | .string s => .string s
  | .array xs => .array (toJsonElems xs)
  | .object ms => .object (toJsonMembers ms)
/-- The syntax trees of the elements of a slice. -/
def toJsonElems : List Value → List Json
  | [] => []
  | x :: xs => x.toJson :: toJsonElems xs
/-- The syntax trees of the members of a map. -/
def toJsonMembers : List (String × Value) → List (String × Json)
  | [] => []
  | (k, x) :: ms => (k, x.toJson) :: toJsonMembers ms
end

/-- The compact encoding of a Go value. -/
def Value.render (v : Value) : Bytes := v.toJson.render

/-- The function `json.Marshal` on a value held in an `interface{}`.  It cannot fail on
values that came out of `json.Unmarshal`. -/
def Marshal (v : Value) : Except Error Bytes := .ok v.render

/-- Store a member in a Go map, kept sorted by key (lexicographically, as
`json.Marshal` orders the keys of a map): a member with the same key is replaced. -/
def insertMember (k : String) (v : Value) : List (String × Value) → List (String × Value)
  | [] => [(k, v)]
  | (k₁, v₁) :: ms =>
    if k.data < k₁.data then (k, v) :: (k₁, v₁) :: ms
    else if k = k₁ then (k, v) :: ms
    else (k₁, v₁) :: insertMember k v ms

mutual
/-- The Go value a syntax tree is stored as in an `interface{}`: a number becomes its
`float64`, an object becomes a map (its members sorted by key, of two members with one
key the later one kept).  A number out of range is the error `UnmarshalTypeError` that
names the literal and the `target` type; the first one in the text is reported. -/
def Json.toValue (target : String) : Json → Except Error Value
  | .null => .ok .null
  | .bool b => .ok (.bool b)
  | .number n =>
    match n.toFloat with
    | some f => .ok (.number f)
    | none => .error (.UnmarshalTypeError ("number " ++ String.mk n.render) target)
  | .string s => .ok (.string s)
  | .array xs =>
    match toValueElems target xs with
    | .ok vs => .ok (.array vs)
    | .error e => .error e
  | .object ms =>
    match toValueMembers target ms [] with
    | .ok vs => .ok (.object vs)
    | .error e => .error e
/-- The Go values of the elements of an array. -/
def toValueElems (target : String) : List Json → Except Error (List Value)
  | [] => .ok []
  | x :: xs =>
    match x.toValue target with
    | .error e => .error e
    | .ok v =>
      match toValueElems target xs with
      | .error e => .error e
      | .ok vs => .ok (v :: vs)
/-- The Go map of the members of an object, stored one by one in text order into `acc`. -/
def toValueMembers (target : String) :
    List (String × Json) → List (String × Value) → Except Error (List (String × Value))
  | [], acc => .ok acc
  | (k, x) :: ms, acc =>
    match x.toValue target with
    | .error e => .error e
    | .ok v => toValueMembers target ms (insertMember k v acc)
end

mutual
/-- The Go value that comes back when a value is marshalled and unmarshalled: every map
has its members sorted by key, of two members with one key the later one. -/
def Value.canon : Value → Value
  | .array xs => .array (canonElems xs)
  | .object ms => .object (canonMembers ms [])
  | .null => .null
  | .bool b => .bool b
  | .number f => .number f
  | .string s => .string s
/-- The same for the elements of a slice. -/
def canonElems : List Value → List Value
  | [] => []
  | x :: xs => x.canon :: canonElems xs
/-- The same for the members of a map, stored one by one into `acc`. -/
def canonMembers : List (String × Value) → List (String × Value) → List (String × Value)
  | [], acc => acc
  | (k, x) :: ms, acc => canonMembers ms (insertMember k x.canon acc)
end

/-- A value is canonical when it is the representation of a Go value: its maps are
sorted by key and have no key twice. -/
def Value.Canonical (v : Value) : Prop := v.canon = v

instance (v : Value) : Decidable v.Canonical := inferInstanceAs (Decidable (v.canon = v))

/-- The character `c` in single quotes, for diagnostics. -/
def quoteChar (c : Char) : String := ⟨[Char.ofNat 39, c, Char.ofNat 39]⟩

/-- The error `json.Unmarshal` reports for a text that is not a JSON document. -/
def ParseError.toUnmarshalError : ParseError → Error
  | .eof => .SyntaxError "unexpected end of JSON input"
  | .bad c context => .SyntaxError ("invalid character " ++ quoteChar c ++ " " ++ context)

/-- The function `json.Unmarshal(data, &x)` with `x` an `interface{}`. -/
def Unmarshal (data : Bytes) : Except Error Value :=
  match parseDocument data with
  | .error e => .error e.toUnmarshalError
  | .ok v => v.toValue "value of type float64"

/-! ## The command envelope -/

/-- The struct `CommandPayload` of `fsm.go`. -/
structure CommandPayload where
  Operation : String
  Key : String
  Value : Dpasswd.Value
  deriving DecidableEq, Repr

/-- The struct `ApplyResponse` of `fsm.go`: `Error` is `none` for a nil error, `Data` is
`Value.null` for a nil interface. -/
structure ApplyResponse where
  Error : Option Dpasswd.Error
  Data : Value
  deriving DecidableEq, Repr

/-- The zero value `CommandPayload{}`. -/
def CommandPayload.zero : CommandPayload := ⟨"", "", .null⟩

/-- The case folding under which `encoding/json` compares an object key with the name of
a struct field, on the code points that fold to an ASCII letter: the letters `a` to `z`,
the Kelvin sign (U+212A, folds with `K`) and the long s (U+017F, folds with `S`).  Every
other code point is kept; it never folds to an ASCII letter, and the field names here are
ASCII. -/
def foldRune (c : Char) : Char :=
  if 97 ≤ c.toNat ∧ c.toNat ≤ 122 then Char.ofNat (c.toNat - 32)
  else if c.toNat = 0x212A then 'K'
  else if c.toNat = 0x17F then 'S'
  else c

/-- Whether the object key `k` selects the struct field `name`: the decoder accepts an
exact match and, failing that, a match under case folding. -/
def fieldMatches (k name : String) : Bool :=
  k.data.map foldRune = name.data.map foldRune

/-- The kind of a JSON value, as named in an `UnmarshalTypeError`. -/
def Json.kind : Json → String
  | .null => "null"
  | .bool _ => "bool"
  | .number _ => "number"
  | .string _ => "string"
  | .array _ => "array"
  | .object _ => "object"

/-- Decode the JSON value `v` into a Go `string` field holding `old`: a string is stored,
`null` leaves the field as it is, anything else is a type error. -/
def decodeStringField (target : String) (old : String) (v : Json) : String × Option Error :=
  match v with
  | .string s => (s, none)
  | .null => (old, none)
  | other => (old, some (.UnmarshalTypeError other.kind target))

/-- Decode one object member into the payload.  The first error is remembered and
decoding goes on, as `encoding/json` does; the field `Value` is an `interface{}` and
takes any value whose numbers are in range. -/
def CommandPayload.setMember (st : CommandPayload × Option Error) (k : String)
    (v : Json) :
    CommandPayload × Option Error :=
  if fieldMatches k "Operation" then
    let r := decodeStringField "struct field CommandPayload.Operation of type string"
      st.1.Operation v
    ({ st.1 with Operation := r.1 }, st.2.orElse (fun _ => r.2))
  else if fieldMatches k "Key" then
    let r := decodeStringField "struct field CommandPayload.Key of type string" st.1.Key v
    ({ st.1 with Key := r.1 }, st.2.orElse (fun _ => r.2))
  else if fieldMatches k "Value" then
    match v.toValue "struct field CommandPayload.Value of type float64" with
    | .ok val => ({ st.1 with Value := val }, st.2)
    | .error e => (st.1, st.2.orElse (fun _ => some e))
  else st

/-- Decode the members of an object into the payload, in text order. -/
def CommandPayload.setMembers :
    CommandPayload × Option Error → List (String × Json) →
      CommandPayload × Option Error
  | st, [] => st
  | st, (k, v) :: ms => CommandPayload.setMembers (CommandPayload.setMember st k v) ms

/-- Decode a parsed JSON value into the struct `into`: an object fills the fields its
keys select, `null` changes nothing, any other value is a type error. -/
def CommandPayload.decode (into : CommandPayload) (v : Json) :
    Except Error CommandPayload :=
  match v with
  | .object ms =>
    match CommandPayload.setMembers (into, none) ms with
    | (p, none) => .ok p
    | (_, some e) => .error e
  | .null => .ok into
  | other => .error (.UnmarshalTypeError other.kind "value of type fsm.CommandPayload")

/-- The call `json.Unmarshal(data, &payload)` with `payload` a `CommandPayload`. -/
def CommandPayload.Unmarshal (data : Bytes) (into : CommandPayload) :
    Except Error CommandPayload :=
  match parseDocument data with
  | .error e => .error e.toUnmarshalError
  | .ok v => CommandPayload.decode into v

/-- The JSON text of a payload: an object with the fields in declaration order under
their Go names. -/
def CommandPayload.encode (p : CommandPayload) : Bytes :=
  Json.render (.object
    [("Operation", .string p.Operation), ("Key", .string p.Key), ("Value", p.Value.toJson)])

/-- The call `json.Marshal(payload)`.  It cannot fail on a payload whose value came out
of `json.Unmarshal`. -/
def CommandPayload.Marshal (p : CommandPayload) : Except Error Bytes := .ok p.encode

/-! ## The streaming decoder `json.Decoder` -/

/-- A `json.Decoder` over a reader whose remaining content is `buf`.  `Restore` never
opens an array or object through `Token`, so the decoder stays in its top-level token
state (`tokenTopValue`); the model is the decoder in that state. -/
structure Decoder where
  buf : Bytes
  deriving DecidableEq, Repr

/-- The function `json.NewDecoder`. -/
def NewDecoder (r : Bytes) : Decoder := ⟨r⟩

/-- The helper `peek`: the next character that is not white space. -/
def Decoder.peek (dec : Decoder) : Except Error Char :=
  match skipSpace dec.buf with
  | [] => .error .EOF
  | c :: _ => .ok c

/-- The method `More`: there is a next character and it closes no array or object. -/
def Decoder.More (dec : Decoder) : Bool :=
  match dec.peek with
  | .ok c => c ≠ ']' && c ≠ Char.ofNat 125
  | .error _ => false

/-- The error `Decode` and `Token` report when the next value cannot be read. -/
def ParseError.toDecodeError (atStart : Bool) : ParseError → Error
  | .eof => if atStart then .EOF else .ErrUnexpectedEOF
  | .bad c context => .SyntaxError ("invalid character " ++ quoteChar c ++ " " ++ context)

/-- The helper `readValue`: the next complete JSON value of the stream and the decoder
after it. -/
def Decoder.readValue (dec : Decoder) : Except Error (Json × Decoder) :=
  match parseValue (dec.buf.length + 1) (skipSpace dec.buf) with
  | .ok (v, rest) => .ok (v, ⟨rest⟩)
  | .error e => .error (e.toDecodeError (skipSpace dec.buf).isEmpty)

/-- The method `Decode(data)` with `data` a `*CommandPayload`: read the next value, then
decode it into the struct.  A type error leaves the value consumed. -/
def Decoder.Decode (dec : Decoder) (into : CommandPayload) :
    Except Error CommandPayload × Decoder :=
  match dec.readValue with
  | .error e => (.error e, dec)
  | .ok (v, dec₁) => (CommandPayload.decode into v, dec₁)

/-- What `Token` returns: a delimiter or a value. -/
inductive Token where
  | Delim (c : Char)
  | value (v : Value)
  deriving DecidableEq, Repr

/-- The helper `tokenError` in the top-level state. -/
def tokenError (c : Char) : Error :=
  .SyntaxError ("invalid character " ++ quoteChar c ++ " looking for beginning of value")

/-- The method `Token` in the top-level token state.  An opening bracket or brace is
returned as a delimiter.  A closing bracket or brace is accepted only inside an array or
object that an earlier `Token` call opened, a colon or comma only inside one as well, so
at top level each of them is a syntax error.  Anything else is decoded as a value. -/
def Decoder.Token (dec : Decoder) : Except Error Token × Decoder :=
  match dec.peek with
  | .error e => (.error e, dec)
  | .ok c =>
    if c = '[' ∨ c = Char.ofNat 123 then (.ok (.Delim c), ⟨(skipSpace dec.buf).tail⟩)
    else if c = ']' ∨ c = Char.ofNat 125 ∨ c = ':' ∨ c = ',' then (.error (tokenError c), dec)
    else
      match dec.readValue with
      | .error e => (.error e, dec)
      | .ok (v, dec₁) =>
        match v.toValue "value of type float64" with
        | .ok val => (.ok (.value val), dec₁)
        | .error e => (.error e, dec₁)

/-! ## The storage engine: badger -/

/-- The first value stored under `key` in an item list. -/
def lookupItem (key : Bytes) : List (Bytes × Bytes) → Option Bytes
  | [] => none
  | (k, v) :: rest => if k = key then some v else lookupItem key rest

/-- The prefix `!badger!` that the engine keeps for its own keys (`badgerPrefix`). -/
def badgerPrefix : Bytes := ['!', 'b', 'a', 'd', 'g', 'e', 'r', '!']

/-- The built-in `len` of a byte string: the number of bytes of its UTF-8 encoding. -/
def byteLength (b : Bytes) : Nat := (b.map Char.utf8Size).sum

/-- The constant `maxKeySize` of `txn.modify`. -/
def maxKeySize : Nat := 65000

/-- The option `ValueLogFileSize` of `badger.DefaultOptions`, with which `main` opens the
store. -/
def ValueLogFileSize : Nat := 2 ^ 30 - 1

/-- The option `ValueThreshold` of `badger.DefaultOptions`. -/
def ValueThreshold : Nat := 2 ^ 10

/-- The limit `maxBatchSize` that `badger.Open` derives from the default table size of
64 MiB. -/
def maxBatchSize : Nat := 15 * (64 * 2 ^ 20) / 100

/-- The limit `maxBatchCount` that `badger.Open` derives: the batch size over the size of
a skip-list node. -/
def maxBatchCount : Nat := maxBatchSize / 96

/-- The keys a transaction can write: not empty, not under the reserved prefix, and of at
most `maxKeySize` bytes. -/
def storableKey (key : Bytes) : Bool :=
  decide (key.length ≠ 0) && !badgerPrefix.isPrefixOf key && decide (byteLength key ≤ maxKeySize)

/-- A `badger.DB`: the stored items (the first entry of a key is the live one).  Only
entries under keys that a transaction can write are contents of the store. -/
structure DB where
  items : List (Bytes × Bytes)
  deriving DecidableEq, Repr

/-- The value stored under a key, if any. -/
def DB.lookup (db : DB) (key : Bytes) : Option Bytes :=
  if storableKey key then lookupItem key db.items else none

/-- The store with `key` bound to `val`. -/
def DB.put (db : DB) (key val : Bytes) : DB :=
  ⟨(key, val) :: db.items.filter (fun p => p.1 ≠ key)⟩

/-- The store without `key`. -/
def DB.erase (db : DB) (key : Bytes) : DB :=
  ⟨db.items.filter (fun p => p.1 ≠ key)⟩

/-- The keys that hold a value. -/
def DB.keys (db : DB) : List Bytes := ((db.items.map Prod.fst).filter storableKey).dedup

/-- Two stores have the same contents when every key reads the same in both. -/
def DB.SameContents (a b : DB) : Prop := ∀ key, a.lookup key = b.lookup key

/-- A `badger.Txn`: the store it was opened on, whether it may write, its pending
writes, newest first (`none` is a delete), and the count and size of its entries that
`checkSize` keeps. -/
structure Txn where
  db : DB
  update : Bool
  pendingWrites : List (Bytes × Option Bytes)
  count : Nat
  size : Nat
  deriving DecidableEq, Repr

/-- The method `db.NewTransaction(update)`: the transaction starts with one entry counted
and the size of the key `!badger!txn` plus ten, for the entry that ends it. -/
def DB.NewTransaction (db : DB) (update : Bool) : Txn := ⟨db, update, [], 1, 21⟩

/-- The newest pending write of a key. -/
def lookupPending (key : Bytes) : List (Bytes × Option Bytes) → Option (Option Bytes)
  | [] => none
  | (k, w) :: rest => if k = key then some w else lookupPending key rest

/-- The method `txn.Get(key)` followed by a copy of the item value: an empty key is
rejected with `ErrEmptyKey`, a key without value gives `ErrKeyNotFound`. -/
def Txn.Get (txn : Txn) (key : Bytes) : Except Error Bytes :=
  if key.length = 0 then .error .ErrEmptyKey
  else
    match lookupPending key txn.pendingWrites with
    | some (some v) => .ok v
    | some none => .error .ErrKeyNotFound
    | none =>
      match txn.db.lookup key with
      | some v => .ok v
      | none => .error .ErrKeyNotFound

/-- The method `Entry.estimateSize`: a value below the threshold counts with its length,
a longer one is kept in the value log and counts as a pointer of twelve bytes. -/
def estimateSize (key value : Bytes) : Nat :=
  if byteLength value < ValueThreshold then byteLength key + byteLength value + 2
  else byteLength key + 12 + 2

/-- The helper `txn.modify` on an entry with the given key and value (`none` is a
delete, whose entry has no value).  In this order: a read-only transaction is rejected
with `ErrReadOnlyTxn`, an empty key with `ErrEmptyKey`, a key under the reserved prefix
with `ErrInvalidKey`, a key above `maxKeySize` and a value above `ValueLogFileSize` with
the error of `exceedsSize`, and (the helper `checkSize`) a transaction that grows to
`maxBatchCount` entries or `maxBatchSize` bytes with `ErrTxnTooBig`; otherwise the write is
recorded. -/
def Txn.modify (txn : Txn) (key : Bytes) (w : Option Bytes) : Except Error Txn :=
  if !txn.update then .error .ErrReadOnlyTxn
  else if key.length = 0 then .error .ErrEmptyKey
  else if badgerPrefix.isPrefixOf key then .error .ErrInvalidKey
  else if byteLength key > maxKeySize then
    .error (.ErrExceedsSize "Key" (byteLength key) maxKeySize)
  else if byteLength (w.getD []) > ValueLogFileSize then
    .error (.ErrExceedsSize "Value" (byteLength (w.getD [])) ValueLogFileSize)
  else if txn.count + 1 ≥ maxBatchCount ∨
      txn.size + estimateSize key (w.getD []) + 10 ≥ maxBatchSize then
    .error .ErrTxnTooBig
  else
    .ok { txn with
      pendingWrites := (key, w) :: txn.pendingWrites
      count := txn.count + 1
      size := txn.size + estimateSize key (w.getD []) + 10 }

/-- The method `txn.Set(key, val)`. -/
def Txn.Set (txn : Txn) (key val : Bytes) : Except Error Txn := txn.modify key (some val)

/-- The method `txn.Delete(key)`. -/
def Txn.Delete (txn : Txn) (key : Bytes) : Except Error Txn := txn.modify key none

/-- Apply one write to the store. -/
def DB.write (db : DB) (w : Bytes × Option Bytes) : DB :=
  match w.2 with
  | some v => db.put w.1 v
  | none => db.erase w.1

/-- The method `txn.Commit()` on an engine that is in the condition `fault`: with
`none` the engine is healthy and the pending writes reach the store, oldest first; with
`some err` the engine cannot write (a full disk, a closed store) and the commit of a
transaction that has writes returns `err` and changes nothing. -/
def Txn.CommitWith (txn : Txn) (fault : Option Error) : DB × Option Error :=
  match fault with
  | none => (txn.pendingWrites.foldr (fun w db => db.write w) txn.db, none)
  | some err => if txn.pendingWrites.length = 0 then (txn.db, none) else (txn.db, some err)

/-- The method `txn.Commit()` on a healthy engine. -/
def Txn.Commit (txn : Txn) : DB × Option Error := txn.CommitWith none

/-- The method `txn.Discard()`: the pending writes are dropped. -/
def Txn.Discard (txn : Txn) : DB := txn.db

/-! ## The raft FSM of `fsm/fsm.go` -/

/-- The struct `badgerFSM`: the FSM owns the store. -/
structure badgerFSM where
  db : DB
  deriving DecidableEq, Repr

/-- The method `badgerFSM.get`. -/
def badgerFSM.get (b : badgerFSM) (key : String) : Value × Option Error :=
  let keyByte := key.data
  let txn := b.db.NewTransaction false
  match txn.Get keyByte with
  | .error err => (.object [], some err)
  | .ok value =>
    if value.length > 0 then
      match Unmarshal value with
      | .error err => (.object [], some err)
      | .ok data => (data, none)
    else (.null, none)

/-- The method `badgerFSM.set`, on an engine in the condition `fault` (see
`Txn.CommitWith`). -/
def badgerFSM.setWith (b : badgerFSM) (fault : Option Error) (key : String) (value : Value) :
    badgerFSM × Option Error :=
  match Marshal value with
  | .error err => (b, some err)
  | .ok data =>
    if data.length ≤ 0 then (b, none)
    else
      let txn := b.db.NewTransaction true
      match txn.Set key.data data with
      | .error err => (⟨txn.Discard⟩, some err)
      | .ok txn₁ => (⟨(txn₁.CommitWith fault).1⟩, (txn₁.CommitWith fault).2)

/-- The method `badgerFSM.set` on a healthy engine. -/
def badgerFSM.set (b : badgerFSM) (key : String) (value : Value) : badgerFSM × Option Error :=
  b.setWith none key value

/-- The method `badgerFSM.delete`, on an engine in the condition `fault`. -/
def badgerFSM.deleteWith (b : badgerFSM) (fault : Option Error) (key : String) :
    badgerFSM × Option Error :=
  let keyByte := key.data
  let txn := b.db.NewTransaction true
  match txn.Delete keyByte with
  | .error err => (b, some err)
  | .ok txn₁ => (⟨(txn₁.CommitWith fault).1⟩, (txn₁.CommitWith fault).2)

/-- The method `badgerFSM.delete` on a healthy engine. -/
def badgerFSM.delete (b : badgerFSM) (key : String) : badgerFSM × Option Error :=
  b.deleteWith none key

/-- The type `raft.LogType`. -/
inductive LogType where
  | LogCommand
  | LogNoop
  | LogAddPeerDeprecated
  | LogRemovePeerDeprecated
  | LogBarrier
  | LogConfiguration
  deriving DecidableEq, Repr

/-- The struct `raft.Log`, reduced to the fields `Apply` reads. -/
structure Log where
  Type' : LogType
  Data : Bytes
  deriving DecidableEq, Repr

/-- The method `badgerFSM.Apply` on an engine in the condition `fault`: the store after
the call and the returned interface, `none` for `nil`. -/
def badgerFSM.ApplyWith (b : badgerFSM) (fault : Option Error) (log : Log) :
    badgerFSM × Option ApplyResponse :=
  match log.Type' with
  | .LogCommand =>
    match CommandPayload.Unmarshal log.Data CommandPayload.zero with
    | .error _ => (b, none)
    | .ok payload =>
      let op := ToUpper (TrimSpace payload.Operation)
      if op = "SET" then
        ((b.setWith fault payload.Key payload.Value).1,
          some ⟨(b.setWith fault payload.Key payload.Value).2, payload.Value⟩)
      else if op = "GET" then
        (b, some ⟨(b.get payload.Key).2, (b.get payload.Key).1⟩)
      else if op = "DELETE" then
        ((b.deleteWith fault payload.Key).1, some ⟨(b.deleteWith fault payload.Key).2, .null⟩)
      else (b, none)
  | _ => (b, none)

/-- The method `badgerFSM.Apply` on a healthy engine. -/
def badgerFSM.Apply (b : badgerFSM) (log : Log) : badgerFSM × Option ApplyResponse :=
  b.ApplyWith none log

/-- The loop of `badgerFSM.Restore`: while `decoder.More()`, decode a record and set
it; then read one token.  The result is the store, the returned error and the number
of records restored; `none` only if the iteration bound is exhausted. -/
def restoreLoop : Nat → Decoder → badgerFSM → Nat → Option (badgerFSM × Option Error × Nat)
  | 0, _, _, _ => none
  | fuel + 1, decoder, b, totalRestored =>
    if decoder.More then
      match decoder.Decode CommandPayload.zero with
      | (.error err, _) => some (b, some err, totalRestored)
      | (.ok data, decoder₁) =>
        match b.set data.Key data.Value with
        | (b₁, some err) => some (b₁, some err, totalRestored)
        | (b₁, none) => restoreLoop fuel decoder₁ b₁ (totalRestored + 1)
    else
      match decoder.Token with
      | (.error err, _) => some (b, some err, totalRestored)
      | (.ok _, _) => some (b, none, totalRestored)

/-- The method `badgerFSM.Restore` on a reader that delivers `rClose` and then ends.
Every round of the loop consumes at least one character, so the length of the stream
bounds the number of rounds. -/
def badgerFSM.Restore (b : badgerFSM) (rClose : Bytes) :
    Option (badgerFSM × Option Error × Nat) :=
  restoreLoop (rClose.length + 1) (NewDecoder rClose) b 0

/-- Apply a sequence of log entries in order: the final store and the responses. -/
def applyAll : badgerFSM → List Log → badgerFSM × List (Option ApplyResponse)
  | b, [] => (b, [])
  | b, log :: logs =>
    ((applyAll (b.Apply log).1 logs).1, (b.Apply log).2 :: (applyAll (b.Apply log).1 logs).2)

/-- A replica applies a sequence of log entries in order, each on an engine in the
condition given with it: the final store and the responses. -/
def applyAllWith : badgerFSM → List (Log × Option Error) →
    badgerFSM × List (Option ApplyResponse)
  | b, [] => (b, [])
  | b, (log, fault) :: logs =>
    ((applyAllWith (b.ApplyWith fault log).1 logs).1,
      (b.ApplyWith fault log).2 :: (applyAllWith (b.ApplyWith fault log).1 logs).2)

/-! ## The consensus engine and the HTTP handlers of `httpd/httpd.go` -/

/-- The type `raft.RaftState`. -/
inductive RaftState where
  | Follower
  | Candidate
  | Leader
  | Shutdown
  deriving DecidableEq, Repr

/-- What `applyFuture.Response()` holds: the `*fsm.ApplyResponse` the FSM returned, or
something that is not one (`nil` included). -/
inductive FutureResponse where
  | applyResponse (r : ApplyResponse)
  | notApplyResponse
  deriving DecidableEq, Repr

/-- A `raft.ApplyFuture` that has completed. -/
structure ApplyFuture where
  Error : Option Dpasswd.Error
  Response : FutureResponse
  deriving DecidableEq, Repr

/-- The consensus engine `*raft.Raft` as a handler sees it during one request: its
state and the outcome of each call the handler may make. -/
structure Raft where
  State : RaftState
  GetConfiguration : Option Error
  AddVoter : String → String → Nat → Nat → Option Error
  RemoveServer : String → Nat → Nat → Option Error
  Apply : Bytes → Nat → ApplyFuture
  Stats : List (String × String)

/-- A call a handler makes on the consensus engine or on the store. -/
inductive Call where
  | State
  | GetConfiguration
  | AddVoter (id address : String) (prevIndex prevTerm : Nat)
  | RemoveServer (id : String) (prevIndex prevTerm : Nat)
  | Apply (cmd : Bytes) (timeoutMs : Nat)
  | Stats
  | NewTransaction (update : Bool)
  deriving DecidableEq, Repr

/-- An HTTP response: status code and JSON body. -/
structure Response where
  code : Nat
  body : Value
  deriving DecidableEq, Repr

/-- The constant `http.StatusUnprocessableEntity`. -/
def StatusUnprocessableEntity : Nat := 422

/-- The constant `http.StatusOK`. -/
def StatusOK : Nat := 200

/-- The body of an error response: a map with the single key `error`. -/
def errorBody (msg : String) : Value := .object [("error", .string msg)]

/-- The body of a success response: a map with the keys `message` and `data`. -/
def okBody (message : String) (data : Value) : Value :=
  .object [("data", data), ("message", .string message)]

/-- The statistics map as a JSON object. -/
def statsValue (stats : List (String × String)) : Value :=
  .object (stats.map (fun kv => (kv.1, Value.string kv.2)))

/-- The struct `raftHandler`. -/
structure raftHandler where
  raft : Raft

/-- The struct `raftJoinRequest`. -/
structure raftJoinRequest where
  NodeID : String
  RaftAddress : String
  deriving DecidableEq, Repr

/-- The struct `raftRemoveRequest`. -/
structure raftRemoveRequest where
  NodeID : String
  deriving DecidableEq, Repr

/-- The handler `raftHandler.Join`.  The argument `bind` is the outcome of
`eCtx.Bind(&req)`; the result is the response and the calls made, in order. -/
def raftHandler.Join (rh : raftHandler) (bind : Except Error raftJoinRequest) :
    Response × List Call :=
  match bind with
  | .error err => (⟨StatusUnprocessableEntity, errorBody ("error binding: " ++ err.Error)⟩, [])
  | .ok req =>
    if rh.raft.State ≠ .Leader then
      (⟨StatusUnprocessableEntity, errorBody "not the leader"⟩, [.State])
    else
      match rh.raft.GetConfiguration with
      | some err =>
        (⟨StatusUnprocessableEntity,
          errorBody ("failed to get raft configuration: " ++ err.Error)⟩,
          [.State, .GetConfiguration])
      | none =>
        match rh.raft.AddVoter req.NodeID req.RaftAddress 0 0 with
        | some err =>
          (⟨StatusUnprocessableEntity, errorBody ("error add voter: " ++ err.Error)⟩,
            [.State, .GetConfiguration, .AddVoter req.NodeID req.RaftAddress 0 0])
        | none =>
          (⟨StatusOK,
            okBody ("node " ++ req.NodeID ++ " at " ++ req.RaftAddress ++ " joined successfully")
              (statsValue rh.raft.Stats)⟩,
            [.State, .GetConfiguration, .AddVoter req.NodeID req.RaftAddress 0 0, .Stats])

/-- The handler `raftHandler.Remove`. -/
def raftHandler.Remove (rh : raftHandler) (bind : Except Error raftRemoveRequest) :
    Response × List Call :=
  match bind with
  | .error err => (⟨StatusUnprocessableEntity, errorBody ("error binding: " ++ err.Error)⟩, [])
  | .ok req =>
    if rh.raft.State ≠ .Leader then
      (⟨StatusUnprocessableEntity, errorBody "not the leader"⟩, [.State])
    else
      match rh.raft.GetConfiguration with
      | some err =>
        (⟨StatusUnprocessableEntity,
          errorBody ("failed to get raft configuration: " ++ err.Error)⟩,
          [.State, .GetConfiguration])
      | none =>
        match rh.raft.RemoveServer req.NodeID 0 0 with
        | some err =>
          (⟨StatusUnprocessableEntity,
            errorBody ("error removing existing node " ++ req.NodeID ++ ": " ++ err.Error)⟩,
            [.State, .GetConfiguration, .RemoveServer req.NodeID 0 0])
        | none =>
          (⟨StatusOK,
            okBody ("node " ++ req.NodeID ++ " removed successfully") (statsValue rh.raft.Stats)⟩,
            [.State, .GetConfiguration, .RemoveServer req.NodeID 0 0, .Stats])

/-- The handler `raftHandler.Stats`. -/
def raftHandler.Stats (rh : raftHandler) : Response × List Call :=
  (⟨StatusOK, okBody "raft cluster status" (statsValue rh.raft.Stats)⟩, [.Stats])

/-- The struct `fsmHandler`. -/
structure fsmHandler where
  raft : Raft
  db : DB

/-- The struct `fsmSetRequest`. -/
structure fsmSetRequest where
  Key : String
  Value : Dpasswd.Value
  deriving DecidableEq, Repr

/-- The JSON form of an `fsmSetRequest`, under its field tags. -/
def fsmSetRequest.toValue (req : fsmSetRequest) : Dpasswd.Value :=
  .object [("key", .string req.Key), ("value", req.Value)]

/-- The handler `fsmHandler.Set`.  The argument `bind` is the outcome of
`eCtx.Bind(&req)`. -/
def fsmHandler.Set (fh : fsmHandler) (bind : Except Error fsmSetRequest) :
    Response × List Call :=
  match bind with
  | .error err => (⟨StatusUnprocessableEntity, errorBody ("error binding: " ++ err.Error)⟩, [])
  | .ok req₀ =>
    let req : fsmSetRequest := { req₀ with Key := TrimSpace req₀.Key }
    if req.Key = "" then (⟨StatusUnprocessableEntity, errorBody "key is empty"⟩, [])
    else if fh.raft.State ≠ .Leader then
      (⟨StatusUnprocessableEntity, errorBody "not the leader"⟩, [.State])
    else
      let payload : CommandPayload := ⟨"SET", req.Key, req.Value⟩
      match payload.Marshal with
      | .error err =>
        (⟨StatusUnprocessableEntity,
          errorBody ("error preparing saving data payload: " ++ err.Error)⟩, [.State])
      | .ok data =>
        let applyFuture := fh.raft.Apply data 500
        match applyFuture.Error with
        | some err =>
          (⟨StatusUnprocessableEntity,
            errorBody ("error applying data to raft cluster: " ++ err.Error)⟩,
            [.State, .Apply data 500])
        | none =>
          match applyFuture.Response with
          | .notApplyResponse =>
            (⟨StatusUnprocessableEntity, errorBody "error response is not match apply response"⟩,
              [.State, .Apply data 500])
          | .applyResponse _ =>
            (⟨StatusOK, okBody "data stored successfully" req.toValue⟩,
              [.State, .Apply data 500])

/-- The handler `fsmHandler.Get`.  The argument `param` is `eCtx.Param("key")`. -/
def fsmHandler.Get (fh : fsmHandler) (param : String) : Response × List Call :=
  let key := TrimSpace param
  if key = "" then (⟨StatusUnprocessableEntity, errorBody "key is empty"⟩, [])
  else
    let keyByte := key.data
    let txn := fh.db.NewTransaction false
    match txn.Get keyByte with
    | .error err =>
      (⟨StatusUnprocessableEntity,
        errorBody ("error getting key " ++ key ++ " from storage: " ++ err.Error)⟩,
        [.NewTransaction false])
    | .ok value =>
      match (if value.length > 0 then Unmarshal value else .ok Value.null) with
      | .error err =>
        (⟨StatusUnprocessableEntity, errorBody ("error unmarshal data: " ++ err.Error)⟩,
          [.NewTransaction false])
      | .ok data =>
        (⟨StatusOK,
          okBody "data fetched successfully" (.object [("key", .string key), ("value", data)])⟩,
          [.NewTransaction false])

/-- The handler `fsmHandler.Delete`.  The argument `param` is `eCtx.Param("key")`. -/
def fsmHandler.Delete (fh : fsmHandler) (param : String) : Response × List Call :=
  let key := TrimSpace param
  if key = "" then (⟨StatusUnprocessableEntity, errorBody "key is empty"⟩, [])
  else if fh.raft.State ≠ .Leader then
    (⟨StatusUnprocessableEntity, errorBody "not the leader"⟩, [.State])
  else
    let payload : CommandPayload := ⟨"DELETE", key, .null⟩
    match payload.Marshal with
    | .error err =>
      (⟨StatusUnprocessableEntity,
        errorBody ("error preparing remove data payload: " ++ err.Error)⟩, [.State])
    | .ok data =>
      let applyFuture := fh.raft.Apply data 500
      match applyFuture.Error with
      | some err =>
        (⟨StatusUnprocessableEntity,
          errorBody ("error removing data in raft cluster: " ++ err.Error)⟩,
          [.State, .Apply data 500])
      | none =>
        match applyFuture.Response with
        | .notApplyResponse =>
          (⟨StatusUnprocessableEntity, errorBody "error response is not match apply response"⟩,
            [.State, .Apply data 500])
        | .applyResponse _ =>
          (⟨StatusOK,
            okBody "data removed successfully" (.object [("key", .string key), ("value", .null)])⟩,
            [.State, .Apply data 500])

/-! ## Auxiliary predicates for the proofs -/

/-- A text at whose head no number literal can go on. -/
def NumberEnd : List Char → Prop
  | [] => True
  | c :: _ => charDigit? c = none ∧ c ≠ '.' ∧ c ≠ 'e' ∧ c ≠ 'E'

/-- The characters a rendered value can start with: no white space and no closing or
separating token. -/
def ValueStart (c : Char) : Prop :=
  isSpace c = false ∧ c ≠ ']' ∧ c ≠ Char.ofNat 125 ∧ c ≠ ',' ∧ c ≠ ':'

/-- The members of a Go map: keys strictly ascending, values canonical. -/
def GoodMembers (ms : List (String × Value)) : Prop :=
  (ms.map (fun p => p.1.data)).Pairwise (· < ·) ∧ ∀ p ∈ ms, p.2.canon = p.2

/-- The log entry that carries a command: a `LogCommand` whose data is the marshalled
payload, as `fsmHandler.Set` and `fsmHandler.Delete` submit it. -/
def CommandPayload.toLog (p : CommandPayload) : Log := ⟨.LogCommand, p.encode⟩

/-- A consensus engine in the given state whose calls all succeed, with no statistics and
an apply future that carries no `ApplyResponse`. -/
def idleRaft (state : RaftState) : Raft :=
  ⟨state, none, fun _ _ _ _ => none, fun _ _ _ => none, fun _ _ => ⟨none, .notApplyResponse⟩, []⟩

/-- The empty store. -/
def emptyFSM : badgerFSM := ⟨⟨[]⟩⟩

/-- The JSON number of a single non-zero digit `d + 1`. -/
def Value.digit (d : Fin 9) : Value :=
  match (⟨false, some (d, []), none, none⟩ : Numeral).toFloat with
  | some f => .number f
  | none => .null

/-- A snapshot stream: the marshalled records one after the other. -/
def encodeRecords : List CommandPayload → Bytes
  | [] => []
  | p :: ps => p.toLog.Data ++ encodeRecords ps

/-- The condition under which the store takes the write of `value` under `key`: the key
can be written and the value is no longer than a value log file. -/
def Storable (key value : Bytes) : Prop :=
  storableKey key = true ∧ byteLength value ≤ ValueLogFileSize

instance (key value : Bytes) : Decidable (Storable key value) :=
  inferInstanceAs (Decidable (storableKey key = true ∧ byteLength value ≤ ValueLogFileSize))

/-- A snapshot stream: the texts of its records one after the other. -/
def concatRecords : List Bytes → Bytes
  | [] => []
  | r :: rs => r ++ concatRecords rs

/-- A valid `SET` record: a text that `json.Unmarshal` decodes into a `CommandPayload`
whose operation, trimmed and upper-cased, is `SET`, and whose write the store takes. -/
def validSetRecord (r : Bytes) : Bool :=
  match CommandPayload.Unmarshal r CommandPayload.zero with
  | .ok p => decide (ToUpper (TrimSpace p.Operation) = "SET") &&
      decide (Storable p.Key.data p.Value.render)
  | .error _ => false

/-- The key of a record. -/
def recordKey (r : Bytes) : String :=
  match CommandPayload.Unmarshal r CommandPayload.zero with
  | .ok p => p.Key
  | .error _ => ""

/-- The command log entry whose data is the text of a record. -/
def recordLog (r : Bytes) : Log := ⟨.LogCommand, r⟩

/-- Whether `Apply` on the entry gets as far as `txn.Commit` with a write pending: the
entry is a command that decodes, and it is a `SET` whose key and value the transaction
takes or a `DELETE` whose key it takes. -/
def reachesCommit (log : Log) : Bool :=
  match log.Type' with
  | .LogCommand =>
    match CommandPayload.Unmarshal log.Data CommandPayload.zero with
    | .ok p =>
      if ToUpper (TrimSpace p.Operation) = "SET" then
        decide (Storable p.Key.data p.Value.render)
      else if ToUpper (TrimSpace p.Operation) = "GET" then false
      else if ToUpper (TrimSpace p.Operation) = "DELETE" then storableKey p.Key.data
      else false
    | .error _ => false
  | _ => false

/-! ## The client of `client/app.go`: slices, key derivation and AES-GCM -/

/-- A Go byte slice: the bytes it shows (`len` of them) and the bytes of its backing
array behind those, up to the capacity. -/
structure GoSlice where
  elems : List Nat
  spare : List Nat
  deriving DecidableEq, Repr

/-- The built-in `len`. -/
def GoSlice.len (s : GoSlice) : Nat := s.elems.length

/-- The built-in `cap`. -/
def GoSlice.cap (s : GoSlice) : Nat := s.elems.length + s.spare.length

/-- A run-time panic of the client. -/
inductive Panic where
  /-- The panic `slice bounds out of range` of the slice expression with the bounds
  `low` and `high` on a slice of capacity `cap`. -/
  | sliceBounds (low high : Int) (cap : Nat)
  /-- The panic `crypto/cipher: incorrect nonce length given to GCM`. -/
  | nonceLength
  deriving DecidableEq, Repr

/-- How a call ends: with a result, with an error value, or in a panic. -/
inductive Outcome (α : Type) where
  | ok (a : α)
  | error (err : Error)
  | panic (p : Panic)
  deriving DecidableEq, Repr

/-- The slice expression `s[low:high]`: in range when `0 <= low <= high <= cap(s)`; the
result shows the bytes from `low` to `high` of the backing array and keeps the rest of
it as capacity. -/
def GoSlice.slice (s : GoSlice) (low high : Int) : Except Panic GoSlice :=
  if 0 ≤ low ∧ low ≤ high ∧ high ≤ (s.cap : Int) then
    .ok ⟨((s.elems ++ s.spare).drop low.toNat).take (high.toNat - low.toNat),
      (s.elems ++ s.spare).drop high.toNat⟩
  else .error (.sliceBounds low high s.cap)

/-- The slice expression `s[low:]`, whose upper bound is `len(s)`. -/
def GoSlice.sliceFrom (s : GoSlice) (low : Int) : Except Panic GoSlice := s.slice low s.len

/-- The slice expression `s[:high]`, whose lower bound is zero. -/
def GoSlice.sliceTo (s : GoSlice) (high : Int) : Except Panic GoSlice := s.slice 0 high

/-- The cryptographic primitives the client calls, taken as given: the bytes of the
scrypt output, the system random source, and the authenticated opening of AES-GCM
(`none` when the tag does not verify). -/
structure Crypto where
  scryptByte : List Nat → List Nat → Nat → Nat → Nat → Nat → Nat
  randRead : Nat → Except Error (List Nat)
  gcmOpen : List Nat → List Nat → List Nat → Option (List Nat)

/-- The largest `int` of a 64-bit platform. -/
def maxInt : Nat := 2 ^ 63 - 1

/-- The function `scrypt.Key(password, salt, N, r, p, keyLen)`: it rejects a cost `N`
that is not a power of two above one and parameters that are too large, and otherwise
returns `keyLen` bytes. -/
def scryptKey (c : Crypto) (password salt : List Nat) (N r p keyLen : Nat) :
    Except Error (List Nat) :=
  if N ≤ 1 ∨ Nat.land N (N - 1) ≠ 0 then
    .error (.other "scrypt: N must be > 1 and a power of 2")
  else if r * p ≥ 2 ^ 30 ∨ r > maxInt / 128 / p ∨ r > maxInt / 256 ∨ N > maxInt / 128 / r then
    .error (.other "scrypt: parameters are too large")
  else .ok ((List.range keyLen).map (c.scryptByte password salt N r p))

/-- The function `DeriveKey` of `client/app.go`; a nil salt is `none`. -/
def DeriveKey (c : Crypto) (password : List Nat) (salt : Option (List Nat)) :
    Except Error (List Nat × List Nat) :=
  match (match salt with
    | some s => Except.ok s
    | none => c.randRead 32) with
  | .error err => .error err
  | .ok salt₁ =>
    match scryptKey c password salt₁ (2 ^ 15) 8 1 32 with
    | .error err => .error err
    | .ok key => .ok (key, salt₁)

/-- An AES block cipher: its key. -/
structure AESBlock where
  key : List Nat
  deriving DecidableEq, Repr

/-- The function `aes.NewCipher`: the key must have 16, 24 or 32 bytes. -/
def aesNewCipher (key : List Nat) : Except Error AESBlock :=
  if key.length = 16 ∨ key.length = 24 ∨ key.length = 32 then .ok ⟨key⟩
  else .error (.other "crypto/aes: invalid key size")

/-- An AEAD in Galois counter mode: key, nonce size and tag size. -/
structure GCM where
  key : List Nat
  nonceSize : Nat
  tagSize : Nat
  deriving DecidableEq, Repr

/-- The function `cipher.NewGCM` on an AES block cipher: the standard nonce of 12 bytes
and tag of 16 bytes. -/
def NewGCM (blockCipher : AESBlock) : Except Error GCM := .ok ⟨blockCipher.key, 12, 16⟩

/-- The method `gcm.NonceSize()`. -/
def GCM.NonceSize (g : GCM) : Nat := g.nonceSize

/-- The error `cipher: message authentication failed`. -/
def errOpen : Error := .other "cipher: message authentication failed"

/-- The method `gcm.Open(nil, nonce, ciphertext, nil)`: a nonce of the wrong length is a
panic, a ciphertext shorter than the tag or one that does not authenticate is an
error. -/
def GCM.Open (c : Crypto) (g : GCM) (nonce ciphertext : List Nat) : Outcome (List Nat) :=
  if nonce.length ≠ g.nonceSize then .panic .nonceLength
  else if ciphertext.length < g.tagSize then .error errOpen
  else
    match c.gcmOpen g.key nonce ciphertext with
    | some plaintext => .ok plaintext
    | none => .error errOpen

/-- The function `Decrypt` of `client/app.go`. -/
def Decrypt (c : Crypto) (data key : GoSlice) : Outcome (List Nat) :=
  match data.sliceFrom ((data.len : Int) - 32) with
  | .error p => .panic p
  | .ok salt =>
    match data.sliceTo ((data.len : Int) - 32) with
    | .error p => .panic p
    | .ok data₁ =>
      match DeriveKey c key.elems (some salt.elems) with
      | .error err => .error err
      | .ok (key₁, _) =>
        match aesNewCipher key₁ with
        | .error err => .error err
        | .ok blockCipher =>
          match NewGCM blockCipher with
          | .error err => .error err
          | .ok gcm =>
            match data₁.sliceTo gcm.NonceSize with
            | .error p => .panic p
            | .ok nonce =>
              match data₁.sliceFrom gcm.NonceSize with
              | .error p => .panic p
              | .ok ciphertext => gcm.Open c nonce.elems ciphertext.elems

/-- A consensus engine on the leader whose apply future completes without error and
carries an `ApplyResponse` in which the FSM recorded a store failure. -/
def storeFailureRaft : Raft :=
  ⟨.Leader, none, fun _ _ _ _ => none, fun _ _ _ => none,
    fun _ _ => ⟨none, .applyResponse ⟨some (.other "Txn is too big to fit into one request"),
      .null⟩⟩, []⟩

/-- Primitives for evaluation: scrypt yields zero bytes, no ciphertext authenticates. -/
def nullCrypto : Crypto :=
  ⟨fun _ _ _ _ _ _ => 0, fun n => .ok (List.replicate n 0), fun _ _ _ => none⟩

end Dpasswd

namespace Dpasswd

/-! ## The encoder and the parser are inverse -/

theorem charDigit?_digitChar (d : Fin 10) : charDigit? (digitChar d) = some d := by
  revert d; decide

theorem charLead?_leadChar (d : Fin 9) : charLead? (leadChar d) = some d := by
  revert d; decide

theorem digitChar_ne_sign (d : Fin 10) : digitChar d ≠ '+' ∧ digitChar d ≠ '-' := by
  revert d; decide

theorem leadChar_ne (d : Fin 9) : leadChar d ≠ '0' ∧ leadChar d ≠ '-' := by
  revert d; decide

theorem parseDigits_append (ds : List (Fin 10)) (rest : List Char)
    (h : ∀ c r, rest = c :: r → charDigit? c = none) :
    parseDigits (ds.map digitChar ++ rest) = (ds, rest) := by
  induction ds with
  | nil =>
    cases rest with
    | nil => rfl
    | cons c r => simp [parseDigits, h c r rfl]
  | cons d ds ih => simp [parseDigits, charDigit?_digitChar, ih]

theorem parseExp_render (e : Option (Bool × Option Bool × Fin 10 × List (Fin 10)))
    (rest : List Char) (h : NumberEnd rest) :
    parseExp (renderExp e ++ rest) = .ok (e, rest) := by
  have hd : ∀ c r, rest = c :: r → charDigit? c = none := by
    intro c r hr; subst hr; exact h.1
  cases e with
  | none =>
    cases rest with
    | nil => rfl
    | cons c r => simp [renderExp, parseExp, h.2.2.1, h.2.2.2]
  | some e =>
    obtain ⟨up, sign, d, ds⟩ := e
    have hs := digitChar_ne_sign d
    cases up <;> cases sign with
    | none => simp [renderExp, renderSign, parseExp, parseExpDigits, hs.1, hs.2,
        charDigit?_digitChar, parseDigits_append _ _ hd]
    | some sg => cases sg <;> simp [renderExp, renderSign, parseExp, parseExpDigits,
        charDigit?_digitChar, parseDigits_append _ _ hd]

theorem renderExp_head (e : Option (Bool × Option Bool × Fin 10 × List (Fin 10)))
    (rest : List Char) (h : NumberEnd rest) :
    ∀ c r, renderExp e ++ rest = c :: r → charDigit? c = none ∧ c ≠ '.' := by
  intro c r hr
  cases e with
  | none =>
    simp only [renderExp, List.nil_append] at hr
    subst hr; exact ⟨h.1, h.2.1⟩
  | some e =>
    obtain ⟨up, sign, d, ds⟩ := e
    cases up <;> simp [renderExp] at hr <;> obtain ⟨rfl, -⟩ := hr <;> decide

theorem parseFrac_render (f : Option (Fin 10 × List (Fin 10))) (rest : List Char)
    (h : ∀ c r, rest = c :: r → charDigit? c = none ∧ c ≠ '.') :
    parseFrac (renderFrac f ++ rest) = .ok (f, rest) := by
  have hd : ∀ c r, rest = c :: r → charDigit? c = none := fun c r hr => (h c r hr).1
  cases f with
  | none =>
    cases rest with
    | nil => rfl
    | cons c r => simp [renderFrac, parseFrac, (h c r rfl).2]
  | some f =>
    obtain ⟨d, ds⟩ := f
    simp [renderFrac, parseFrac, charDigit?_digitChar, parseDigits_append _ _ hd]

theorem renderFrac_head (f : Option (Fin 10 × List (Fin 10))) (rest : List Char)
    (h : ∀ c r, rest = c :: r → charDigit? c = none ∧ c ≠ '.') :
    ∀ c r, renderFrac f ++ rest = c :: r → charDigit? c = none := by
  intro c r hr
  cases f with
  | none =>
    simp only [renderFrac, List.nil_append] at hr
    exact (h c r hr).1
  | some f =>
    obtain ⟨d, ds⟩ := f
    simp [renderFrac] at hr
    obtain ⟨rfl, -⟩ := hr
    decide

theorem parseInt_render (i : Option (Fin 9 × List (Fin 10))) (rest : List Char)
    (h : ∀ c r, rest = c :: r → charDigit? c = none) :
    parseInt (renderInt i ++ rest) = .ok (i, rest) := by
  cases i with
  | none => simp [renderInt, parseInt]
  | some i =>
    obtain ⟨d, ds⟩ := i
    simp [renderInt, parseInt, (leadChar_ne d).1, charLead?_leadChar, parseDigits_append _ _ h]

theorem parseUnsigned_render (neg : Bool) (n : Numeral) (rest : List Char) (h : NumberEnd rest) :
    parseUnsigned neg (renderInt n.int ++ (renderFrac n.frac ++ (renderExp n.exp ++ rest))) =
      .ok (⟨neg, n.int, n.frac, n.exp⟩, rest) := by
  have h₁ := renderExp_head n.exp rest h
  have h₂ := renderFrac_head n.frac _ h₁
  simp [parseUnsigned, parseInt_render _ _ h₂, parseFrac_render _ _ h₁, parseExp_render _ _ h]

theorem parseNumber_render (n : Numeral) (rest : List Char) (h : NumberEnd rest) :
    parseNumber (n.render ++ rest) = .ok (n, rest) := by
  obtain ⟨neg, i, f, e⟩ := n
  cases neg with
  | true =>
    simp only [Numeral.render, if_true, List.append_assoc, List.singleton_append, parseNumber]
    simpa using parseUnsigned_render true ⟨true, i, f, e⟩ rest h
  | false =>
    have := parseUnsigned_render false ⟨false, i, f, e⟩ rest h
    cases i with
    | none => simpa [Numeral.render, parseNumber, renderInt] using this
    | some i =>
      obtain ⟨d, ds⟩ := i
      simpa [Numeral.render, parseNumber, renderInt, (leadChar_ne d).2] using this

theorem stringLoop_quote (fuel : Nat) (rest : List Char) :
    stringLoop (fuel + 1) ('"' :: rest) = .ok ([], rest) := by
  cases rest <;> rw [stringLoop] <;> simp

theorem stringLoop_plain (fuel : Nat) (c : Char) (r : List Char) (h1 : c ≠ '"') (h2 : c ≠ '\\')
    (h3 : ¬ c.toNat < 32) :
    stringLoop (fuel + 1) (c :: r) = consChar c (stringLoop fuel r) := by
  cases r <;> rw [stringLoop] <;> simp [h1, h2, h3]

theorem stringLoop_simple (fuel : Nat) (e x : Char) (r : List Char) (h : simpleEscape? e = some x) :
    stringLoop (fuel + 1) ('\\' :: e :: r) = consChar x (stringLoop fuel r) := by
  rw [stringLoop]; simp [h]

theorem stringLoop_u (fuel : Nat) (a b c d : Char) (r : List Char) (n : Nat)
    (hx : hex4? a b c d = some n) (hn : n < 0xD800) :
    stringLoop (fuel + 1) ('\\' :: 'u' :: a :: b :: c :: d :: r) =
      consChar (Char.ofNat n) (stringLoop fuel r) := by
  rw [stringLoop]
  have hd : decodeEscape n r = (Char.ofNat n, r) := by
    unfold decodeEscape
    rw [if_neg]
    omega
  have hs : simpleEscape? 'u' = none := by decide
  simp [hx, hd, hs, hexEscape]

theorem hexVal?_hexChar (k : Fin 16) : hexVal? (hexChar k.val) = some k.val := by
  revert k; decide

theorem hex4?_low (n : Nat) (h : n < 256) :
    hex4? '0' '0' (hexChar (n / 16)) (hexChar (n % 16)) = some n := by
  have h₁ := hexVal?_hexChar ⟨n / 16, by omega⟩
  have h₂ := hexVal?_hexChar ⟨n % 16, by omega⟩
  simp only at h₁ h₂
  have h₀ : hexVal? '0' = some 0 := by decide
  simp only [hex4?, h₀, h₁, h₂]
  congr 1
  omega

set_option maxHeartbeats 2000000 in
theorem escapeChar_length (c : Char) : 1 ≤ (escapeChar c).length ∧ (escapeChar c).length ≤ 6 := by
  unfold escapeChar
  split_ifs <;> simp only [List.length_cons, List.length_nil] <;> omega

set_option maxHeartbeats 2000000 in
/-- One escaped character is read back in one round of the loop. -/
theorem stringLoop_escapeChar (fuel : Nat) (c : Char) (s : List Char) :
    stringLoop (fuel + 1) (escapeChar c ++ s) = consChar c (stringLoop fuel s) := by
  unfold escapeChar
  split_ifs with h1 h2 hb hf h3 h4 h5 h6 h7 h8
  · subst h1; exact stringLoop_simple _ _ _ _ (by decide)
  · subst h2; exact stringLoop_simple _ _ _ _ (by decide)
  · subst hb; exact stringLoop_simple _ _ _ _ (by decide)
  · subst hf; exact stringLoop_simple _ _ _ _ (by decide)
  · subst h3; exact stringLoop_simple _ _ _ _ (by decide)
  · subst h4; exact stringLoop_simple _ _ _ _ (by decide)
  · subst h5; exact stringLoop_simple _ _ _ _ (by decide)
  · have hn : c.toNat < 256 := by
      rcases h6 with h | h | h | h
      · omega
      · subst h; decide
      · subst h; decide
      · subst h; decide
    have := stringLoop_u fuel _ _ _ _ s _ (hex4?_low c.toNat hn) (by omega)
    simpa using this
  · have hc : c = Char.ofNat 0x2028 := by
      rw [← h7]; simp
    subst hc
    exact stringLoop_u fuel _ _ _ _ s 0x2028 (by decide) (by omega)
  · have hc : c = Char.ofNat 0x2029 := by
      rw [← h8]; simp
    subst hc
    exact stringLoop_u fuel _ _ _ _ s 0x2029 (by decide) (by omega)
  · have h32 : ¬ c.toNat < 32 := fun h => h6 (Or.inl h)
    exact stringLoop_plain _ _ _ h1 h2 h32

theorem escape_length (cs : List Char) : cs.length ≤ (escape cs).length := by
  induction cs with
  | nil => simp [escape]
  | cons c cs ih =>
    have := (escapeChar_length c).1
    simp only [escape, List.length_append, List.length_cons]
    omega

theorem stringLoop_escape (cs : List Char) (rest : List Char) (fuel : Nat)
    (hf : cs.length < fuel) :
    stringLoop fuel (escape cs ++ '"' :: rest) = .ok (cs, rest) := by
  induction cs generalizing fuel with
  | nil =>
    obtain ⟨f, rfl⟩ : ∃ f, fuel = f + 1 := ⟨fuel - 1, by simp at hf; omega⟩
    simpa [escape] using stringLoop_quote f rest
  | cons c cs ih =>
    obtain ⟨f, rfl⟩ : ∃ f, fuel = f + 1 := ⟨fuel - 1, by simp at hf; omega⟩
    simp only [escape, List.append_assoc]
    rw [stringLoop_escapeChar, ih f (by simpa using hf)]
    rfl

theorem parseString_escape (cs : List Char) (rest : List Char) :
    parseString (escape cs ++ '"' :: rest) = .ok (cs, rest) := by
  unfold parseString
  apply stringLoop_escape
  have := escape_length cs
  simp only [List.length_append, List.length_cons]
  omega

theorem skipSpace_cons (c : Char) (r : List Char) (h : isSpace c = false) :
    skipSpace (c :: r) = c :: r := by
  simp [skipSpace, h]

theorem digitChar_start (d : Fin 10) : ValueStart (digitChar d) := by
  revert d; unfold ValueStart; decide

theorem leadChar_start (d : Fin 9) : ValueStart (leadChar d) := by
  revert d; unfold ValueStart; decide

theorem valueStart_of (c : Char) (h : (isSpace c = false ∧ c ≠ ']' ∧ c ≠ Char.ofNat 125 ∧ c ≠ ',' ∧ c ≠ ':')) :
    ValueStart c := h

theorem Numeral.literal_head (n : Numeral) : ∃ c tl, n.render = c :: tl ∧ ValueStart c := by
  obtain ⟨neg, i, f, e⟩ := n
  cases neg with
  | true => exact ⟨'-', _, rfl, valueStart_of _ (by decide)⟩
  | false =>
    cases i with
    | none => exact ⟨'0', _, rfl, valueStart_of _ (by decide)⟩
    | some i =>
      obtain ⟨d, ds⟩ := i
      exact ⟨leadChar d, _, rfl, leadChar_start d⟩

theorem Json.render_head (v : Json) : ∃ c tl, v.render = c :: tl ∧ ValueStart c := by
  cases v with
  | null => exact ⟨'n', _, rfl, valueStart_of _ (by decide)⟩
  | bool b =>
    cases b
    · exact ⟨'f', _, rfl, valueStart_of _ (by decide)⟩
    · exact ⟨'t', _, rfl, valueStart_of _ (by decide)⟩
  | number n => simpa [Json.render] using n.literal_head
  | string s => exact ⟨'"', _, rfl, valueStart_of _ (by decide)⟩
  | array xs =>
    cases xs
    · exact ⟨'[', _, rfl, valueStart_of _ (by decide)⟩
    · exact ⟨'[', _, rfl, valueStart_of _ (by decide)⟩
  | object ms =>
    cases ms with
    | nil => exact ⟨Char.ofNat 123, _, rfl, valueStart_of _ (by decide)⟩
    | cons m ms =>
      obtain ⟨k, x⟩ := m
      exact ⟨Char.ofNat 123, _, rfl, valueStart_of _ (by decide)⟩

theorem skipSpace_render (v : Json) (rest : List Char) :
    skipSpace (v.render ++ rest) = v.render ++ rest := by
  obtain ⟨c, tl, h, hc⟩ := v.render_head
  rw [h]
  exact skipSpace_cons _ _ hc.1

theorem renderElems_length (xs : List Json) : 1 ≤ (renderElems xs).length := by
  cases xs <;> simp [renderElems]

theorem renderMembers_length (ms : List (String × Json)) : 1 ≤ (renderMembers ms).length := by
  cases ms with
  | nil => simp [renderMembers]
  | cons m ms => obtain ⟨k, x⟩ := m; simp [renderMembers]

theorem numberEnd_renderElems (xs : List Json) (rest : List Char) :
    NumberEnd (renderElems xs ++ rest) := by
  cases xs <;> simp [renderElems, NumberEnd] <;> decide

theorem numberEnd_renderMembers (ms : List (String × Json)) (rest : List Char) :
    NumberEnd (renderMembers ms ++ rest) := by
  cases ms with
  | nil => simp [renderMembers, NumberEnd]; decide
  | cons m ms => obtain ⟨k, x⟩ := m; simp [renderMembers, NumberEnd]; decide

theorem parseValue_array_cons (f : Nat) (s : List Char) (c : Char) (tl : List Char)
    (hs : s = c :: tl) (hc : ValueStart c) (vs : List Json) (rest : List Char)
    (hp : parseElems f s = .ok (vs, rest)) :
    parseValue (f + 1) ('[' :: s) = .ok (.array vs, rest) := by
  subst hs
  rw [parseValue.eq_3]
  have h1 : ¬ ('[' = Char.ofNat 123) := by decide
  simp [skipSpace_cons _ _ hc.1, hc.2.1, h1, hp]

theorem parseValue_object_cons (f : Nat) (s : List Char) (ms : List (String × Json))
    (rest : List Char) (hp : parseMembers f ('"' :: s) = .ok (ms, rest)) :
    parseValue (f + 1) (Char.ofNat 123 :: '"' :: s) = .ok (.object ms, rest) := by
  rw [parseValue.eq_3]
  have h0 : isSpace '"' = false := by decide
  have h1 : ¬ ('"' = Char.ofNat 125) := by decide
  simp [skipSpace_cons _ _ h0, h1, hp]

theorem numberStart_dispatch (c : Char) (h : c = '-' ∨ (charDigit? c).isSome) :
    c ≠ Char.ofNat 123 ∧ c ≠ '[' ∧ c ≠ '"' ∧ c ≠ 'n' ∧ c ≠ 't' ∧ c ≠ 'f' := by
  refine ⟨?_, ?_, ?_, ?_, ?_, ?_⟩ <;> (intro hc; subst hc; revert h; decide)

theorem Numeral.render_start (n : Numeral) :
    ∃ c tl, n.render = c :: tl ∧ (c = '-' ∨ (charDigit? c).isSome) := by
  obtain ⟨neg, i, f, e⟩ := n
  cases neg with
  | true => exact ⟨'-', _, rfl, Or.inl rfl⟩
  | false =>
    cases i with
    | none => exact ⟨'0', _, rfl, Or.inr (by decide)⟩
    | some i =>
      obtain ⟨d, ds⟩ := i
      exact ⟨leadChar d, _, rfl, Or.inr (by revert d; decide)⟩

theorem parseValue_number (f : Nat) (n : Numeral) (rest : List Char) (h : NumberEnd rest) :
    parseValue (f + 1) (n.render ++ rest) = .ok (.number n, rest) := by
  obtain ⟨c, tl, hn, hc⟩ := n.render_start
  have hp := parseNumber_render n rest h
  rw [hn] at hp ⊢
  obtain ⟨h1, h2, h3, h4, h5, h6⟩ := numberStart_dispatch c hc
  rw [List.cons_append, parseValue.eq_3]
  rw [List.cons_append] at hp
  simp only [h1, h2, h3, h4, h5, h6, if_false, hc, if_true, hp]

mutual
theorem parseValue_render : ∀ (v : Json) (fuel : Nat) (rest : List Char),
    v.render.length ≤ fuel → (∀ n, v = .number n → NumberEnd rest) →
    parseValue fuel (v.render ++ rest) = .ok (v, rest)
  | .null, fuel, rest, hf, _ => by
    obtain ⟨f, rfl⟩ : ∃ f, fuel = f + 1 := ⟨fuel - 1, by simp [Json.render] at hf; omega⟩
    simp only [Json.render, List.cons_append, List.nil_append]
    rw [parseValue.eq_3]
    simp [parseLiteral]
  | .bool true, fuel, rest, hf, _ => by
    obtain ⟨f, rfl⟩ : ∃ f, fuel = f + 1 := ⟨fuel - 1, by simp [Json.render] at hf; omega⟩
    simp only [Json.render, List.cons_append, List.nil_append]
    rw [parseValue.eq_3]
    simp [parseLiteral]
  | .bool false, fuel, rest, hf, _ => by
    obtain ⟨f, rfl⟩ : ∃ f, fuel = f + 1 := ⟨fuel - 1, by simp [Json.render] at hf; omega⟩
    simp only [Json.render, List.cons_append, List.nil_append]
    rw [parseValue.eq_3]
    simp [parseLiteral]
  | .number n, fuel, rest, hf, hn => by
    obtain ⟨c, tl, hc, -⟩ := n.literal_head
    obtain ⟨f, rfl⟩ : ∃ f, fuel = f + 1 :=
      ⟨fuel - 1, by simp [Json.render, hc] at hf; omega⟩
    simpa [Json.render] using parseValue_number f n rest (hn n rfl)
  | .string s, fuel, rest, hf, _ => by
    obtain ⟨f, rfl⟩ : ∃ f, fuel = f + 1 :=
      ⟨fuel - 1, by simp [Json.render, renderString] at hf; omega⟩
    simp only [Json.render, renderString, List.cons_append, List.append_assoc,
      List.nil_append]
    rw [parseValue.eq_3]
    simp [parseString_escape]
  | .array [], fuel, rest, hf, _ => by
    obtain ⟨f, rfl⟩ : ∃ f, fuel = f + 1 := ⟨fuel - 1, by simp [Json.render] at hf; omega⟩
    simp only [Json.render, List.cons_append, List.nil_append]
    rw [parseValue.eq_3]
    simp [skipSpace, isSpace]
  | .array (x :: xs), fuel, rest, hf, _ => by
    obtain ⟨f, rfl⟩ : ∃ f, fuel = f + 1 := ⟨fuel - 1, by simp [Json.render] at hf; omega⟩
    obtain ⟨c, tl, hc, hs⟩ := x.render_head
    simp only [Json.render, List.cons_append, List.append_assoc]
    refine parseValue_array_cons f _ c (tl ++ (renderElems xs ++ rest)) (by simp [hc]) hs _ _ ?_
    apply parseElems_render x xs f rest
    simp only [Json.render, List.length_cons, List.length_append] at hf
    omega
  | .object [], fuel, rest, hf, _ => by
    obtain ⟨f, rfl⟩ : ∃ f, fuel = f + 1 := ⟨fuel - 1, by simp [Json.render] at hf; omega⟩
    simp only [Json.render, List.cons_append, List.nil_append]
    rw [parseValue.eq_3]
    simp [skipSpace, isSpace]
  | .object ((k, x) :: ms), fuel, rest, hf, _ => by
    obtain ⟨f, rfl⟩ : ∃ f, fuel = f + 1 := ⟨fuel - 1, by simp [Json.render] at hf; omega⟩
    have hm := parseMembers_render k x ms f rest (by
      simp only [Json.render, List.length_cons, List.length_append] at hf
      omega)
    simp only [renderString, List.cons_append, List.append_assoc, List.nil_append] at hm
    simp only [Json.render, renderString, List.cons_append, List.append_assoc]
    exact parseValue_object_cons f _ _ _ hm
termination_by v _ _ _ _ => 2 * sizeOf v
decreasing_by
  all_goals simp_wf
  all_goals omega
theorem parseElems_render : ∀ (x : Json) (xs : List Json) (fuel : Nat) (rest : List Char),
    x.render.length + (renderElems xs).length ≤ fuel →
    parseElems fuel (x.render ++ (renderElems xs ++ rest)) = .ok (x :: xs, rest)
  | x, [], fuel, rest, hf => by
    obtain ⟨f, rfl⟩ : ∃ f, fuel = f + 1 := ⟨fuel - 1, by simp [renderElems] at hf; omega⟩
    rw [parseElems.eq_2]
    rw [parseValue_render x f _ (by simp [renderElems] at hf; omega)
      (fun _ _ => numberEnd_renderElems [] rest)]
    simp [renderElems, skipSpace, isSpace]
  | x, y :: ys, fuel, rest, hf => by
    obtain ⟨f, rfl⟩ : ∃ f, fuel = f + 1 := ⟨fuel - 1, by simp [renderElems] at hf; omega⟩
    have hl := renderElems_length ys
    simp only [renderElems, List.length_cons, List.length_append] at hf
    rw [parseElems.eq_2]
    rw [parseValue_render x f _ (by omega) (fun _ _ => numberEnd_renderElems (y :: ys) rest)]
    have ih := parseElems_render y ys f rest (by omega)
    simp [renderElems, skipSpace, isSpace, skipSpace_render, ih]
termination_by x xs _ _ _ => 2 * sizeOf x + 2 * sizeOf xs + 1
decreasing_by
  all_goals simp_wf
  all_goals omega
theorem parseMembers_render : ∀ (k : String) (x : Json) (ms : List (String × Json))
    (fuel : Nat) (rest : List Char),
    (renderString k).length + 1 + x.render.length + (renderMembers ms).length ≤ fuel →
    parseMembers fuel (renderString k ++ ':' :: (x.render ++ (renderMembers ms ++ rest))) =
      .ok ((k, x) :: ms, rest)
  | k, x, [], fuel, rest, hf => by
    obtain ⟨f, rfl⟩ : ∃ f, fuel = f + 1 := ⟨fuel - 1, by omega⟩
    have hv := parseValue_render x f (renderMembers [] ++ rest) (by omega)
      (fun _ _ => numberEnd_renderMembers [] rest)
    simp only [renderString, List.cons_append, List.append_assoc, List.nil_append]
    rw [parseMembers.eq_3]
    have h0 : isSpace ':' = false := by decide
    simp only [if_true, parseString_escape, skipSpace_cons _ _ h0, skipSpace_render, hv]
    simp [renderMembers, skipSpace, isSpace]
  | k, x, (k₁, x₁) :: ms, fuel, rest, hf => by
    obtain ⟨f, rfl⟩ : ∃ f, fuel = f + 1 := ⟨fuel - 1, by omega⟩
    have hl := renderMembers_length ms
    have hv := parseValue_render x f (renderMembers ((k₁, x₁) :: ms) ++ rest)
      (by simp only [renderMembers, List.length_cons, List.length_append] at hf; omega)
      (fun _ _ => numberEnd_renderMembers _ rest)
    have ih := parseMembers_render k₁ x₁ ms f rest
      (by simp only [renderMembers, List.length_cons, List.length_append] at hf ⊢; omega)
    simp only [renderString, List.cons_append, List.append_assoc, List.nil_append] at ih ⊢
    rw [parseMembers.eq_3]
    have h0 : isSpace ':' = false := by decide
    have h1 : isSpace '"' = false := by decide
    simp only [if_true, parseString_escape, skipSpace_cons _ _ h0, skipSpace_render, hv]
    simp [renderMembers, renderString, skipSpace, isSpace, ih]
termination_by _ x ms _ _ _ => 2 * sizeOf x + 2 * sizeOf ms + 1
decreasing_by
  all_goals simp_wf
  all_goals omega
end

end Dpasswd

namespace Dpasswd

/-! ## A float is read back from its literal -/

@[simp] theorem withNat_eq {α : Type} (n : Nat) (k : Nat → α) : withNat n k = k n := by
  cases n <;> rfl

/-- Bisection finds the least number with a property that stays true. -/
theorem leastAux_eq (p : Nat → Bool) (x : Nat) (hx : p x = true)
    (hlt : ∀ y, y < x → p y = false) (hmono : ∀ a b, a ≤ b → p a = true → p b = true) :
    ∀ fuel lo hi, lo ≤ x → x ≤ hi → hi - lo < 2 ^ fuel → leastAux p fuel lo hi = x := by
  intro fuel
  induction fuel with
  | zero =>
    intro lo hi h1 h2 h3
    simp only [pow_zero, Nat.lt_one_iff] at h3
    simp only [leastAux]
    omega
  | succ fuel ih =>
    intro lo hi h1 h2 h3
    simp only [leastAux]
    split_ifs with ha hb
    · omega
    · apply ih
      · exact h1
      · by_contra hc
        have := hlt _ (not_le.mp hc)
        rw [this] at hb
        cases hb
      · rw [pow_succ] at h3
        omega
    · apply ih
      · by_contra hc
        have hle : x ≤ (lo + hi) / 2 := by omega
        exact hb (hmono _ _ hle hx)
      · exact h2
      · rw [pow_succ] at h3
        omega

theorem halfEven_exact (m d : Nat) (hd : 0 < d) : halfEven (m * d) d = m := by
  unfold halfEven
  have h1 : m * d % d = 0 := Nat.mul_mod_left m d
  have h2 : m * d / d = m := Nat.mul_div_cancel m hd
  simp [h1, h2, hd]

/-- Rounding is exact on a fraction that is a float. -/
theorem roundRatio_exact (sign : Bool) (n d m x : Nat) (hd : 0 < d)
    (hv : FloatBits.Valid ⟨sign, m, x⟩) (h : n * 2 ^ 1074 = m * 2 ^ x * d) :
    roundRatio sign n d = ⟨sign, m, x⟩ := by
  obtain ⟨hm, hx, hn⟩ := hv
  simp only at hm hx hn
  unfold roundRatio
  simp only [withNat_eq]
  have hp : ∀ y, (n * 2 ^ 1074 < d * 2 ^ (y + 53)) ↔ m * 2 ^ x < 2 ^ (y + 53) := by
    intro y
    rw [h, mul_comm (m * 2 ^ x) d]
    exact Nat.mul_lt_mul_left hd
  have hshift : leastAux (fun y => decide (n * 2 ^ 1074 < d * 2 ^ (y + 53))) 12 0 2046 = x := by
    apply leastAux_eq _ x
    · simp only [decide_eq_true_eq, hp]
      calc m * 2 ^ x < 2 ^ 53 * 2 ^ x := Nat.mul_lt_mul_of_pos_right hm (by positivity)
        _ = 2 ^ (x + 53) := by rw [← pow_add, add_comm]
    · intro y hy
      simp only [decide_eq_false_iff_not, hp, not_lt]
      have hx0 : x ≠ 0 := by omega
      have hm52 : 2 ^ 52 ≤ m := by
        rcases hn with h0 | h0
        · exact absurd h0 hx0
        · exact h0
      calc 2 ^ (y + 53) ≤ 2 ^ (52 + x) := Nat.pow_le_pow_right (by decide) (by omega)
        _ = 2 ^ 52 * 2 ^ x := pow_add 2 52 x
        _ ≤ m * 2 ^ x := Nat.mul_le_mul_right _ hm52
    · intro a b hab
      simp only [decide_eq_true_eq, hp]
      intro ha
      exact lt_of_lt_of_le ha (Nat.pow_le_pow_right (by decide) (by omega))
    · exact Nat.zero_le _
    · omega
    · decide
  rw [hshift]
  have hmant : halfEven (n * 2 ^ 1074) (d * 2 ^ x) = m := by
    rw [h, show m * 2 ^ x * d = m * (d * 2 ^ x) by ring]
    exact halfEven_exact m _ (by positivity)
  rw [hmant, if_neg (by omega)]

theorem digitsNat_foldl (ds : List (Fin 10)) (a : Nat) :
    ds.foldl (fun a d => 10 * a + d.val) a = a * 10 ^ ds.length + digitsNat ds := by
  unfold digitsNat
  induction ds generalizing a with
  | nil => simp
  | cons d ds ih =>
    simp only [List.foldl_cons, List.length_cons]
    rw [ih (10 * a + d.val), ih (10 * 0 + d.val)]
    ring

theorem digitsNat_cons (d : Fin 10) (ds : List (Fin 10)) :
    digitsNat (d :: ds) = d.val * 10 ^ ds.length + digitsNat ds := by
  have := digitsNat_foldl ds (10 * 0 + d.val)
  simp only [Nat.mul_zero, Nat.zero_add] at this
  simpa [digitsNat] using this

theorem digitsNat_nil : digitsNat [] = 0 := rfl

theorem natDigitsAux_value : ∀ (fuel n : Nat) (acc : List (Fin 10)), n < fuel →
    digitsNat (natDigitsAux fuel n acc) = n * 10 ^ acc.length + digitsNat acc := by
  intro fuel
  induction fuel with
  | zero => intro n acc h; omega
  | succ fuel ih =>
    intro n acc h
    simp only [natDigitsAux, withNat_eq]
    split_ifs with h10
    · rw [digitsNat_cons]
      simp only
      rw [Nat.mod_eq_of_lt h10]
    · rw [ih (n / 10) _ (by omega), digitsNat_cons]
      simp only [List.length_cons]
      have hn := Nat.div_add_mod n 10
      rw [pow_succ]
      conv_rhs => rw [← hn]
      ring

/-- The digits of a number denote the number. -/
theorem digitsNat_natDigits (n : Nat) : digitsNat (natDigits n) = n := by
  unfold natDigits
  rw [natDigitsAux_value (n + 1) n [] (by omega)]
  simp [digitsNat_nil]

theorem digitsNat_intDigits_mkInt (ds : List (Fin 10)) :
    digitsNat (intDigits (mkInt ds)) = digitsNat ds := by
  induction ds with
  | nil => rfl
  | cons d ds ih =>
    simp only [mkInt]
    split_ifs with h0
    · rw [ih, digitsNat_cons, h0]
      simp
    · simp only [intDigits]
      rw [digitsNat_cons, digitsNat_cons]
      simp only
      congr 2
      omega

theorem expValue_mkExp (e : Int) : expValue (mkExp e) = e := by
  unfold mkExp
  have hv := digitsNat_natDigits e.natAbs
  cases hd : natDigits e.natAbs with
  | nil =>
    rw [hd] at hv
    simp only [expValue]
    simp only [digitsNat_nil] at hv
    omega
  | cons d ds =>
    rw [hd] at hv
    simp only [expValue, Option.some.injEq, decide_eq_true_eq, hv]
    split_ifs with hneg
    · omega
    · omega

/-- The literal with all digits denotes its decimal. -/
theorem exactLiteral_toBits (sign : Bool) (D : Nat) (E : Int) :
    (exactLiteral sign D E).toBits = roundDecimal sign D E := by
  unfold exactLiteral Numeral.toBits
  simp only [fracDigits, List.append_nil, List.length_nil, Nat.cast_zero, sub_zero,
    digitsNat_intDigits_mkInt, digitsNat_natDigits, expValue_mkExp]

/-- The exact decimal of a float rounds to the float. -/
theorem roundDecimal_exactDecimal (f : FloatBits) (hv : f.Valid) :
    roundDecimal f.sign f.exactDecimal.1 f.exactDecimal.2 = f := by
  obtain ⟨sign, m, x⟩ := f
  unfold FloatBits.exactDecimal
  simp only
  split_ifs with hx
  · unfold roundDecimal
    simp only [le_refl, if_true, Int.toNat_zero, pow_zero, mul_one, withNat_eq]
    apply roundRatio_exact _ _ _ _ _ (by decide) hv
    rw [mul_one, mul_assoc, ← pow_add]
    congr 2
    omega
  · unfold roundDecimal
    have hneg : ¬ (0 : Int) ≤ -((1074 - x : Nat) : Int) := by omega
    simp only [hneg, if_false, neg_neg, Int.toNat_ofNat, withNat_eq]
    apply roundRatio_exact _ _ _ _ _ (by positivity) hv
    have h10 : (10 : Nat) ^ (1074 - x) = 2 ^ (1074 - x) * 5 ^ (1074 - x) := by
      rw [← Nat.mul_pow]
    have h2 : (2 : Nat) ^ 1074 = 2 ^ x * 2 ^ (1074 - x) := by
      rw [← pow_add]
      congr 1
      omega
    rw [h10, h2]
    ring

theorem candidate_toBits (f : FloatBits) (D : Nat) (E : Int) (L n : Nat) (lit : Numeral)
    (h : candidate f D E L n = some lit) : lit.toBits = f := by
  unfold candidate at h
  simp only [withNat_eq] at h
  split_ifs at h with h1 h2 h3 h4 h5 h6
  all_goals
    injection h with h
    subst h
    first
      | exact h1.1
      | exact h1.2
      | assumption

theorem shortestAux_toBits (f : FloatBits) (D : Nat) (E : Int) (L : Nat) (lit : Numeral) :
    ∀ fuel n, shortestAux f D E L fuel n = some lit → lit.toBits = f := by
  intro fuel
  induction fuel with
  | zero => intro n h; cases h
  | succ fuel ih =>
    intro n h
    simp only [shortestAux] at h
    cases hc : candidate f D E L n with
    | some l =>
      rw [hc] at h
      simp only [Option.some.injEq] at h
      subst h
      exact candidate_toBits f D E L n l hc
    | none =>
      rw [hc] at h
      exact ih _ h

set_option maxRecDepth 100000 in
theorem zero_toBits (sign : Bool) :
    Numeral.toBits ⟨sign, none, none, none⟩ = ⟨sign, 0, 0⟩ := by
  cases sign <;> decide

/-- The literal of a float reads back as the float. -/
theorem FloatBits.toBits_format (f : FloatBits) (hv : f.Valid) : f.format.toBits = f := by
  obtain ⟨sign, m, x⟩ := f
  unfold FloatBits.format
  simp only [withNat_eq]
  split_ifs with h0
  · subst h0
    have hx : x = 0 := by
      obtain ⟨-, -, h⟩ := hv
      simp only at h
      rcases h with h | h
      · exact h
      · omega
    subst hx
    exact zero_toBits sign
  · cases hs : shortestAux ⟨sign, m, x⟩ (FloatBits.exactDecimal ⟨sign, m, x⟩).1
        (FloatBits.exactDecimal ⟨sign, m, x⟩).2
        (leastAux (fun k => decide ((FloatBits.exactDecimal ⟨sign, m, x⟩).1 < 10 ^ k)) 12 0 800)
        (leastAux (fun k => decide ((FloatBits.exactDecimal ⟨sign, m, x⟩).1 < 10 ^ k)) 12 0 800)
        1 with
    | some lit =>
      simp only [Option.getD_some]
      exact shortestAux_toBits _ _ _ _ _ _ _ hs
    | none =>
      simp only [Option.getD_none]
      rw [exactLiteral_toBits]
      exact roundDecimal_exactDecimal ⟨sign, m, x⟩ hv

/-- A `float64` comes back from the literal `json.Marshal` writes for it. -/
theorem Float64.toFloat_format (f : Float64) : f.format.toFloat = some f := by
  unfold Numeral.toFloat Float64.format
  have h := FloatBits.toBits_format f.val f.property
  rw [dif_pos (by rw [h]; exact f.property)]
  congr 1
  exact Subtype.ext h

end Dpasswd

namespace Dpasswd

/-! ## Documents, Go values and the command envelope -/

theorem Json.text_ne_nil (v : Json) : v.render ≠ [] := by
  obtain ⟨c, tl, h, -⟩ := v.render_head
  simp [h]

theorem Value.render_ne_nil (v : Value) : v.render ≠ [] := v.toJson.text_ne_nil

theorem Value.render_length_pos (v : Value) : 0 < v.render.length :=
  List.length_pos.mpr v.render_ne_nil

theorem skipSpace_nil : skipSpace [] = [] := rfl

/-- The text of a syntax tree is a document that parses back to the tree. -/
theorem parseDocument_render (v : Json) : parseDocument v.render = .ok v := by
  unfold parseDocument
  have h := parseValue_render v (v.render.length + 1) [] (by omega) (fun _ _ => trivial)
  have hs := skipSpace_render v []
  simp only [List.append_nil] at h hs
  rw [hs, h]
  rfl

theorem insertMember_keys (k : String) (v : Value) (ms : List (String × Value)) (a : Bytes)
    (ha : a ∈ (insertMember k v ms).map (fun p => p.1.data)) :
    a = k.data ∨ a ∈ ms.map (fun p => p.1.data) := by
  induction ms with
  | nil => simpa [insertMember] using ha
  | cons m ms ih =>
    obtain ⟨k₁, v₁⟩ := m
    simp only [insertMember] at ha
    split_ifs at ha with h1 h2
    · simpa using ha
    · simp only [List.map_cons, List.mem_cons] at ha ⊢
      rcases ha with h | h
      · exact Or.inl h
      · exact Or.inr (Or.inr h)
    · simp only [List.map_cons, List.mem_cons] at ha ⊢
      rcases ha with h | h
      · exact Or.inr (Or.inl h)
      · rcases ih h with h | h
        · exact Or.inl h
        · exact Or.inr (Or.inr h)

theorem insertMember_good (k : String) (v : Value) (ms : List (String × Value))
    (hv : v.canon = v) (h : GoodMembers ms) : GoodMembers (insertMember k v ms) := by
  induction ms with
  | nil => exact ⟨by simp [insertMember], by simp [insertMember, hv]⟩
  | cons m ms ih =>
    obtain ⟨k₁, v₁⟩ := m
    obtain ⟨hs, hc⟩ := h
    simp only [List.map_cons, List.pairwise_cons] at hs
    have hms : GoodMembers ms := ⟨hs.2, fun p hp => hc p (List.mem_cons_of_mem _ hp)⟩
    simp only [insertMember]
    split_ifs with h1 h2
    · refine ⟨?_, ?_⟩
      · simp only [List.map_cons, List.pairwise_cons, List.mem_cons]
        refine ⟨?_, hs⟩
        rintro a (rfl | ha)
        · exact h1
        · exact lt_trans h1 (hs.1 a ha)
      · intro p hp
        rcases List.mem_cons.mp hp with rfl | hp
        · exact hv
        · exact hc p hp
    · subst h2
      refine ⟨?_, ?_⟩
      · simpa using hs
      · intro p hp
        rcases List.mem_cons.mp hp with rfl | hp
        · exact hv
        · exact hc p (List.mem_cons_of_mem _ hp)
    · have hne : k₁.data ≠ k.data := fun e => h2 (String.ext e).symm
      have hlt : k₁.data < k.data := lt_of_le_of_ne (not_lt.mp h1) hne
      obtain ⟨is, ic⟩ := ih hms
      refine ⟨?_, ?_⟩
      · simp only [List.map_cons, List.pairwise_cons]
        refine ⟨?_, is⟩
        intro a ha
        rcases insertMember_keys k v ms a ha with rfl | ha
        · exact hlt
        · exact hs.1 a ha
      · intro p hp
        rcases List.mem_cons.mp hp with rfl | hp
        · exact hc _ (List.mem_cons_self _ _)
        · exact ic p hp

/-- Storing a key above all present keys appends the member. -/
theorem insertMember_append (k : String) (v : Value) (ms : List (String × Value))
    (h : ∀ a ∈ ms.map (fun p => p.1.data), a < k.data) :
    insertMember k v ms = ms ++ [(k, v)] := by
  induction ms with
  | nil => rfl
  | cons m ms ih =>
    obtain ⟨k₁, v₁⟩ := m
    have h1 : k₁.data < k.data := h k₁.data (by simp)
    have h2 : ¬ k.data < k₁.data := not_lt.mpr (le_of_lt h1)
    have h3 : k ≠ k₁ := fun e => (ne_of_gt h1) (by rw [e])
    simp only [insertMember, h2, h3, if_false, List.cons_append]
    rw [ih (fun a ha => h a (by simp only [List.map_cons, List.mem_cons]; exact Or.inr ha))]

/-- Storing the members of a Go map one by one after smaller keys rebuilds the map. -/
theorem canonMembers_good_eq (ms acc : List (String × Value))
    (h : GoodMembers (acc ++ ms)) : canonMembers ms acc = acc ++ ms := by
  induction ms generalizing acc with
  | nil => simp [canonMembers]
  | cons m ms ih =>
    obtain ⟨k, x⟩ := m
    obtain ⟨hs, hc⟩ := h
    have hx : x.canon = x := hc (k, x) (by simp)
    have hlt : ∀ a ∈ acc.map (fun p => p.1.data), a < k.data := by
      intro a ha
      simp only [List.map_append, List.map_cons, List.pairwise_append, List.pairwise_cons,
        List.mem_cons] at hs
      exact hs.2.2 a ha k.data (Or.inl rfl)
    simp only [canonMembers, hx]
    rw [insertMember_append k x acc hlt, ih (acc ++ [(k, x)]) (by simpa using ⟨hs, hc⟩)]
    simp

mutual
/-- Decoding is idempotent: the Go value of a Go value is itself. -/
theorem Value.canon_canon : ∀ v : Value, v.canon.canon = v.canon
  | .null => rfl
  | .bool _ => rfl
  | .number _ => rfl
  | .string _ => rfl
  | .array xs => by
    simp only [Value.canon]
    rw [canonElems_canonElems xs]
  | .object ms => by
    simp only [Value.canon]
    have hg := canonMembers_good ms [] ⟨by simp, by simp⟩
    rw [canonMembers_good_eq _ [] (by simpa using hg)]
    simp
theorem canonElems_canonElems : ∀ xs : List Value, canonElems (canonElems xs) = canonElems xs
  | [] => rfl
  | x :: xs => by
    simp only [canonElems]
    rw [Value.canon_canon x, canonElems_canonElems xs]
theorem canonMembers_good : ∀ (ms acc : List (String × Value)), GoodMembers acc →
    GoodMembers (canonMembers ms acc)
  | [], acc, h => by simpa [canonMembers] using h
  | (k, x) :: ms, acc, h => by
    simp only [canonMembers]
    exact canonMembers_good ms _ (insertMember_good k x.canon acc (Value.canon_canon x) h)
end

theorem Value.canonical_canon (v : Value) : v.canon.Canonical := v.canon_canon

mutual
/-- Storing the syntax tree of a Go value gives the value back, its maps sorted. -/
theorem Value.toValue_toJson (target : String) :
    ∀ v : Value, v.toJson.toValue target = .ok v.canon
  | .null => rfl
  | .bool _ => rfl
  | .number f => by
    simp only [Value.toJson, Json.toValue, Float64.toFloat_format, Value.canon]
  | .string _ => rfl
  | .array xs => by
    simp only [Value.toJson, Json.toValue, toValueElems_toJsonElems target xs, Value.canon]
  | .object ms => by
    simp only [Value.toJson, Json.toValue, toValueMembers_toJsonMembers target ms [],
      Value.canon]
theorem toValueElems_toJsonElems (target : String) :
    ∀ xs : List Value, toValueElems target (toJsonElems xs) = .ok (canonElems xs)
  | [] => rfl
  | x :: xs => by
    simp only [toJsonElems, toValueElems, Value.toValue_toJson target x,
      toValueElems_toJsonElems target xs, canonElems]
theorem toValueMembers_toJsonMembers (target : String) :
    ∀ (ms acc : List (String × Value)),
      toValueMembers target (toJsonMembers ms) acc = .ok (canonMembers ms acc)
  | [], acc => rfl
  | (k, x) :: ms, acc => by
    simp only [toJsonMembers, toValueMembers, Value.toValue_toJson target x, canonMembers]
    exact toValueMembers_toJsonMembers target ms _
end

/-- A Go value comes back from `json.Unmarshal` of its `json.Marshal`. -/
theorem Unmarshal_render (v : Value) (hv : v.Canonical) : Unmarshal v.render = .ok v := by
  unfold Unmarshal Value.render
  rw [parseDocument_render]
  simp only
  rw [Value.toValue_toJson, hv]

/-- Decoding the object that `json.Marshal` writes for a payload gives the payload back,
its value as a Go value. -/
theorem payload_decode_marshalled (op k : String) (v : Value) :
    CommandPayload.decode CommandPayload.zero
      (.object [("Operation", .string op), ("Key", .string k), ("Value", v.toJson)]) =
      .ok ⟨op, k, v.canon⟩ := by
  have h1 : fieldMatches "Operation" "Operation" = true := by decide
  have h2 : fieldMatches "Key" "Operation" = false := by decide
  have h3 : fieldMatches "Key" "Key" = true := by decide
  have h4 : fieldMatches "Value" "Operation" = false := by decide
  have h5 : fieldMatches "Value" "Key" = false := by decide
  have h6 : fieldMatches "Value" "Value" = true := by decide
  simp [CommandPayload.decode, CommandPayload.setMembers, CommandPayload.setMember,
    decodeStringField, CommandPayload.zero, h1, h2, h3, h4, h5, h6, Value.toValue_toJson]

/-- The payload is unchanged by `json.Marshal` followed by `json.Unmarshal`, up to
decoding its value. -/
theorem payload_Unmarshal_toLog (p : CommandPayload) :
    CommandPayload.Unmarshal p.toLog.Data CommandPayload.zero =
      .ok ⟨p.Operation, p.Key, p.Value.canon⟩ := by
  unfold CommandPayload.Unmarshal CommandPayload.toLog CommandPayload.encode
  simp only
  rw [parseDocument_render]
  exact payload_decode_marshalled _ _ _

/-- The streaming decoder reads a marshalled record off the head of the stream. -/
theorem Decoder.Decode_toLog (p : CommandPayload) (rest : Bytes) :
    Decoder.Decode ⟨p.toLog.Data ++ rest⟩ CommandPayload.zero =
      (.ok ⟨p.Operation, p.Key, p.Value.canon⟩, ⟨rest⟩) := by
  unfold Decoder.Decode Decoder.readValue CommandPayload.toLog CommandPayload.encode
  simp only
  rw [skipSpace_render, parseValue_render _ _ rest
    (by simp only [List.length_append]; omega) (by intro n h; cases h)]
  simp only
  rw [payload_decode_marshalled]

/-- A marshalled record at the head of the stream is another element. -/
theorem Decoder.More_toLog (p : CommandPayload) (rest : Bytes) :
    Decoder.More ⟨p.toLog.Data ++ rest⟩ = true := by
  unfold Decoder.More Decoder.peek CommandPayload.toLog CommandPayload.encode
  simp only
  rw [skipSpace_render]
  simp only [Json.render, List.cons_append]
  decide

end Dpasswd

namespace Dpasswd

/-! ## The store and the three FSM operations -/

theorem lookupItem_filter (key k : Bytes) (items : List (Bytes × Bytes)) :
    lookupItem key (items.filter (fun p => p.1 ≠ k)) =
      if key = k then none else lookupItem key items := by
  induction items with
  | nil => simp [lookupItem]
  | cons m items ih =>
    obtain ⟨k₁, v₁⟩ := m
    by_cases h1 : k₁ = k
    · subst h1
      by_cases h2 : key = k₁
      · subst h2; simpa [List.filter, lookupItem] using ih
      · have h3 : ¬ k₁ = key := fun h => h2 h.symm
        simpa [List.filter, lookupItem, h2, h3] using ih
    · by_cases h2 : key = k
      · subst h2
        simpa [List.filter, lookupItem, h1] using ih
      · by_cases h3 : k₁ = key
        · subst h3; simp [List.filter, lookupItem, h1]
        · simpa [List.filter, lookupItem, h1, h2, h3] using ih

theorem storableKey_iff (key : Bytes) :
    storableKey key = true ↔
      key.length ≠ 0 ∧ badgerPrefix.isPrefixOf key = false ∧ byteLength key ≤ maxKeySize := by
  unfold storableKey
  simp [and_assoc]

/-- A key that no transaction can write reads as absent. -/
theorem DB.lookup_unstorable (db : DB) (key : Bytes) (h : storableKey key = false) :
    db.lookup key = none := by
  simp [DB.lookup, h]

theorem DB.lookup_put (db : DB) (k val key : Bytes) (hk : storableKey k = true) :
    (db.put k val).lookup key = if key = k then some val else db.lookup key := by
  unfold DB.put DB.lookup
  by_cases h : key = k
  · subst h; simp [lookupItem, hk]
  · have h' : ¬ k = key := fun e => h e.symm
    simp only [lookupItem, h', if_false, h]
    rw [lookupItem_filter, if_neg h]

theorem DB.lookup_erase (db : DB) (k key : Bytes) :
    (db.erase k).lookup key = if key = k then none else db.lookup key := by
  unfold DB.erase DB.lookup
  rw [lookupItem_filter]
  by_cases h : key = k <;> simp [h]

theorem String.data_ne_nil (k : String) (h : k ≠ "") : k.data ≠ [] := by
  intro e
  apply h
  cases k
  simp only at e
  subst e
  rfl

theorem maxBatchSize_eq : maxBatchSize = 10066329 := by decide

theorem maxBatchCount_eq : maxBatchCount = 104857 := by decide

theorem estimateSize_le (key value : Bytes) :
    estimateSize key value ≤ byteLength key + 1026 := by
  unfold estimateSize ValueThreshold
  split_ifs with h
  · omega
  · omega

/-- A fresh update transaction takes a write that the store can hold. -/
theorem Txn.modify_ok (db : DB) (key : Bytes) (w : Option Bytes)
    (h : Storable key (w.getD [])) :
    ∃ c s, (db.NewTransaction true).modify key w = .ok ⟨db, true, [(key, w)], c, s⟩ := by
  obtain ⟨hk, hv⟩ := h
  obtain ⟨h1, h2, h3⟩ := (storableKey_iff key).mp hk
  have h4 := estimateSize_le key (w.getD [])
  unfold maxKeySize at h3
  refine ⟨2, 21 + estimateSize key (w.getD []) + 10, ?_⟩
  unfold Txn.modify DB.NewTransaction
  simp only [Bool.not_true, Bool.false_eq_true, if_false, h1, h2]
  rw [if_neg (by unfold maxKeySize; omega), if_neg (by omega), if_neg]
  rw [maxBatchSize_eq, maxBatchCount_eq]
  omega

/-- What a fresh update transaction answers to a write does not depend on the store. -/
theorem Txn.modify_error_db (db₁ db₂ : DB) (key : Bytes) (w : Option Bytes) (err : Error)
    (h : (db₁.NewTransaction true).modify key w = .error err) :
    (db₂.NewTransaction true).modify key w = .error err := by
  unfold Txn.modify DB.NewTransaction at h ⊢
  simp only [Bool.not_true, Bool.false_eq_true, if_false] at h ⊢
  split_ifs at h ⊢ with h1 h2 h3 h4 h5
  all_goals exact h

/-- A fresh update transaction refuses a write that the store cannot hold. -/
theorem Txn.modify_rejected (db : DB) (key : Bytes) (w : Option Bytes)
    (h : ¬ Storable key (w.getD [])) :
    ∃ err, (db.NewTransaction true).modify key w = .error err := by
  unfold Txn.modify DB.NewTransaction
  simp only [Bool.not_true, Bool.false_eq_true, if_false]
  split_ifs with h1 h2 h3 h4 h5
  · exact ⟨_, rfl⟩
  · exact ⟨_, rfl⟩
  · exact ⟨_, rfl⟩
  · exact ⟨_, rfl⟩
  · exact ⟨_, rfl⟩
  · exfalso
    apply h
    refine ⟨(storableKey_iff key).mpr ⟨h1, Bool.eq_false_iff.mpr h2, by omega⟩, by omega⟩

/-- The store takes the write of an encoding under a key it can hold: `set` binds the key
to the encoding of the value. -/
theorem badgerFSM.set_eq (b : badgerFSM) (k : String) (v : Value)
    (hk : Storable k.data v.render) :
    b.set k v = (⟨b.db.put k.data v.render⟩, none) := by
  have h1 : ¬ v.render.length ≤ 0 := by have := v.render_length_pos; omega
  obtain ⟨c, s, hm⟩ := Txn.modify_ok b.db k.data (some v.render) hk
  simp [badgerFSM.set, badgerFSM.setWith, Marshal, h1, Txn.Set, hm, Txn.CommitWith, DB.write]

/-- A write the store cannot hold: `set` returns an error, the same on every store and
engine, and the store is as it was. -/
theorem badgerFSM.set_rejected (k : String) (v : Value) (hk : ¬ Storable k.data v.render) :
    ∃ err, ∀ (b : badgerFSM) (fault : Option Error), b.setWith fault k v = (b, some err) := by
  have h1 : ¬ v.render.length ≤ 0 := by have := v.render_length_pos; omega
  obtain ⟨err, hm⟩ := Txn.modify_rejected ⟨[]⟩ k.data (some v.render) hk
  refine ⟨err, fun b fault => ?_⟩
  have hb := Txn.modify_error_db ⟨[]⟩ b.db k.data (some v.render) err hm
  simp only [badgerFSM.setWith, Marshal, h1, if_false, Txn.Set, hb, Txn.Discard]
  rfl

/-- On a healthy engine `setWith` is `set`. -/
theorem badgerFSM.setWith_none (b : badgerFSM) (k : String) (v : Value) :
    b.setWith none k v = b.set k v := rfl

/-- On a healthy engine `deleteWith` is `delete`. -/
theorem badgerFSM.deleteWith_none (b : badgerFSM) (k : String) :
    b.deleteWith none k = b.delete k := rfl

/-- On an engine that cannot write, `set` of a write the store could hold returns the
fault and the store is as it was. -/
theorem badgerFSM.set_fault (b : badgerFSM) (err : Error) (k : String) (v : Value)
    (hk : Storable k.data v.render) :
    b.setWith (some err) k v = (b, some err) := by
  have h1 : ¬ v.render.length ≤ 0 := by have := v.render_length_pos; omega
  obtain ⟨c, s, hm⟩ := Txn.modify_ok b.db k.data (some v.render) hk
  simp [badgerFSM.setWith, Marshal, h1, Txn.Set, hm, Txn.CommitWith]

/-- On the empty key `set` fails with `ErrEmptyKey` and writes nothing. -/
theorem badgerFSM.set_empty (b : badgerFSM) (v : Value) :
    b.set "" v = (b, some .ErrEmptyKey) := by
  have h1 : ¬ v.render.length ≤ 0 := by have := v.render_length_pos; omega
  simp [badgerFSM.set, badgerFSM.setWith, Marshal, h1, Txn.Set, Txn.modify, DB.NewTransaction,
    Txn.Discard]

theorem Storable_nil (key : Bytes) : Storable key [] ↔ storableKey key = true := by
  unfold Storable
  constructor
  · exact fun h => h.1
  · intro h
    exact ⟨h, by simp [byteLength]⟩

/-- On a key the store can hold `delete` removes the key. -/
theorem badgerFSM.delete_eq (b : badgerFSM) (k : String) (hk : storableKey k.data = true) :
    b.delete k = (⟨b.db.erase k.data⟩, none) := by
  obtain ⟨c, s, hm⟩ := Txn.modify_ok b.db k.data none ((Storable_nil _).mpr hk)
  simp [badgerFSM.delete, badgerFSM.deleteWith, Txn.Delete, hm, Txn.CommitWith, DB.write]

/-- On a key the store cannot hold `delete` returns an error, the same on every store and
engine, and the store is as it was. -/
theorem badgerFSM.delete_rejected (k : String) (hk : storableKey k.data = false) :
    ∃ err, ∀ (b : badgerFSM) (fault : Option Error), b.deleteWith fault k = (b, some err) := by
  obtain ⟨err, hm⟩ := Txn.modify_rejected ⟨[]⟩ k.data none
    (by rw [Option.getD_none, Storable_nil, hk]; simp)
  refine ⟨err, fun b fault => ?_⟩
  have hb := Txn.modify_error_db ⟨[]⟩ b.db k.data none err hm
  simp [badgerFSM.deleteWith, Txn.Delete, hb]

/-- On an engine that cannot write, `delete` of a key the store can hold returns the
fault and the store is as it was. -/
theorem badgerFSM.delete_fault (b : badgerFSM) (err : Error) (k : String)
    (hk : storableKey k.data = true) :
    b.deleteWith (some err) k = (b, some err) := by
  obtain ⟨c, s, hm⟩ := Txn.modify_ok b.db k.data none ((Storable_nil _).mpr hk)
  simp [badgerFSM.deleteWith, Txn.Delete, hm, Txn.CommitWith]

/-- On the empty key `delete` fails with `ErrEmptyKey`. -/
theorem badgerFSM.delete_empty (b : badgerFSM) : b.delete "" = (b, some .ErrEmptyKey) := by
  simp [badgerFSM.delete, badgerFSM.deleteWith, Txn.Delete, Txn.modify, DB.NewTransaction]

/-- A read transaction on a non-empty key returns the stored value. -/
theorem Txn.Get_some (db : DB) (key val : Bytes) (h : key ≠ []) (hv : db.lookup key = some val) :
    (db.NewTransaction false).Get key = .ok val := by
  have h2 : ¬ key.length = 0 := by have := List.length_pos.mpr h; omega
  simp [Txn.Get, DB.NewTransaction, lookupPending, h2, hv]

/-- A read transaction on a non-empty key without value reports `ErrKeyNotFound`. -/
theorem Txn.Get_none (db : DB) (key : Bytes) (h : key ≠ []) (hv : db.lookup key = none) :
    (db.NewTransaction false).Get key = .error .ErrKeyNotFound := by
  have h2 : ¬ key.length = 0 := by have := List.length_pos.mpr h; omega
  simp [Txn.Get, DB.NewTransaction, lookupPending, h2, hv]

end Dpasswd

namespace Dpasswd

/-! ## How `Apply` dispatches -/

theorem Apply_SET (b : badgerFSM) (log : Log) (op k : String) (v : Value)
    (hl : log.Type' = .LogCommand)
    (hd : CommandPayload.Unmarshal log.Data CommandPayload.zero = .ok ⟨op, k, v⟩)
    (hop : ToUpper (TrimSpace op) = "SET") :
    b.Apply log = ((b.set k v).1, some ⟨(b.set k v).2, v⟩) := by
  simp [badgerFSM.Apply, badgerFSM.ApplyWith, badgerFSM.set, hl, hd, hop]

theorem Apply_GET (b : badgerFSM) (log : Log) (op k : String) (v : Value)
    (hl : log.Type' = .LogCommand)
    (hd : CommandPayload.Unmarshal log.Data CommandPayload.zero = .ok ⟨op, k, v⟩)
    (hop : ToUpper (TrimSpace op) = "GET") :
    b.Apply log = (b, some ⟨(b.get k).2, (b.get k).1⟩) := by
  have h1 : ¬ ("GET" = "SET") := by decide
  simp [badgerFSM.Apply, badgerFSM.ApplyWith, hl, hd, hop, h1]

theorem Apply_DELETE (b : badgerFSM) (log : Log) (op k : String) (v : Value)
    (hl : log.Type' = .LogCommand)
    (hd : CommandPayload.Unmarshal log.Data CommandPayload.zero = .ok ⟨op, k, v⟩)
    (hop : ToUpper (TrimSpace op) = "DELETE") :
    b.Apply log = ((b.delete k).1, some ⟨(b.delete k).2, .null⟩) := by
  have h1 : ¬ ("DELETE" = "SET") := by decide
  have h2 : ¬ ("DELETE" = "GET") := by decide
  simp [badgerFSM.Apply, badgerFSM.ApplyWith, badgerFSM.delete, hl, hd, hop, h1, h2]

theorem Apply_other (b : badgerFSM) (log : Log) (p : CommandPayload)
    (hd : CommandPayload.Unmarshal log.Data CommandPayload.zero = .ok p)
    (h1 : ToUpper (TrimSpace p.Operation) ≠ "SET")
    (h2 : ToUpper (TrimSpace p.Operation) ≠ "GET")
    (h3 : ToUpper (TrimSpace p.Operation) ≠ "DELETE") :
    b.Apply log = (b, none) := by
  unfold badgerFSM.Apply badgerFSM.ApplyWith
  cases log.Type' <;> simp [hd, h1, h2, h3]

theorem Apply_undecodable (b : badgerFSM) (log : Log) (e : Error)
    (hd : CommandPayload.Unmarshal log.Data CommandPayload.zero = .error e) :
    b.Apply log = (b, none) := by
  unfold badgerFSM.Apply badgerFSM.ApplyWith
  cases log.Type' <;> simp [hd]

theorem Apply_not_command (b : badgerFSM) (log : Log) (h : log.Type' ≠ .LogCommand) :
    b.Apply log = (b, none) := by
  unfold badgerFSM.Apply badgerFSM.ApplyWith
  cases hl : log.Type' <;> simp_all

/-- The direct read of a trimmed, non-empty key that holds the encoding of a Go value. -/
theorem Get_stored (raft : Raft) (db : DB) (k : String) (v : Value) (hk : k ≠ "")
    (ht : TrimSpace k = k) (hv : v.Canonical) (hs : db.lookup k.data = some v.render) :
    fsmHandler.Get ⟨raft, db⟩ k =
      (⟨StatusOK, okBody "data fetched successfully"
        (.object [("key", .string k), ("value", v)])⟩, [.NewTransaction false]) := by
  have h1 : 0 < v.render.length := v.render_length_pos
  simp [fsmHandler.Get, ht, hk, Txn.Get_some db k.data v.render (String.data_ne_nil k hk) hs,
    h1, Unmarshal_render v hv]

/-- The direct read of a trimmed, non-empty key that holds nothing. -/
theorem Get_missing (raft : Raft) (db : DB) (k : String) (hk : k ≠ "")
    (ht : TrimSpace k = k) (hs : db.lookup k.data = none) :
    fsmHandler.Get ⟨raft, db⟩ k =
      (⟨StatusUnprocessableEntity,
        errorBody ("error getting key " ++ k ++ " from storage: " ++ Error.ErrKeyNotFound.Error)⟩,
        [.NewTransaction false]) := by
  simp [fsmHandler.Get, ht, hk, Txn.Get_none db k.data (String.data_ne_nil k hk) hs]

end Dpasswd

namespace Dpasswd

/-! ## Every value read consumes input, so `Restore` terminates, and always with an error -/

theorem skipSpace_length_le (s : List Char) : (skipSpace s).length ≤ s.length := by
  induction s with
  | nil => simp [skipSpace]
  | cons c r ih =>
    simp only [skipSpace]
    split_ifs
    · simp only [List.length_cons]; omega
    · exact le_refl _

theorem parseDigits_length_le (s : List Char) : (parseDigits s).2.length ≤ s.length := by
  induction s with
  | nil => simp [parseDigits]
  | cons c r ih =>
    simp only [parseDigits]
    cases charDigit? c with
    | none => simp
    | some d => simp only [List.length_cons]; omega

theorem parseLiteral_length_le (context : String) (lit s rest : List Char)
    (h : parseLiteral context lit s = .ok rest) : rest.length ≤ s.length := by
  induction lit generalizing s with
  | nil => simp only [parseLiteral, Except.ok.injEq] at h; subst h; exact le_refl _
  | cons l ls ih =>
    cases s with
    | nil => simp [parseLiteral] at h
    | cons c r =>
      simp only [parseLiteral] at h
      split_ifs at h
      have := ih r h
      simp only [List.length_cons]; omega

theorem parseInt_length_lt (s : List Char) (i : Option (Fin 9 × List (Fin 10)))
    (rest : List Char) (h : parseInt s = .ok (i, rest)) : rest.length < s.length := by
  cases s with
  | nil => simp [parseInt] at h
  | cons c r =>
    simp only [parseInt] at h
    split_ifs at h
    · simp only [Except.ok.injEq, Prod.mk.injEq] at h
      obtain ⟨-, rfl⟩ := h
      simp
    · cases hl : charLead? c with
      | none => simp [hl] at h
      | some d =>
        simp only [hl, Except.ok.injEq, Prod.mk.injEq] at h
        obtain ⟨-, rfl⟩ := h
        have := parseDigits_length_le r
        simp only [List.length_cons]; omega

theorem parseFrac_length_le (s : List Char) (f : Option (Fin 10 × List (Fin 10)))
    (rest : List Char) (h : parseFrac s = .ok (f, rest)) : rest.length ≤ s.length := by
  cases s with
  | nil => simp only [parseFrac, Except.ok.injEq, Prod.mk.injEq] at h; simp [← h.2]
  | cons c r =>
    simp only [parseFrac] at h
    split_ifs at h
    · cases r with
      | nil => simp at h
      | cons c₁ r₁ =>
        simp only at h
        cases hd : charDigit? c₁ with
        | none => simp [hd] at h
        | some d =>
          simp only [hd, Except.ok.injEq, Prod.mk.injEq] at h
          obtain ⟨-, rfl⟩ := h
          have := parseDigits_length_le r₁
          simp only [List.length_cons]; omega
    · simp only [Except.ok.injEq, Prod.mk.injEq] at h
      simp [← h.2]

theorem parseExpDigits_length_le (up : Bool) (sign : Option Bool) (s : List Char)
    (e : Option (Bool × Option Bool × Fin 10 × List (Fin 10))) (rest : List Char)
    (h : parseExpDigits up sign s = .ok (e, rest)) : rest.length ≤ s.length := by
  cases s with
  | nil => simp [parseExpDigits] at h
  | cons c r =>
    simp only [parseExpDigits] at h
    cases hd : charDigit? c with
    | none => simp [hd] at h
    | some d =>
      simp only [hd, Except.ok.injEq, Prod.mk.injEq] at h
      obtain ⟨-, rfl⟩ := h
      have := parseDigits_length_le r
      simp only [List.length_cons]; omega

theorem parseExp_length_le (s : List Char)
    (e : Option (Bool × Option Bool × Fin 10 × List (Fin 10))) (rest : List Char)
    (h : parseExp s = .ok (e, rest)) : rest.length ≤ s.length := by
  cases s with
  | nil => simp only [parseExp, Except.ok.injEq, Prod.mk.injEq] at h; simp [← h.2]
  | cons c r =>
    simp only [parseExp] at h
    split_ifs at h
    · cases r with
      | nil => simp at h
      | cons c₁ r₁ =>
        simp only at h
        split_ifs at h
        · have := parseExpDigits_length_le _ _ _ _ _ h
          simp only [List.length_cons]; omega
        · have := parseExpDigits_length_le _ _ _ _ _ h
          simp only [List.length_cons]; omega
        · have := parseExpDigits_length_le _ _ _ _ _ h
          simp only [List.length_cons] at this ⊢; omega
    · simp only [Except.ok.injEq, Prod.mk.injEq] at h
      simp [← h.2]

theorem parseUnsigned_length_lt (neg : Bool) (s : List Char) (n : Numeral) (rest : List Char)
    (h : parseUnsigned neg s = .ok (n, rest)) : rest.length < s.length := by
  unfold parseUnsigned at h
  cases hi : parseInt s with
  | error e => simp [hi] at h
  | ok p =>
    obtain ⟨i, s₁⟩ := p
    simp only [hi] at h
    cases hf : parseFrac s₁ with
    | error e => simp [hf] at h
    | ok p =>
      obtain ⟨f, s₂⟩ := p
      simp only [hf] at h
      cases he : parseExp s₂ with
      | error e => simp [he] at h
      | ok p =>
        obtain ⟨e, s₃⟩ := p
        simp only [he, Except.ok.injEq, Prod.mk.injEq] at h
        obtain ⟨-, rfl⟩ := h
        have h1 := parseInt_length_lt _ _ _ hi
        have h2 := parseFrac_length_le _ _ _ hf
        have h3 := parseExp_length_le _ _ _ he
        omega

theorem parseNumber_length_lt (s : List Char) (n : Numeral) (rest : List Char)
    (h : parseNumber s = .ok (n, rest)) : rest.length < s.length := by
  cases s with
  | nil => simp [parseNumber] at h
  | cons c r =>
    simp only [parseNumber] at h
    split_ifs at h
    · have := parseUnsigned_length_lt _ _ _ _ h
      simp only [List.length_cons]; omega
    · exact parseUnsigned_length_lt _ _ _ _ h

theorem consChar_ok (c : Char) (r : Except ParseError (List Char × List Char))
    (cs rest : List Char) (h : consChar c r = .ok (cs, rest)) :
    ∃ cs₁, r = .ok (cs₁, rest) := by
  cases r with
  | error e => simp [consChar] at h
  | ok p =>
    obtain ⟨cs₁, rest₁⟩ := p
    simp only [consChar, Except.ok.injEq, Prod.mk.injEq] at h
    exact ⟨cs₁, by rw [h.2]⟩

theorem hexEscape_length (s : List Char) (n : Nat) (r : List Char)
    (h : hexEscape s = .ok (n, r)) : r.length < s.length := by
  unfold hexEscape at h
  split at h
  · rename_i a b c d r₁
    cases hx : hex4? a b c d with
    | none => simp [hx] at h
    | some m =>
      simp only [hx, Except.ok.injEq, Prod.mk.injEq] at h
      obtain ⟨-, rfl⟩ := h
      simp only [List.length_cons]; omega
  · split at h <;> cases h

theorem peekEscape_length (s : List Char) (n : Nat) (r : List Char)
    (h : peekEscape s = some (n, r)) : r.length < s.length := by
  match s, h with
  | c :: u :: r₁, h =>
    simp only [peekEscape] at h
    split_ifs at h
    cases hx : hexEscape r₁ with
    | error e => simp [hx] at h
    | ok p =>
      simp only [hx, Option.some.injEq] at h
      subst h
      have := hexEscape_length _ _ _ hx
      simp only [List.length_cons]; omega

theorem decodeEscape_length_le (n : Nat) (r : List Char) :
    (decodeEscape n r).2.length ≤ r.length := by
  unfold decodeEscape
  split_ifs
  · cases hp : peekEscape r with
    | none => simp
    | some p =>
      obtain ⟨m, r₁⟩ := p
      simp only
      split_ifs
      · exact le_of_lt (peekEscape_length _ _ _ hp)
      · exact le_refl _
  · exact le_refl _

theorem stringLoop_length_lt (fuel : Nat) (s cs rest : List Char)
    (h : stringLoop fuel s = .ok (cs, rest)) : rest.length < s.length := by
  induction fuel generalizing s cs with
  | zero => simp [stringLoop] at h
  | succ f ih =>
    cases s with
    | nil => simp [stringLoop] at h
    | cons c r =>
      rw [stringLoop.eq_def] at h
      simp only at h
      split_ifs at h with h1 h2 h3
      · simp only [Except.ok.injEq, Prod.mk.injEq] at h
        simp [← h.2]
      · cases r with
        | nil => simp at h
        | cons e r₁ =>
          simp only at h
          cases hs : simpleEscape? e with
          | some x =>
            simp only [hs] at h
            obtain ⟨cs₁, h'⟩ := consChar_ok _ _ _ _ h
            have := ih _ _ h'
            simp only [List.length_cons]; omega
          | none =>
            simp only [hs] at h
            split_ifs at h
            cases hx : hexEscape r₁ with
            | error e => simp [hx] at h
            | ok p =>
              obtain ⟨n, r₂⟩ := p
              simp only [hx] at h
              obtain ⟨cs₁, h'⟩ := consChar_ok _ _ _ _ h
              have h4 := ih _ _ h'
              have h5 := decodeEscape_length_le n r₂
              have h6 := hexEscape_length _ _ _ hx
              simp only [List.length_cons]; omega
      · obtain ⟨cs₁, h'⟩ := consChar_ok _ _ _ _ h
        have := ih _ _ h'
        simp only [List.length_cons]; omega

theorem parseString_length_lt (s cs rest : List Char) (h : parseString s = .ok (cs, rest)) :
    rest.length < s.length :=
  stringLoop_length_lt _ _ _ _ h

/-- A successful parse of a value, of the elements of an array, or of the members of an
object leaves strictly less input than it was given. -/
theorem parse_length_lt (fuel : Nat) :
    (∀ s v rest, parseValue fuel s = .ok (v, rest) → rest.length < s.length) ∧
    (∀ s vs rest, parseElems fuel s = .ok (vs, rest) → rest.length < s.length) ∧
    (∀ s ms rest, parseMembers fuel s = .ok (ms, rest) → rest.length < s.length) := by
  induction fuel with
  | zero =>
    refine ⟨?_, ?_, ?_⟩ <;> intro s v rest h
    · simp [parseValue] at h
    · simp [parseElems] at h
    · simp [parseMembers] at h
  | succ f ih =>
    obtain ⟨ihV, ihE, ihM⟩ := ih
    refine ⟨?_, ?_, ?_⟩
    · intro s v rest h
      cases s with
      | nil => simp [parseValue] at h
      | cons c r =>
        rw [parseValue.eq_3] at h
        have hsk := skipSpace_length_le r
        split_ifs at h
        · generalize hg : skipSpace r = sk at h hsk
          cases sk with
          | nil => simp at h
          | cons c₁ r₁ =>
            simp only at h
            split_ifs at h
            · simp only [Except.ok.injEq, Prod.mk.injEq] at h
              obtain ⟨-, rfl⟩ := h
              simp only [List.length_cons] at hsk ⊢; omega
            · cases hm : parseMembers f (c₁ :: r₁) with
              | error e => simp [hm] at h
              | ok p =>
                obtain ⟨ms, rest₁⟩ := p
                simp only [hm, Except.ok.injEq, Prod.mk.injEq] at h
                obtain ⟨-, rfl⟩ := h
                have := ihM _ _ _ hm
                simp only [List.length_cons] at hsk this ⊢; omega
        · generalize hg : skipSpace r = sk at h hsk
          cases sk with
          | nil => simp at h
          | cons c₁ r₁ =>
            simp only at h
            split_ifs at h
            · simp only [Except.ok.injEq, Prod.mk.injEq] at h
              obtain ⟨-, rfl⟩ := h
              simp only [List.length_cons] at hsk ⊢; omega
            · cases hm : parseElems f (c₁ :: r₁) with
              | error e => simp [hm] at h
              | ok p =>
                obtain ⟨ms, rest₁⟩ := p
                simp only [hm, Except.ok.injEq, Prod.mk.injEq] at h
                obtain ⟨-, rfl⟩ := h
                have := ihE _ _ _ hm
                simp only [List.length_cons] at hsk this ⊢; omega
        · cases hm : parseString r with
          | error e => simp [hm] at h
          | ok p =>
            obtain ⟨cs, rest₁⟩ := p
            simp only [hm, Except.ok.injEq, Prod.mk.injEq] at h
            obtain ⟨-, rfl⟩ := h
            have := parseString_length_lt _ _ _ hm
            simp only [List.length_cons]; omega
        · cases hm : parseLiteral "in literal null" ['u', 'l', 'l'] r with
          | error e => simp [hm] at h
          | ok rest₁ =>
            simp only [hm, Except.ok.injEq, Prod.mk.injEq] at h
            obtain ⟨-, rfl⟩ := h
            have := parseLiteral_length_le _ _ _ _ hm
            simp only [List.length_cons]; omega
        · cases hm : parseLiteral "in literal true" ['r', 'u', 'e'] r with
          | error e => simp [hm] at h
          | ok rest₁ =>
            simp only [hm, Except.ok.injEq, Prod.mk.injEq] at h
            obtain ⟨-, rfl⟩ := h
            have := parseLiteral_length_le _ _ _ _ hm
            simp only [List.length_cons]; omega
        · cases hm : parseLiteral "in literal false" ['a', 'l', 's', 'e'] r with
          | error e => simp [hm] at h
          | ok rest₁ =>
            simp only [hm, Except.ok.injEq, Prod.mk.injEq] at h
            obtain ⟨-, rfl⟩ := h
            have := parseLiteral_length_le _ _ _ _ hm
            simp only [List.length_cons]; omega
        · cases hm : parseNumber (c :: r) with
          | error e => simp [hm] at h
          | ok p =>
            obtain ⟨n, rest₁⟩ := p
            simp only [hm, Except.ok.injEq, Prod.mk.injEq] at h
            obtain ⟨-, rfl⟩ := h
            exact parseNumber_length_lt _ _ _ hm
    · intro s vs rest h
      rw [parseElems.eq_2] at h
      cases hv : parseValue f s with
      | error e => simp [hv] at h
      | ok p =>
        obtain ⟨v, rest₁⟩ := p
        simp only [hv] at h
        have h1 := ihV _ _ _ hv
        have hsk := skipSpace_length_le rest₁
        generalize hg : skipSpace rest₁ = sk at h hsk
        cases sk with
        | nil => simp at h
        | cons c r =>
          simp only at h
          split_ifs at h
          · cases hm : parseElems f (skipSpace r) with
            | error e => simp [hm] at h
            | ok p =>
              obtain ⟨vs₁, rest₂⟩ := p
              simp only [hm, Except.ok.injEq, Prod.mk.injEq] at h
              obtain ⟨-, rfl⟩ := h
              have h2 := ihE _ _ _ hm
              have h3 := skipSpace_length_le r
              simp only [List.length_cons] at hsk; omega
          · simp only [Except.ok.injEq, Prod.mk.injEq] at h
            obtain ⟨-, rfl⟩ := h
            simp only [List.length_cons] at hsk; omega
    · intro s ms rest h
      cases s with
      | nil => simp [parseMembers] at h
      | cons q s =>
        rw [parseMembers.eq_3] at h
        split_ifs at h
        cases hk : parseString s with
        | error e => simp [hk] at h
        | ok p =>
          obtain ⟨k, rest₀⟩ := p
          simp only [hk] at h
          have h0 := parseString_length_lt _ _ _ hk
          have hsk0 := skipSpace_length_le rest₀
          generalize hg0 : skipSpace rest₀ = sk0 at h hsk0
          cases sk0 with
          | nil => simp at h
          | cons c r =>
            simp only at h
            split_ifs at h
            have hskr := skipSpace_length_le r
            cases hv : parseValue f (skipSpace r) with
            | error e => simp [hv] at h
            | ok p =>
              obtain ⟨v, rest₁⟩ := p
              simp only [hv] at h
              have h1 := ihV _ _ _ hv
              have hsk := skipSpace_length_le rest₁
              generalize hg : skipSpace rest₁ = sk at h hsk
              cases sk with
              | nil => simp at h
              | cons c₁ r₁ =>
                simp only at h
                split_ifs at h
                · cases hm : parseMembers f (skipSpace r₁) with
                  | error e => simp [hm] at h
                  | ok p =>
                    obtain ⟨ms₁, rest₂⟩ := p
                    simp only [hm, Except.ok.injEq, Prod.mk.injEq] at h
                    obtain ⟨-, rfl⟩ := h
                    have h2 := ihM _ _ _ hm
                    have h3 := skipSpace_length_le r₁
                    simp only [List.length_cons] at hsk hsk0 ⊢; omega
                · simp only [Except.ok.injEq, Prod.mk.injEq] at h
                  obtain ⟨-, rfl⟩ := h
                  simp only [List.length_cons] at hsk hsk0 ⊢; omega

/-- A successful `Decode` leaves a strictly shorter stream. -/
theorem Decoder.Decode_length_lt (dec dec₁ : Decoder) (into p : CommandPayload)
    (h : dec.Decode into = (.ok p, dec₁)) : dec₁.buf.length < dec.buf.length := by
  unfold Decoder.Decode Decoder.readValue at h
  cases hv : parseValue (dec.buf.length + 1) (skipSpace dec.buf) with
  | error e => simp [hv] at h
  | ok q =>
    obtain ⟨v, rest⟩ := q
    simp only [hv, Prod.mk.injEq] at h
    obtain ⟨-, rfl⟩ := h
    have h1 := (parse_length_lt _).1 _ _ _ hv
    have h2 := skipSpace_length_le dec.buf
    simp only
    omega

/-- When `More` is false, the token read fails: either the stream has ended, or a
closing bracket or brace stands at top level. -/
theorem Decoder.Token_of_not_More (dec : Decoder) (h : dec.More = false) :
    ∃ e, dec.Token = (.error e, dec) := by
  unfold Decoder.More at h
  unfold Decoder.Token
  cases hp : dec.peek with
  | error e => exact ⟨e, rfl⟩
  | ok c =>
    simp only [hp, Bool.and_eq_false_imp, ne_eq, decide_eq_true_eq, decide_not,
      Bool.not_eq_true', decide_eq_false_iff_not, Bool.not_eq_false', Decidable.not_not] at h
    by_cases h1 : c = ']'
    · subst h1
      exact ⟨tokenError ']', by simp⟩
    · have h2 : c = Char.ofNat 125 := by
        by_contra h2
        simp [h1, h2] at h
      subst h2
      have h3 : ¬ (Char.ofNat 125 = '[') := by decide
      have h4 : ¬ (Char.ofNat 125 = Char.ofNat 123) := by decide
      exact ⟨tokenError (Char.ofNat 125), by simp [h3, h4]⟩

/-- The loop of `Restore` terminates within the length of the stream, and every way out
of it carries an error. -/
theorem restoreLoop_always_errors (fuel : Nat) (dec : Decoder) (b : badgerFSM) (n : Nat)
    (hf : dec.buf.length < fuel) :
    ∃ b₁ e n₁, restoreLoop fuel dec b n = some (b₁, some e, n₁) := by
  induction fuel generalizing dec b n with
  | zero => omega
  | succ f ih =>
    rw [restoreLoop]
    cases hm : dec.More with
    | false =>
      obtain ⟨e, he⟩ := Decoder.Token_of_not_More dec hm
      exact ⟨b, e, n, by simp [he]⟩
    | true =>
      simp only [if_true]
      cases hd : dec.Decode CommandPayload.zero with
      | mk r dec₁ =>
        cases r with
        | error e => exact ⟨b, e, n, rfl⟩
        | ok data =>
          simp only
          cases hs : b.set data.Key data.Value with
          | mk b₁ err =>
            cases err with
            | some e => exact ⟨b₁, e, n, rfl⟩
            | none =>
              simp only
              have hl := Decoder.Decode_length_lt dec dec₁ _ _ hd
              exact ih dec₁ b₁ (n + 1) (by omega)

/-- Whatever the stream and the store, `Restore` returns, and what it returns is an
error: the `return nil` at its end is never reached. -/
theorem Restore_never_returns_nil (b : badgerFSM) (rClose : Bytes) :
    ∃ b₁ e n, b.Restore rClose = some (b₁, some e, n) := by
  unfold badgerFSM.Restore NewDecoder
  exact restoreLoop_always_errors _ _ b 0 (by simp)

end Dpasswd

namespace Dpasswd

/-! ## A value is read off the head of a text, whatever follows it -/

theorem skipSpace_append (s t : List Char) (h : skipSpace s ≠ []) :
    skipSpace (s ++ t) = skipSpace s ++ t := by
  induction s with
  | nil => simp [skipSpace] at h
  | cons c cs ih =>
    rw [List.cons_append]
    simp only [skipSpace] at h ⊢
    by_cases hc : isSpace c = true
    · simp only [if_pos hc] at h ⊢
      exact ih h
    · simp only [if_neg hc]
      rfl

theorem skipSpace_spaces_append (ws t : List Char) (h : skipSpace ws = []) :
    skipSpace (ws ++ t) = skipSpace t := by
  induction ws with
  | nil => rfl
  | cons c cs ih =>
    rw [List.cons_append]
    simp only [skipSpace] at h ⊢
    by_cases hc : isSpace c = true
    · rw [if_pos hc] at h ⊢
      exact ih h
    · rw [if_neg hc] at h
      cases h

theorem skipSpace_skipSpace (s : List Char) : skipSpace (skipSpace s) = skipSpace s := by
  induction s with
  | nil => rfl
  | cons c cs ih =>
    simp only [skipSpace]
    by_cases hc : isSpace c = true
    · rw [if_pos hc]; exact ih
    · rw [if_neg hc]
      simp only [skipSpace, if_neg hc]

theorem parseDigits_local (s t : List Char) (h : (parseDigits s).2 ≠ []) :
    parseDigits (s ++ t) = ((parseDigits s).1, (parseDigits s).2 ++ t) := by
  induction s with
  | nil => simp [parseDigits] at h
  | cons c cs ih =>
    rw [List.cons_append]
    simp only [parseDigits] at h ⊢
    cases hd : charDigit? c with
    | some d =>
      simp only [hd] at h ⊢
      rw [ih h]
    | none =>
      simp only [hd]
      rfl

theorem parseInt_local (s t : List Char) (i : Option (Fin 9 × List (Fin 10))) (r : List Char)
    (h : parseInt s = .ok (i, r)) (hr : r ≠ []) : parseInt (s ++ t) = .ok (i, r ++ t) := by
  cases s with
  | nil => simp [parseInt] at h
  | cons c r₀ =>
    simp only [List.cons_append, parseInt] at h ⊢
    split_ifs at h ⊢ with h0
    · simp only [Except.ok.injEq, Prod.mk.injEq] at h
      obtain ⟨rfl, rfl⟩ := h
      rfl
    · cases hl : charLead? c with
      | none => simp [hl] at h
      | some d =>
        simp only [hl, Except.ok.injEq, Prod.mk.injEq] at h ⊢
        obtain ⟨rfl, rfl⟩ := h
        rw [parseDigits_local r₀ t hr]
        exact ⟨rfl, rfl⟩

theorem parseFrac_local (s t : List Char) (f : Option (Fin 10 × List (Fin 10)))
    (r : List Char) (h : parseFrac s = .ok (f, r)) (hr : r ≠ []) :
    parseFrac (s ++ t) = .ok (f, r ++ t) := by
  cases s with
  | nil =>
    simp only [parseFrac, Except.ok.injEq, Prod.mk.injEq] at h
    exact absurd h.2.symm hr
  | cons c r₀ =>
    simp only [List.cons_append, parseFrac] at h ⊢
    split_ifs at h ⊢ with h0
    · cases r₀ with
      | nil => simp at h
      | cons c₁ r₁ =>
        simp only [List.cons_append] at h ⊢
        cases hd : charDigit? c₁ with
        | none => simp [hd] at h
        | some d =>
          simp only [hd, Except.ok.injEq, Prod.mk.injEq] at h ⊢
          obtain ⟨rfl, rfl⟩ := h
          rw [parseDigits_local r₁ t hr]
          exact ⟨rfl, rfl⟩
    · simp only [Except.ok.injEq, Prod.mk.injEq] at h
      obtain ⟨rfl, rfl⟩ := h
      rfl

theorem parseExpDigits_local (up : Bool) (sign : Option Bool) (s t : List Char)
    (e : Option (Bool × Option Bool × Fin 10 × List (Fin 10))) (r : List Char)
    (h : parseExpDigits up sign s = .ok (e, r)) (hr : r ≠ []) :
    parseExpDigits up sign (s ++ t) = .ok (e, r ++ t) := by
  cases s with
  | nil => simp [parseExpDigits] at h
  | cons c r₀ =>
    simp only [List.cons_append, parseExpDigits] at h ⊢
    cases hd : charDigit? c with
    | none => simp [hd] at h
    | some d =>
      simp only [hd, Except.ok.injEq, Prod.mk.injEq] at h ⊢
      obtain ⟨rfl, rfl⟩ := h
      rw [parseDigits_local r₀ t hr]
      exact ⟨rfl, rfl⟩

theorem parseExp_local (s t : List Char)
    (e : Option (Bool × Option Bool × Fin 10 × List (Fin 10))) (r : List Char)
    (h : parseExp s = .ok (e, r)) (hr : r ≠ []) : parseExp (s ++ t) = .ok (e, r ++ t) := by
  cases s with
  | nil =>
    simp only [parseExp, Except.ok.injEq, Prod.mk.injEq] at h
    exact absurd h.2.symm hr
  | cons c r₀ =>
    simp only [List.cons_append, parseExp] at h ⊢
    split_ifs at h ⊢ with h0
    · cases r₀ with
      | nil => simp at h
      | cons c₁ r₁ =>
        simp only [List.cons_append] at h ⊢
        split_ifs at h ⊢ with h1 h2
        · exact parseExpDigits_local _ _ _ t _ _ h hr
        · exact parseExpDigits_local _ _ _ t _ _ h hr
        · exact parseExpDigits_local _ _ (c₁ :: r₁) t _ _ h hr
    · simp only [Except.ok.injEq, Prod.mk.injEq] at h
      obtain ⟨rfl, rfl⟩ := h
      rfl

theorem parseFrac_nil_rest (s : List Char) (f : Option (Fin 10 × List (Fin 10)))
    (r : List Char) (h : parseFrac s = .ok (f, r)) (hr : r ≠ []) : s ≠ [] := by
  rintro rfl
  simp only [parseFrac, Except.ok.injEq, Prod.mk.injEq] at h
  exact hr h.2.symm

theorem parseExp_nil_rest (s : List Char)
    (e : Option (Bool × Option Bool × Fin 10 × List (Fin 10))) (r : List Char)
    (h : parseExp s = .ok (e, r)) (hr : r ≠ []) : s ≠ [] := by
  rintro rfl
  simp only [parseExp, Except.ok.injEq, Prod.mk.injEq] at h
  exact hr h.2.symm

theorem parseUnsigned_local (neg : Bool) (s t : List Char) (n : Numeral) (r : List Char)
    (h : parseUnsigned neg s = .ok (n, r)) (hr : r ≠ []) :
    parseUnsigned neg (s ++ t) = .ok (n, r ++ t) := by
  unfold parseUnsigned at h ⊢
  cases hi : parseInt s with
  | error e => simp [hi] at h
  | ok p1 =>
    obtain ⟨i, s₁⟩ := p1
    simp only [hi] at h
    cases hf : parseFrac s₁ with
    | error e => simp [hf] at h
    | ok p2 =>
      obtain ⟨f, s₂⟩ := p2
      simp only [hf] at h
      cases he : parseExp s₂ with
      | error e => simp [he] at h
      | ok p3 =>
        obtain ⟨e, s₃⟩ := p3
        simp only [he, Except.ok.injEq, Prod.mk.injEq] at h
        obtain ⟨rfl, rfl⟩ := h
        have h2 : s₂ ≠ [] := parseExp_nil_rest _ _ _ he hr
        have h1 : s₁ ≠ [] := parseFrac_nil_rest _ _ _ hf h2
        rw [parseInt_local s t i s₁ hi h1]
        simp only
        rw [parseFrac_local s₁ t f s₂ hf h2]
        simp only
        rw [parseExp_local s₂ t e s₃ he hr]

theorem parseNumber_local (s t : List Char) (n : Numeral) (r : List Char)
    (h : parseNumber s = .ok (n, r)) (hr : r ≠ []) :
    parseNumber (s ++ t) = .ok (n, r ++ t) := by
  cases s with
  | nil => simp [parseNumber] at h
  | cons c r₀ =>
    simp only [List.cons_append, parseNumber] at h ⊢
    split_ifs at h ⊢ with h0
    · exact parseUnsigned_local _ _ t _ _ h hr
    · exact parseUnsigned_local _ (c :: r₀) t _ _ h hr

theorem hexEscape_local (s t : List Char) (n : Nat) (r : List Char)
    (h : hexEscape s = .ok (n, r)) : hexEscape (s ++ t) = .ok (n, r ++ t) := by
  unfold hexEscape at h
  split at h
  · rename_i a b c d r₁
    cases hx : hex4? a b c d with
    | none => simp [hx] at h
    | some m =>
      simp only [hx, Except.ok.injEq, Prod.mk.injEq] at h
      obtain ⟨rfl, rfl⟩ := h
      simp only [List.cons_append, hexEscape, hx]
  · split at h <;> cases h

theorem peekEscape_local (s t : List Char) (m : Nat) (r : List Char)
    (h : peekEscape s = some (m, r)) : peekEscape (s ++ t) = some (m, r ++ t) := by
  match s, h with
  | c :: u :: r₁, h =>
    simp only [peekEscape, List.cons_append] at h ⊢
    split_ifs at h ⊢ with hc
    cases hx : hexEscape r₁ with
    | error e => simp [hx] at h
    | ok p =>
      obtain ⟨n, r₂⟩ := p
      simp only [hx, Option.some.injEq, Prod.mk.injEq] at h
      obtain ⟨rfl, rfl⟩ := h
      rw [hexEscape_local r₁ t n r₂ hx]

theorem stringLoop_nil (fuel : Nat) : stringLoop fuel [] = .error .eof := by
  cases fuel <;> rfl

theorem stringLoop_zero (s : List Char) : stringLoop 0 s = .error .eof := rfl

/-- One round of the loop over a string literal. -/
theorem stringLoop_cons (fuel : Nat) (c : Char) (r : List Char) :
    stringLoop (fuel + 1) (c :: r) =
      if c = '"' then .ok ([], r)
      else if c = '\\' then
        match r with
        | [] => .error .eof
        | e :: r₁ =>
          match simpleEscape? e with
          | some x => consChar x (stringLoop fuel r₁)
          | none =>
            if e = 'u' then
              match hexEscape r₁ with
              | .error err => .error err
              | .ok (n, r₂) =>
                consChar (decodeEscape n r₂).1 (stringLoop fuel (decodeEscape n r₂).2)
            else .error (.bad e "in string escape code")
      else if c.toNat < 32 then .error (.bad c "in string literal")
      else consChar c (stringLoop fuel r) := by
  rw [stringLoop.eq_def] <;> rfl

/-- When no escape is complete at the head of a text from which the loop goes on well, none
is complete there with more text behind it. -/
theorem peekEscape_none_local (fuel : Nat) (s t cs r : List Char)
    (hp : peekEscape s = none) (h : stringLoop fuel s = .ok (cs, r)) :
    peekEscape (s ++ t) = none := by
  cases fuel with
  | zero => simp [stringLoop_zero] at h
  | succ f =>
    match s, hp, h with
    | [], _, h => simp [stringLoop_nil] at h
    | [c], _, h =>
      rw [stringLoop_cons] at h
      by_cases hq : c = '"'
      · subst hq
        cases t with
        | nil => rfl
        | cons u t₁ => simp [peekEscape]
      · by_cases hb : c = '\\'
        · subst hb
          simp at h
        · cases t with
          | nil => rfl
          | cons u t₁ => simp [peekEscape, hb]
    | c :: u :: r₁, hp, h =>
      simp only [peekEscape, List.cons_append] at hp ⊢
      by_cases hc : c = '\\' ∧ u = 'u'
      · rw [if_pos hc] at hp ⊢
        obtain ⟨rfl, rfl⟩ := hc
        cases hx : hexEscape r₁ with
        | ok p => simp [hx] at hp
        | error e =>
          rw [stringLoop_cons] at h
          have hs : simpleEscape? 'u' = none := by decide
          simp [hs, hx] at h
      · rw [if_neg hc]

theorem decodeEscape_local (fuel : Nat) (n : Nat) (r₂ t cs r : List Char)
    (h : stringLoop fuel (decodeEscape n r₂).2 = .ok (cs, r)) :
    decodeEscape n (r₂ ++ t) = ((decodeEscape n r₂).1, (decodeEscape n r₂).2 ++ t) := by
  unfold decodeEscape at h ⊢
  split_ifs at h ⊢ with hs
  · cases hp : peekEscape r₂ with
    | some p =>
      obtain ⟨m, r₃⟩ := p
      rw [peekEscape_local r₂ t m r₃ hp]
      simp only
      by_cases hq : n < 56320 ∧ 56320 ≤ m ∧ m < 57344
      · simp only [if_pos hq]
      · simp only [if_neg hq]
    | none =>
      rw [hp] at h
      simp only at h
      rw [peekEscape_none_local fuel r₂ t cs r hp h]
  · rfl

theorem consChar_local (c : Char) (x y : Except ParseError (List Char × List Char))
    (cs r t : List Char) (hx : consChar c x = .ok (cs, r))
    (hy : ∀ cs₁, x = .ok (cs₁, r) → y = .ok (cs₁, r ++ t)) :
    consChar c y = .ok (cs, r ++ t) := by
  cases x with
  | error e => simp [consChar] at hx
  | ok p =>
    obtain ⟨cs₁, r₁⟩ := p
    simp only [consChar, Except.ok.injEq, Prod.mk.injEq] at hx
    obtain ⟨rfl, rfl⟩ := hx
    rw [hy cs₁ rfl]
    rfl

/-- The loop over a string literal reads the same string when text is put behind the
input and the bound is raised. -/
theorem stringLoop_local (fuel : Nat) : ∀ (s cs r : List Char),
    stringLoop fuel s = .ok (cs, r) →
    ∀ fuel₁, fuel ≤ fuel₁ → ∀ t, stringLoop fuel₁ (s ++ t) = .ok (cs, r ++ t) := by
  induction fuel with
  | zero => intro s cs r h; simp [stringLoop_zero] at h
  | succ f ih =>
    intro s cs r h fuel₁ hf t
    obtain ⟨f₁, rfl⟩ : ∃ f₁, fuel₁ = f₁ + 1 := ⟨fuel₁ - 1, by omega⟩
    have hf₁ : f ≤ f₁ := by omega
    cases s with
    | nil => simp [stringLoop_nil] at h
    | cons c r₀ =>
      rw [stringLoop_cons] at h
      rw [List.cons_append, stringLoop_cons]
      by_cases hq : c = '"'
      · rw [if_pos hq] at h ⊢
        simp only [Except.ok.injEq, Prod.mk.injEq] at h
        obtain ⟨rfl, rfl⟩ := h
        rfl
      · rw [if_neg hq] at h ⊢
        by_cases hb : c = '\\'
        · rw [if_pos hb] at h ⊢
          cases r₀ with
          | nil => simp at h
          | cons e r₁ =>
            simp only [List.cons_append] at h ⊢
            cases hs : simpleEscape? e with
            | some x =>
              simp only [hs] at h ⊢
              exact consChar_local _ _ _ _ _ _ h (fun cs₁ h₁ => ih _ _ _ h₁ _ hf₁ t)
            | none =>
              simp only [hs] at h ⊢
              by_cases hu : e = 'u'
              · rw [if_pos hu] at h ⊢
                cases hx : hexEscape r₁ with
                | error err => simp [hx] at h
                | ok p =>
                  obtain ⟨n, r₂⟩ := p
                  simp only [hx] at h
                  rw [hexEscape_local r₁ t n r₂ hx]
                  simp only
                  obtain ⟨cs₁, h₁⟩ := consChar_ok _ _ _ _ h
                  rw [decodeEscape_local f n r₂ t cs₁ r h₁]
                  simp only
                  exact consChar_local _ _ _ _ _ _ h (fun cs₂ h₂ => ih _ _ _ h₂ _ hf₁ t)
              · rw [if_neg hu] at h
                cases h
        · rw [if_neg hb] at h ⊢
          by_cases h32 : c.toNat < 32
          · rw [if_pos h32] at h
            cases h
          · rw [if_neg h32] at h ⊢
            exact consChar_local _ _ _ _ _ _ h (fun cs₁ h₁ => ih _ _ _ h₁ _ hf₁ t)

theorem parseString_local (s t cs r : List Char) (h : parseString s = .ok (cs, r)) :
    parseString (s ++ t) = .ok (cs, r ++ t) := by
  unfold parseString at h ⊢
  exact stringLoop_local _ _ _ _ h _ (by simp) t

theorem parseLiteral_local (context : String) (lit s t rest : List Char)
    (h : parseLiteral context lit s = .ok rest) :
    parseLiteral context lit (s ++ t) = .ok (rest ++ t) := by
  induction lit generalizing s with
  | nil =>
    simp only [parseLiteral, Except.ok.injEq] at h ⊢
    rw [h]
  | cons l ls ih =>
    cases s with
    | nil => simp [parseLiteral] at h
    | cons c r =>
      simp only [parseLiteral, List.cons_append] at h ⊢
      split_ifs at h ⊢ with hc
      exact ih _ h

theorem parseValue_ne_nil (fuel : Nat) (s : List Char) (v : Json) (r : List Char)
    (h : parseValue fuel s = .ok (v, r)) : s ≠ [] := by
  have := (parse_length_lt fuel).1 s v r h
  rintro rfl
  simp at this

theorem parseElems_ne_nil (fuel : Nat) (s : List Char) (vs : List Json) (r : List Char)
    (h : parseElems fuel s = .ok (vs, r)) : s ≠ [] := by
  have := (parse_length_lt fuel).2.1 s vs r h
  rintro rfl
  simp at this

theorem parseMembers_ne_nil (fuel : Nat) (s : List Char) (ms : List (String × Json))
    (r : List Char) (h : parseMembers fuel s = .ok (ms, r)) : s ≠ [] := by
  have := (parse_length_lt fuel).2.2 s ms r h
  rintro rfl
  simp at this

theorem ne_nil_of_skipSpace (s : List Char) (c : Char) (r : List Char)
    (h : skipSpace s = c :: r) : s ≠ [] := by
  rintro rfl
  cases h

/-- A value, the elements of an array and the members of an object are read the same
when text is put behind the input and the bound is raised; for a number at top level
this needs a character after it, as its literal could go on. -/
theorem parse_local (fuel : Nat) :
    (∀ s v r, parseValue fuel s = .ok (v, r) → (r ≠ [] ∨ ∀ n, v ≠ .number n) →
      ∀ fuel₁, fuel ≤ fuel₁ → ∀ t, parseValue fuel₁ (s ++ t) = .ok (v, r ++ t)) ∧
    (∀ s vs r, parseElems fuel s = .ok (vs, r) →
      ∀ fuel₁, fuel ≤ fuel₁ → ∀ t, parseElems fuel₁ (s ++ t) = .ok (vs, r ++ t)) ∧
    (∀ s ms r, parseMembers fuel s = .ok (ms, r) →
      ∀ fuel₁, fuel ≤ fuel₁ → ∀ t, parseMembers fuel₁ (s ++ t) = .ok (ms, r ++ t)) := by
  induction fuel with
  | zero =>
    refine ⟨?_, ?_, ?_⟩
    · intro s v r h; simp [parseValue] at h
    · intro s v r h; simp [parseElems] at h
    · intro s v r h; simp [parseMembers] at h
  | succ f ih =>
    obtain ⟨ihV, ihE, ihM⟩ := ih
    refine ⟨?_, ?_, ?_⟩
    · intro s v rest h hnum fuel₁ hf t
      obtain ⟨f₁, rfl⟩ : ∃ f₁, fuel₁ = f₁ + 1 := ⟨fuel₁ - 1, by omega⟩
      have hf₁ : f ≤ f₁ := by omega
      cases s with
      | nil => simp [parseValue] at h
      | cons c r =>
        rw [parseValue.eq_3] at h
        rw [List.cons_append, parseValue.eq_3]
        split_ifs at h ⊢ with h1 h2 h3 h4 h5 h6 h7
        · cases hg : skipSpace r with
          | nil => simp [hg] at h
          | cons c₁ r₁ =>
            rw [skipSpace_append r t (by rw [hg]; simp), hg]
            simp only [hg, List.cons_append] at h ⊢
            split_ifs at h ⊢ with hc
            · simp only [Except.ok.injEq, Prod.mk.injEq] at h
              obtain ⟨rfl, rfl⟩ := h
              rfl
            · cases hm : parseMembers f (c₁ :: r₁) with
              | error e => simp [hm] at h
              | ok p =>
                obtain ⟨ms, rest₁⟩ := p
                simp only [hm, Except.ok.injEq, Prod.mk.injEq] at h
                obtain ⟨rfl, rfl⟩ := h
                have := ihM _ _ _ hm f₁ hf₁ t
                rw [List.cons_append] at this
                rw [this]
        · cases hg : skipSpace r with
          | nil => simp [hg] at h
          | cons c₁ r₁ =>
            rw [skipSpace_append r t (by rw [hg]; simp), hg]
            simp only [hg, List.cons_append] at h ⊢
            split_ifs at h ⊢ with hc
            · simp only [Except.ok.injEq, Prod.mk.injEq] at h
              obtain ⟨rfl, rfl⟩ := h
              rfl
            · cases hm : parseElems f (c₁ :: r₁) with
              | error e => simp [hm] at h
              | ok p =>
                obtain ⟨ms, rest₁⟩ := p
                simp only [hm, Except.ok.injEq, Prod.mk.injEq] at h
                obtain ⟨rfl, rfl⟩ := h
                have := ihE _ _ _ hm f₁ hf₁ t
                rw [List.cons_append] at this
                rw [this]
        · cases hm : parseString r with
          | error e => simp [hm] at h
          | ok p =>
            obtain ⟨cs, rest₁⟩ := p
            simp only [hm, Except.ok.injEq, Prod.mk.injEq] at h
            obtain ⟨rfl, rfl⟩ := h
            rw [parseString_local r t cs rest₁ hm]
        · cases hm : parseLiteral "in literal null" ['u', 'l', 'l'] r with
          | error e => simp [hm] at h
          | ok rest₁ =>
            simp only [hm, Except.ok.injEq, Prod.mk.injEq] at h
            obtain ⟨rfl, rfl⟩ := h
            rw [parseLiteral_local _ _ r t rest₁ hm]
        · cases hm : parseLiteral "in literal true" ['r', 'u', 'e'] r with
          | error e => simp [hm] at h
          | ok rest₁ =>
            simp only [hm, Except.ok.injEq, Prod.mk.injEq] at h
            obtain ⟨rfl, rfl⟩ := h
            rw [parseLiteral_local _ _ r t rest₁ hm]
        · cases hm : parseLiteral "in literal false" ['a', 'l', 's', 'e'] r with
          | error e => simp [hm] at h
          | ok rest₁ =>
            simp only [hm, Except.ok.injEq, Prod.mk.injEq] at h
            obtain ⟨rfl, rfl⟩ := h
            rw [parseLiteral_local _ _ r t rest₁ hm]
        · cases hm : parseNumber (c :: r) with
          | error e => simp [hm] at h
          | ok p =>
            obtain ⟨n, rest₁⟩ := p
            simp only [hm, Except.ok.injEq, Prod.mk.injEq] at h
            obtain ⟨rfl, rfl⟩ := h
            have hr : rest₁ ≠ [] := by
              rcases hnum with hr | hn
              · exact hr
              · exact absurd rfl (hn n)
            have := parseNumber_local (c :: r) t n rest₁ hm hr
            rw [List.cons_append] at this
            rw [this]
    · intro s vs rest h fuel₁ hf t
      obtain ⟨f₁, rfl⟩ : ∃ f₁, fuel₁ = f₁ + 1 := ⟨fuel₁ - 1, by omega⟩
      have hf₁ : f ≤ f₁ := by omega
      rw [parseElems.eq_2] at h ⊢
      cases hv : parseValue f s with
      | error e => simp [hv] at h
      | ok p =>
        obtain ⟨v, rest₁⟩ := p
        simp only [hv] at h
        cases hg : skipSpace rest₁ with
        | nil => simp [hg] at h
        | cons c r =>
          have hne : rest₁ ≠ [] := ne_nil_of_skipSpace _ _ _ hg
          rw [ihV _ _ _ hv (Or.inl hne) f₁ hf₁ t]
          simp only
          rw [skipSpace_append rest₁ t (by rw [hg]; simp), hg]
          simp only [hg, List.cons_append] at h ⊢
          split_ifs at h ⊢ with hc hb
          · cases hm : parseElems f (skipSpace r) with
            | error e => simp [hm] at h
            | ok p =>
              obtain ⟨vs₁, rest₂⟩ := p
              simp only [hm, Except.ok.injEq, Prod.mk.injEq] at h
              obtain ⟨rfl, rfl⟩ := h
              rw [skipSpace_append r t (parseElems_ne_nil _ _ _ _ hm), ihE _ _ _ hm f₁ hf₁ t]
          · simp only [Except.ok.injEq, Prod.mk.injEq] at h
            obtain ⟨rfl, rfl⟩ := h
            rfl
    · intro s ms rest h fuel₁ hf t
      obtain ⟨f₁, rfl⟩ : ∃ f₁, fuel₁ = f₁ + 1 := ⟨fuel₁ - 1, by omega⟩
      have hf₁ : f ≤ f₁ := by omega
      cases s with
      | nil => simp [parseMembers] at h
      | cons q s =>
        rw [parseMembers.eq_3] at h
        rw [List.cons_append, parseMembers.eq_3]
        split_ifs at h ⊢ with hq
        cases hk : parseString s with
        | error e => simp [hk] at h
        | ok p =>
          obtain ⟨k, rest₀⟩ := p
          simp only [hk] at h
          rw [parseString_local s t k rest₀ hk]
          simp only
          cases hg0 : skipSpace rest₀ with
          | nil => simp [hg0] at h
          | cons c r =>
            rw [skipSpace_append rest₀ t (by rw [hg0]; simp), hg0]
            simp only [hg0, List.cons_append] at h ⊢
            split_ifs at h ⊢ with hc
            cases hv : parseValue f (skipSpace r) with
            | error e => simp [hv] at h
            | ok p =>
              obtain ⟨v, rest₁⟩ := p
              simp only [hv] at h
              cases hg : skipSpace rest₁ with
              | nil => simp [hg] at h
              | cons c₁ r₁ =>
                have hne : rest₁ ≠ [] := ne_nil_of_skipSpace _ _ _ hg
                rw [skipSpace_append r t (parseValue_ne_nil _ _ _ _ hv),
                  ihV _ _ _ hv (Or.inl hne) f₁ hf₁ t]
                simp only
                rw [skipSpace_append rest₁ t (by rw [hg]; simp), hg]
                simp only [hg, List.cons_append] at h ⊢
                split_ifs at h ⊢ with hc₁ hb
                · cases hm : parseMembers f (skipSpace r₁) with
                  | error e => simp [hm] at h
                  | ok p =>
                    obtain ⟨ms₁, rest₂⟩ := p
                    simp only [hm, Except.ok.injEq, Prod.mk.injEq] at h
                    obtain ⟨rfl, rfl⟩ := h
                    rw [skipSpace_append r₁ t (parseMembers_ne_nil _ _ _ _ hm),
                      ihM _ _ _ hm f₁ hf₁ t]
                · simp only [Except.ok.injEq, Prod.mk.injEq] at h
                  obtain ⟨rfl, rfl⟩ := h
                  rfl

end Dpasswd

namespace Dpasswd

/-! ## Restore on a stream of records -/

theorem encodeRecords_length (cmds : List CommandPayload) :
    cmds.length ≤ (encodeRecords cmds).length := by
  induction cmds with
  | nil => simp [encodeRecords]
  | cons p ps ih =>
    have hp : 0 < p.toLog.Data.length := by
      unfold CommandPayload.toLog CommandPayload.encode
      exact List.length_pos.mpr (Json.text_ne_nil _)
    simp only [encodeRecords, List.length_cons, List.length_append]
    omega

/-- At a closing bracket or brace the loop of `Restore` ends, and the token read that
follows fails: the decoder is at top level, where no array or object is open. -/
theorem restoreLoop_closing (fuel : Nat) (closing : Char) (tail : Bytes) (b : badgerFSM)
    (n : Nat) (hc : closing = ']' ∨ closing = Char.ofNat 125) :
    restoreLoop (fuel + 1) ⟨closing :: tail⟩ b n = some (b, some (tokenError closing), n) := by
  rcases hc with rfl | rfl
  · simp [restoreLoop, Decoder.More, Decoder.peek, Decoder.Token, skipSpace, isSpace]
  · have h1 : isSpace (Char.ofNat 125) = false := by decide
    have h2 : ¬ (Char.ofNat 125 = '[') := by decide
    have h3 : ¬ (Char.ofNat 125 = Char.ofNat 123) := by decide
    simp [restoreLoop, Decoder.More, Decoder.peek, Decoder.Token, skipSpace, h1, h2, h3]

/-- What a valid `SET` record is. -/
theorem validSetRecord_iff (r : Bytes) :
    validSetRecord r = true ↔
      ∃ p, CommandPayload.Unmarshal r CommandPayload.zero = .ok p ∧
        ToUpper (TrimSpace p.Operation) = "SET" ∧ Storable p.Key.data p.Value.render := by
  unfold validSetRecord
  cases h : CommandPayload.Unmarshal r CommandPayload.zero with
  | error e => simp
  | ok p => simp

theorem recordKey_eq (r : Bytes) (p : CommandPayload)
    (h : CommandPayload.Unmarshal r CommandPayload.zero = .ok p) : recordKey r = p.Key := by
  simp [recordKey, h]

/-- The first character of a text that parses as a value closes nothing. -/
theorem parseValue_head (fuel : Nat) (c : Char) (s : List Char) (v : Json) (r : List Char)
    (h : parseValue fuel (c :: s) = .ok (v, r)) : c ≠ ']' ∧ c ≠ Char.ofNat 125 := by
  cases fuel with
  | zero => simp [parseValue] at h
  | succ f =>
    rw [parseValue.eq_3] at h
    refine ⟨?_, ?_⟩
    · rintro rfl
      simp [parseNumber, parseUnsigned, parseInt, charDigit?, charLead?] at h
    · rintro rfl
      have h1 : ¬ (Char.ofNat 125 = Char.ofNat 123) := by decide
      have h2 : ¬ (Char.ofNat 125 = '[') := by decide
      have h3 : ¬ (Char.ofNat 125 = '"') := by decide
      have h4 : ¬ (Char.ofNat 125 = 'n') := by decide
      have h5 : ¬ (Char.ofNat 125 = 't') := by decide
      have h6 : ¬ (Char.ofNat 125 = 'f') := by decide
      have h7 : ¬ (Char.ofNat 125 = '-' ∨ (charDigit? (Char.ofNat 125)).isSome = true) := by
        decide
      simp only [h1, h2, h3, h4, h5, h6, h7, if_false] at h
      cases h

/-- The streaming decoder reads a record off the head of the stream, after white space:
it decodes what `json.Unmarshal` decodes from the text of the record, and leaves the white
space that ended the record in front of the rest. -/
theorem Decoder.Decode_record (ws r rest : Bytes) (p : CommandPayload)
    (hws : skipSpace ws = [])
    (h : CommandPayload.Unmarshal r CommandPayload.zero = .ok p) :
    Decoder.More ⟨ws ++ (r ++ rest)⟩ = true ∧
    ∃ ws₁, skipSpace ws₁ = [] ∧
      Decoder.Decode ⟨ws ++ (r ++ rest)⟩ CommandPayload.zero = (.ok p, ⟨ws₁ ++ rest⟩) := by
  unfold CommandPayload.Unmarshal parseDocument at h
  cases hv : parseValue (r.length + 1) (skipSpace r) with
  | error e => simp [hv] at h
  | ok q =>
    obtain ⟨j, r₁⟩ := q
    simp only [hv] at h
    cases hg : skipSpace r₁ with
    | cons c r₂ => simp [hg] at h
    | nil =>
      simp only [hg] at h
      have hne : skipSpace r ≠ [] := parseValue_ne_nil _ _ _ _ hv
      have hsk : skipSpace (ws ++ (r ++ rest)) = skipSpace r ++ rest := by
        rw [skipSpace_spaces_append ws _ hws, skipSpace_append r rest hne]
      have hnum : ∀ n, j ≠ .number n := by
        rintro n rfl
        simp [CommandPayload.decode] at h
      have hloc := (parse_local (r.length + 1)).1 _ _ _ hv (Or.inr hnum)
        ((ws ++ (r ++ rest)).length + 1) (by simp only [List.length_append]; omega) rest
      refine ⟨?_, r₁, hg, ?_⟩
      · unfold Decoder.More Decoder.peek
        simp only [hsk]
        cases hh : skipSpace r with
        | nil => exact absurd hh hne
        | cons c s =>
          rw [hh] at hv
          obtain ⟨h1, h2⟩ := parseValue_head _ _ _ _ _ hv
          simp [h1, h2]
      · unfold Decoder.Decode Decoder.readValue
        simp only [hsk, hloc, h]

/-- The loop of `Restore` on a stream of valid `SET` records, after which `More` is false
(the stream ends, or a closing bracket or brace stands there): every record is set, as
`Apply` would on the command of the same text, and then the token read fails. -/
theorem restoreLoop_stream (records : List Bytes) (tail : Bytes)
    (htail : Decoder.More ⟨tail⟩ = false)
    (hvalid : ∀ r ∈ records, validSetRecord r = true) :
    ∀ (ws : Bytes) (b : badgerFSM) (fuel n : Nat), skipSpace ws = [] →
      records.length < fuel →
      ∃ e, restoreLoop fuel ⟨ws ++ (concatRecords records ++ tail)⟩ b n =
        some ((applyAll b (records.map recordLog)).1, some e, n + records.length) := by
  induction records with
  | nil =>
    intro ws b fuel n hws hf
    obtain ⟨f, rfl⟩ : ∃ f, fuel = f + 1 := ⟨fuel - 1, by simp at hf; omega⟩
    have hm : Decoder.More ⟨ws ++ (concatRecords [] ++ tail)⟩ = false := by
      unfold Decoder.More Decoder.peek at htail ⊢
      simp only [concatRecords, List.nil_append]
      rw [skipSpace_spaces_append ws tail hws]
      exact htail
    obtain ⟨e, he⟩ := Decoder.Token_of_not_More _ hm
    exact ⟨e, by simp [restoreLoop, hm, he, applyAll]⟩
  | cons r rs ih =>
    intro ws b fuel n hws hf
    obtain ⟨f, rfl⟩ : ∃ f, fuel = f + 1 := ⟨fuel - 1, by simp at hf; omega⟩
    obtain ⟨p, hp, hop, hst⟩ := (validSetRecord_iff r).mp (hvalid r (List.mem_cons_self _ _))
    obtain ⟨hmore, ws₁, hws₁, hdec⟩ :=
      Decoder.Decode_record ws r (concatRecords rs ++ tail) p hws hp
    have hset := badgerFSM.set_eq b p.Key p.Value hst
    have happly : (b.Apply (recordLog r)).1 = ⟨b.db.put p.Key.data p.Value.render⟩ := by
      rw [Apply_SET b (recordLog r) p.Operation p.Key p.Value rfl hp hop, hset]
    obtain ⟨e, he⟩ := ih (fun x hx => hvalid x (List.mem_cons_of_mem _ hx)) ws₁
      ⟨b.db.put p.Key.data p.Value.render⟩ f (n + 1) hws₁ (by simpa using hf)
    refine ⟨e, ?_⟩
    simp only [concatRecords, List.append_assoc, List.map_cons, applyAll, List.length_cons]
    rw [restoreLoop, hmore, if_pos rfl, hdec]
    simp only [hset]
    rw [he, happly]
    congr 3
    omega

/-- The method `Restore` on a stream of valid `SET` records after which `More` is
false. -/
theorem Restore_stream (records : List Bytes) (tail : Bytes)
    (htail : Decoder.More ⟨tail⟩ = false)
    (hvalid : ∀ r ∈ records, validSetRecord r = true) (b : badgerFSM) :
    ∃ e, b.Restore (concatRecords records ++ tail) =
      some ((applyAll b (records.map recordLog)).1, some e, records.length) := by
  unfold badgerFSM.Restore NewDecoder
  have hlen : records.length ≤ (concatRecords records).length := by
    clear htail
    induction records with
    | nil => simp
    | cons r rs ih =>
      obtain ⟨p, hp, -, -⟩ := (validSetRecord_iff r).mp (hvalid r (List.mem_cons_self _ _))
      have hr : r ≠ [] := by
        rintro rfl
        simp [CommandPayload.Unmarshal, parseDocument, skipSpace, parseValue] at hp
      have := List.length_pos.mpr hr
      have := ih (fun x hx => hvalid x (List.mem_cons_of_mem _ hx))
      simp only [concatRecords, List.length_cons, List.length_append]
      omega
  obtain ⟨e, he⟩ := restoreLoop_stream records tail htail hvalid [] b
    ((concatRecords records ++ tail).length + 1) 0 rfl
    (by simp only [List.length_append]; omega)
  refine ⟨e, ?_⟩
  simp only [List.nil_append, Nat.zero_add] at he
  exact he

end Dpasswd

namespace Dpasswd

/-! ## Keys written by a run of `SET` records, and replicas with equal contents -/

/-- The keys of the items after a run of valid `SET` records on fresh, pairwise distinct
keys: the new keys, newest first, in front of the old ones. -/
theorem applyAll_record_keys (records : List Bytes) (b : badgerFSM)
    (hvalid : ∀ r ∈ records, validSetRecord r = true)
    (hnodup : (records.map (fun r => (recordKey r).data)).Nodup)
    (hfresh : ∀ r ∈ records, (recordKey r).data ∉ b.db.items.map Prod.fst) :
    (applyAll b (records.map recordLog)).1.db.items.map Prod.fst =
      (records.map (fun r => (recordKey r).data)).reverse ++ b.db.items.map Prod.fst := by
  induction records generalizing b with
  | nil => simp [applyAll]
  | cons r rs ih =>
    obtain ⟨p, hp, hop, hst⟩ := (validSetRecord_iff r).mp (hvalid r (List.mem_cons_self _ _))
    have hkey : recordKey r = p.Key := recordKey_eq r p hp
    have happly : (b.Apply (recordLog r)).1 = ⟨b.db.put p.Key.data p.Value.render⟩ := by
      rw [Apply_SET b (recordLog r) p.Operation p.Key p.Value rfl hp hop,
        badgerFSM.set_eq b p.Key p.Value hst]
    have hfilter : b.db.items.filter (fun q => q.1 ≠ p.Key.data) = b.db.items := by
      apply List.filter_eq_self.mpr
      intro q hq
      have := hfresh r (List.mem_cons_self _ _)
      rw [hkey] at this
      simp only [List.mem_map, not_exists, not_and] at this
      simpa using fun e => this q hq e
    have hput : (b.db.put p.Key.data p.Value.render).items =
        (p.Key.data, p.Value.render) :: b.db.items := by
      simp only [DB.put]
      rw [hfilter]
    simp only [List.map_cons, List.nodup_cons] at hnodup
    simp only [List.map_cons, applyAll, happly]
    rw [ih ⟨b.db.put p.Key.data p.Value.render⟩
      (fun c hc => hvalid c (List.mem_cons_of_mem _ hc)) hnodup.2]
    · simp [hput, hkey]
    · intro c hc
      simp only [hput, List.map_cons, List.mem_cons, not_or]
      refine ⟨?_, hfresh c (List.mem_cons_of_mem _ hc)⟩
      intro e
      apply hnodup.1
      rw [hkey, ← e]
      exact List.mem_map_of_mem (fun r => (recordKey r).data) hc

/-- After a run of valid `SET` records with pairwise distinct keys on the empty store, as
many keys hold a value as there are records. -/
theorem applyAll_record_count (records : List Bytes) (b : badgerFSM)
    (hvalid : ∀ r ∈ records, validSetRecord r = true)
    (hnodup : (records.map recordKey).Nodup) (hempty : b.db.items = []) :
    (applyAll b (records.map recordLog)).1.db.keys.length = records.length := by
  have hnd : (records.map (fun r => (recordKey r).data)).Nodup := by
    have : records.map (fun r => (recordKey r).data) = (records.map recordKey).map String.data := by
      simp
    rw [this]
    exact hnodup.map (fun a b e => String.ext e)
  have hkeys := applyAll_record_keys records b hvalid hnd (by simp [hempty])
  simp only [hempty, List.map_nil, List.append_nil] at hkeys
  have hall : ∀ k ∈ (records.map (fun r => (recordKey r).data)).reverse, storableKey k = true := by
    intro k hk
    simp only [List.mem_reverse, List.mem_map] at hk
    obtain ⟨r, hr, rfl⟩ := hk
    obtain ⟨p, hp, -, hst⟩ := (validSetRecord_iff r).mp (hvalid r hr)
    rw [recordKey_eq r p hp]
    exact hst.1
  unfold DB.keys
  rw [hkeys, List.filter_eq_self.mpr hall, List.Nodup.dedup (List.nodup_reverse.mpr hnd)]
  simp

theorem get_congr (b₁ b₂ : badgerFSM) (k : String) (h : b₁.db.SameContents b₂.db) :
    b₁.get k = b₂.get k := by
  simp [badgerFSM.get, Txn.Get, DB.NewTransaction, lookupPending, h k.data]

theorem setWith_congr (b₁ b₂ : badgerFSM) (fault : Option Error) (k : String) (v : Value)
    (h : b₁.db.SameContents b₂.db) :
    (b₁.setWith fault k v).2 = (b₂.setWith fault k v).2 ∧
      (b₁.setWith fault k v).1.db.SameContents (b₂.setWith fault k v).1.db := by
  by_cases hk : Storable k.data v.render
  · cases fault with
    | none =>
      rw [badgerFSM.setWith_none, badgerFSM.setWith_none, badgerFSM.set_eq b₁ k v hk,
        badgerFSM.set_eq b₂ k v hk]
      refine ⟨rfl, ?_⟩
      intro key
      simp [DB.lookup_put _ _ _ _ hk.1, h key]
    | some err =>
      rw [badgerFSM.set_fault b₁ err k v hk, badgerFSM.set_fault b₂ err k v hk]
      exact ⟨rfl, h⟩
  · obtain ⟨err, he⟩ := badgerFSM.set_rejected k v hk
    rw [he b₁ fault, he b₂ fault]
    exact ⟨rfl, h⟩

theorem deleteWith_congr (b₁ b₂ : badgerFSM) (fault : Option Error) (k : String)
    (h : b₁.db.SameContents b₂.db) :
    (b₁.deleteWith fault k).2 = (b₂.deleteWith fault k).2 ∧
      (b₁.deleteWith fault k).1.db.SameContents (b₂.deleteWith fault k).1.db := by
  cases hk : storableKey k.data with
  | true =>
    cases fault with
    | none =>
      rw [badgerFSM.deleteWith_none, badgerFSM.deleteWith_none, badgerFSM.delete_eq b₁ k hk,
        badgerFSM.delete_eq b₂ k hk]
      refine ⟨rfl, ?_⟩
      intro key
      simp [DB.lookup_erase, h key]
    | some err =>
      rw [badgerFSM.delete_fault b₁ err k hk, badgerFSM.delete_fault b₂ err k hk]
      exact ⟨rfl, h⟩
  | false =>
    obtain ⟨err, he⟩ := badgerFSM.delete_rejected k hk
    rw [he b₁ fault, he b₂ fault]
    exact ⟨rfl, h⟩

/-- One `Apply` on two stores with the same contents, on engines in the same condition:
same response, same contents. -/
theorem ApplyWith_congr (b₁ b₂ : badgerFSM) (fault : Option Error) (log : Log)
    (h : b₁.db.SameContents b₂.db) :
    (b₁.ApplyWith fault log).2 = (b₂.ApplyWith fault log).2 ∧
      (b₁.ApplyWith fault log).1.db.SameContents (b₂.ApplyWith fault log).1.db := by
  unfold badgerFSM.ApplyWith
  cases log.Type' <;> try exact ⟨rfl, h⟩
  cases CommandPayload.Unmarshal log.Data CommandPayload.zero with
  | error e => exact ⟨rfl, h⟩
  | ok p =>
    simp only
    split_ifs
    · have := setWith_congr b₁ b₂ fault p.Key p.Value h
      exact ⟨by rw [this.1], this.2⟩
    · exact ⟨by rw [get_congr b₁ b₂ p.Key h], h⟩
    · have := deleteWith_congr b₁ b₂ fault p.Key h
      exact ⟨by rw [this.1], this.2⟩
    · exact ⟨rfl, h⟩

/-- An entry that does not get as far as a commit is applied the same whatever the
condition of the engine. -/
theorem ApplyWith_no_commit (b : badgerFSM) (fault : Option Error) (log : Log)
    (h : reachesCommit log = false) : b.ApplyWith fault log = b.ApplyWith none log := by
  unfold reachesCommit at h
  unfold badgerFSM.ApplyWith
  cases hl : log.Type' <;> try rfl
  rw [hl] at h
  simp only at h ⊢
  cases hd : CommandPayload.Unmarshal log.Data CommandPayload.zero with
  | error e => rfl
  | ok p =>
    rw [hd] at h
    simp only at h ⊢
    split_ifs at h ⊢ with h1 h2 h3
    · have hk : ¬ Storable p.Key.data p.Value.render := by simpa using h
      obtain ⟨err, he⟩ := badgerFSM.set_rejected p.Key p.Value hk
      rw [he b fault, he b none]
    · rfl
    · obtain ⟨err, he⟩ := badgerFSM.delete_rejected p.Key h
      rw [he b fault, he b none]
    · rfl

end Dpasswd

namespace Dpasswd

/-! ## Properties of the specification -/

/-- C1, counterexample: the key `!badger!x` is not empty and has no white space around it,
but it lies under the prefix the storage engine keeps for itself: `SET` is answered with
the error `ErrInvalidKey`, nothing is stored, and the direct read answers 422 with the
missing-key error instead of the value. -/
theorem set_reserved_key_not_stored :
    emptyFSM.Apply (CommandPayload.toLog ⟨"SET", "!badger!x", .string "v"⟩) =
      (emptyFSM, some ⟨some .ErrInvalidKey, .string "v"⟩) ∧
    fsmHandler.Get ⟨idleRaft .Leader,
        (emptyFSM.Apply (CommandPayload.toLog ⟨"SET", "!badger!x", .string "v"⟩)).1.db⟩
        "!badger!x" =
      (⟨StatusUnprocessableEntity,
        errorBody "error getting key !badger!x from storage: Key not found"⟩,
        [.NewTransaction false]) := by
  decide

/-- C1, amended. Round trip: for every store, every key `k` without leading or trailing
white space that the store can hold (not empty, not under the prefix `!badger!`, at most
65000 bytes) and every JSON value `v` (a Go value, nested objects and the empty object
included) whose encoding is no longer than a value log file, after `badgerFSM.Apply` of
the log entry that carries the command `SET k v`, the direct read `fsmHandler.Get` of `k`
answers 200 with exactly `v`. -/
theorem set_then_direct_read_roundtrip (b : badgerFSM) (raft : Raft) (op k : String)
    (v : Value) (hop : ToUpper (TrimSpace op) = "SET") (ht : TrimSpace k = k)
    (hv : v.Canonical) (hst : Storable k.data v.render) :
    fsmHandler.Get ⟨raft, (b.Apply (CommandPayload.toLog ⟨op, k, v⟩)).1.db⟩ k =
      (⟨StatusOK, okBody "data fetched successfully"
        (.object [("key", .string k), ("value", v)])⟩, [.NewTransaction false]) := by
  have hd := payload_Unmarshal_toLog ⟨op, k, v⟩
  have hc : v.canon = v := hv
  simp only [hc] at hd
  have hk : k ≠ "" := by
    rintro rfl
    have := ((storableKey_iff _).mp hst.1).1
    simp at this
  rw [Apply_SET b _ op k v rfl hd hop, badgerFSM.set_eq b k v hst]
  apply Get_stored raft _ k v hk ht hv
  simp [DB.lookup_put _ _ _ _ hst.1]

set_option maxRecDepth 100000 in
/-- Witness of C1: the key `alice` and a nested object with a number on the empty
store. -/
theorem set_then_direct_read_roundtrip_witness :
    (ToUpper (TrimSpace " set ") = "SET" ∧ TrimSpace "alice" = "alice" ∧
      (Value.object [("nested", .object []), ("tags", .array [.string "x", Value.digit 6])]).Canonical ∧
      Storable "alice".data (Value.object
        [("nested", .object []), ("tags", .array [.string "x", Value.digit 6])]).render) ∧
    fsmHandler.Get ⟨idleRaft .Follower, (emptyFSM.Apply (CommandPayload.toLog
        ⟨" set ", "alice",
          .object [("nested", .object []), ("tags", .array [.string "x", Value.digit 6])]⟩)).1.db⟩
        "alice" =
      (⟨StatusOK, okBody "data fetched successfully"
        (.object [("key", .string "alice"),
          ("value", .object [("nested", .object []),
            ("tags", .array [.string "x", Value.digit 6])])])⟩,
        [.NewTransaction false]) :=
  ⟨⟨by decide, by decide, by decide, by decide⟩,
    set_then_direct_read_roundtrip _ _ _ _ _ (by decide) (by decide) (by decide) (by decide)⟩

/-- C2, at the failing input: on the empty store the command `SET a ""` is answered
without error but binds `a` to the two quote characters, so the storage is not what it
was. -/
theorem set_empty_string_is_written :
    emptyFSM.Apply (CommandPayload.toLog ⟨"SET", "a", .string ""⟩) =
      (⟨⟨[(['a'], ['"', '"'])]⟩⟩, some ⟨none, .string ""⟩) ∧
    (emptyFSM.Apply (CommandPayload.toLog ⟨"SET", "a", .string ""⟩)).1.db.lookup ['a'] ≠
      emptyFSM.db.lookup ['a'] := by
  decide

end Dpasswd

namespace Dpasswd

set_option maxRecDepth 100000 in
/-- C6, counterexample: the store holds `1` under `a`; after `SET " a" 2` and
`DELETE " a"` (the key with a leading blank) the direct read of that key trims it to `a`
and answers 200 with the value `1`, not a missing-key error. -/
theorem delete_then_read_untrimmed_key :
    fsmHandler.Get ⟨idleRaft .Leader,
        (applyAll ⟨⟨[(['a'], ['1'])]⟩⟩
          [CommandPayload.toLog ⟨"SET", " a", Value.digit 1⟩,
            CommandPayload.toLog ⟨"DELETE", " a", .null⟩]).1.db⟩ " a" =
      (⟨StatusOK, okBody "data fetched successfully"
        (.object [("key", .string "a"), ("value", Value.digit 0)])⟩,
        [.NewTransaction false]) := by
  decide

/-- After `SET k v` and `DELETE k` nothing is stored under `k`: the store took the
delete, or it can hold nothing under `k` at all. -/
theorem set_delete_lookup (b : badgerFSM) (opS opD k : String) (v w : Value)
    (hS : ToUpper (TrimSpace opS) = "SET") (hD : ToUpper (TrimSpace opD) = "DELETE") :
    (applyAll b [CommandPayload.toLog ⟨opS, k, v⟩,
      CommandPayload.toLog ⟨opD, k, w⟩]).1.db.lookup k.data = none := by
  simp only [applyAll]
  rw [Apply_SET b _ opS k v.canon rfl (payload_Unmarshal_toLog ⟨opS, k, v⟩) hS]
  simp only
  rw [Apply_DELETE _ _ opD k w.canon rfl (payload_Unmarshal_toLog ⟨opD, k, w⟩) hD]
  simp only
  cases hk : storableKey k.data with
  | true =>
    rw [badgerFSM.delete_eq _ k hk]
    simp [DB.lookup_erase]
  | false => exact DB.lookup_unstorable _ _ hk

/-- C6, amended: for every store, every non-empty key `k` and every JSON value `v`, after
`SET k v` and then `DELETE k` through `Apply`, a `GET k` command is answered with the
error `ErrKeyNotFound` and the empty object; and when `k` has no leading or trailing
white space, the direct read `fsmHandler.Get` of `k` answers 422 with the missing-key
error of the store. -/
theorem delete_then_read_missing (b : badgerFSM) (raft : Raft) (opS opD opG k : String)
    (v w : Value) (hS : ToUpper (TrimSpace opS) = "SET")
    (hD : ToUpper (TrimSpace opD) = "DELETE") (hG : ToUpper (TrimSpace opG) = "GET")
    (hk : k ≠ "") :
    ((applyAll b [CommandPayload.toLog ⟨opS, k, v⟩, CommandPayload.toLog ⟨opD, k, w⟩]).1.Apply
        (CommandPayload.toLog ⟨opG, k, w⟩)).2 =
      some ⟨some .ErrKeyNotFound, .object []⟩ ∧
    (TrimSpace k = k →
      fsmHandler.Get ⟨raft,
          (applyAll b [CommandPayload.toLog ⟨opS, k, v⟩,
            CommandPayload.toLog ⟨opD, k, w⟩]).1.db⟩ k =
        (⟨StatusUnprocessableEntity,
          errorBody ("error getting key " ++ k ++ " from storage: " ++
            Error.ErrKeyNotFound.Error)⟩,
          [.NewTransaction false])) := by
  have hnone := set_delete_lookup b opS opD k v w hS hD
  refine ⟨?_, ?_⟩
  · rw [Apply_GET _ _ opG k w.canon rfl (payload_Unmarshal_toLog ⟨opG, k, w⟩) hG]
    simp [badgerFSM.get, Txn.Get_none _ k.data (String.data_ne_nil k hk) hnone]
  · intro ht
    exact Get_missing raft _ k hk ht hnone

set_option maxRecDepth 100000 in
/-- Witness of C6 (amended): the key `a` on a store that holds it. -/
theorem delete_then_read_missing_witness :
    (ToUpper (TrimSpace "SET") = "SET" ∧ ToUpper (TrimSpace "delete") = "DELETE" ∧
      ToUpper (TrimSpace "get") = "GET" ∧ ("a" : String) ≠ "") ∧
    (((applyAll ⟨⟨[(['a'], ['1'])]⟩⟩
        [CommandPayload.toLog ⟨"SET", "a", Value.digit 1⟩,
          CommandPayload.toLog ⟨"delete", "a", .null⟩]).1.Apply
        (CommandPayload.toLog ⟨"get", "a", .null⟩)).2 =
      some ⟨some .ErrKeyNotFound, .object []⟩ ∧
    (TrimSpace "a" = "a" →
      fsmHandler.Get ⟨idleRaft .Leader,
          (applyAll ⟨⟨[(['a'], ['1'])]⟩⟩
            [CommandPayload.toLog ⟨"SET", "a", Value.digit 1⟩,
              CommandPayload.toLog ⟨"delete", "a", .null⟩]).1.db⟩ "a" =
        (⟨StatusUnprocessableEntity,
          errorBody ("error getting key " ++ "a" ++ " from storage: " ++
            Error.ErrKeyNotFound.Error)⟩,
          [.NewTransaction false]))) :=
  ⟨⟨by decide, by decide, by decide, by decide⟩,
    delete_then_read_missing _ _ _ _ _ _ _ _ (by decide) (by decide) (by decide) (by decide)⟩

/-- C7. For every store and every log entry that is not a command, or whose data does not
decode as a `CommandPayload`, or whose decoded operation, trimmed and upper-cased, is
none of `SET`, `GET`, `DELETE`: `Apply` returns nil and leaves the store as it was. -/
theorem Apply_unrecognised_is_noop (b : badgerFSM) (log : Log)
    (h : log.Type' ≠ .LogCommand ∨
      (∃ e, CommandPayload.Unmarshal log.Data CommandPayload.zero = .error e) ∨
      (∃ p, CommandPayload.Unmarshal log.Data CommandPayload.zero = .ok p ∧
        ToUpper (TrimSpace p.Operation) ≠ "SET" ∧ ToUpper (TrimSpace p.Operation) ≠ "GET" ∧
        ToUpper (TrimSpace p.Operation) ≠ "DELETE")) :
    b.Apply log = (b, none) := by
  rcases h with h | ⟨e, he⟩ | ⟨p, hp, h1, h2, h3⟩
  · exact Apply_not_command b log h
  · exact Apply_undecodable b log e he
  · exact Apply_other b log p hp h1 h2 h3

set_option maxRecDepth 100000 in
/-- Witness of C7: a configuration entry, a truncated command, a command whose value is
the number `1e400` (above the largest `float64`, so the data does not decode), and an
`UPDATE` command. -/
theorem Apply_unrecognised_is_noop_witness :
    (emptyFSM.Apply ⟨.LogConfiguration, (CommandPayload.toLog ⟨"SET", "a", .null⟩).Data⟩ =
      (emptyFSM, none)) ∧
    (emptyFSM.Apply ⟨.LogCommand, [Char.ofNat 123, '"', 'K', 'e', 'y', '"']⟩ =
      (emptyFSM, none)) ∧
    (emptyFSM.Apply ⟨.LogCommand,
        "\x7b\"Operation\":\"SET\",\"Key\":\"a\",\"Value\":1e400\x7d".data⟩ =
      (emptyFSM, none)) ∧
    (emptyFSM.Apply (CommandPayload.toLog ⟨"update", "a", .null⟩) = (emptyFSM, none)) :=
  ⟨Apply_unrecognised_is_noop _ _ (Or.inl (by decide)),
    Apply_unrecognised_is_noop _ _
      (Or.inr (Or.inl ⟨.SyntaxError "unexpected end of JSON input", by decide⟩)),
    Apply_unrecognised_is_noop _ _
      (Or.inr (Or.inl ⟨.UnmarshalTypeError "number 1e400"
        "struct field CommandPayload.Value of type float64", by decide⟩)),
    Apply_unrecognised_is_noop _ _
      (Or.inr (Or.inr ⟨⟨"update", "a", .null⟩, by decide, by decide, by decide, by decide⟩))⟩

/-- C10. Dispatch ignores letter case and surrounding white space: for every store, key
and value, and every operation string `s` whose trimmed, upper-cased form is `SET`, `GET`
or `DELETE`, `Apply` on the command with operation `s` returns the same response and
leaves the same store as on the command with that canonical operation; and it is the
branch of that operation that runs: `set` of the key and the decoded value for `SET`,
`get` of the key for `GET`, `delete` of the key for `DELETE`. -/
theorem Apply_operation_normalised (b : badgerFSM) (s canonical k : String) (v : Value)
    (hs : ToUpper (TrimSpace s) = canonical)
    (hc : canonical = "SET" ∨ canonical = "GET" ∨ canonical = "DELETE") :
    b.Apply (CommandPayload.toLog ⟨s, k, v⟩) =
      b.Apply (CommandPayload.toLog ⟨canonical, k, v⟩) ∧
    (canonical = "SET" → b.Apply (CommandPayload.toLog ⟨s, k, v⟩) =
      ((b.set k v.canon).1, some ⟨(b.set k v.canon).2, v.canon⟩)) ∧
    (canonical = "GET" → b.Apply (CommandPayload.toLog ⟨s, k, v⟩) =
      (b, some ⟨(b.get k).2, (b.get k).1⟩)) ∧
    (canonical = "DELETE" → b.Apply (CommandPayload.toLog ⟨s, k, v⟩) =
      ((b.delete k).1, some ⟨(b.delete k).2, .null⟩)) := by
  have h1 := payload_Unmarshal_toLog ⟨s, k, v⟩
  have h2 := payload_Unmarshal_toLog ⟨canonical, k, v⟩
  rcases hc with rfl | rfl | rfl
  · refine ⟨?_, fun _ => ?_, fun h => absurd h (by decide), fun h => absurd h (by decide)⟩
    · rw [Apply_SET b _ s k v.canon rfl h1 hs,
        Apply_SET b _ "SET" k v.canon rfl h2 (by decide)]
    · exact Apply_SET b _ s k v.canon rfl h1 hs
  · refine ⟨?_, fun h => absurd h (by decide), fun _ => ?_, fun h => absurd h (by decide)⟩
    · rw [Apply_GET b _ s k v.canon rfl h1 hs,
        Apply_GET b _ "GET" k v.canon rfl h2 (by decide)]
    · exact Apply_GET b _ s k v.canon rfl h1 hs
  · refine ⟨?_, fun h => absurd h (by decide), fun h => absurd h (by decide), fun _ => ?_⟩
    · rw [Apply_DELETE b _ s k v.canon rfl h1 hs,
        Apply_DELETE b _ "DELETE" k v.canon rfl h2 (by decide)]
    · exact Apply_DELETE b _ s k v.canon rfl h1 hs

set_option maxRecDepth 100000 in
/-- Witness of C10: the operation `set` written with a long s (U+017F), in mixed case and
with blanks around it, runs the `SET` branch and binds the key. -/
theorem Apply_operation_normalised_witness :
    (ToUpper (TrimSpace "  \u017feT ") = "SET" ∧
      (("SET" : String) = "SET" ∨ ("SET" : String) = "GET" ∨
        ("SET" : String) = "DELETE")) ∧
    (emptyFSM.Apply (CommandPayload.toLog ⟨"  \u017feT ", "a", Value.digit 0⟩) =
      emptyFSM.Apply (CommandPayload.toLog ⟨"SET", "a", Value.digit 0⟩) ∧
    emptyFSM.Apply (CommandPayload.toLog ⟨"  \u017feT ", "a", Value.digit 0⟩) =
      (⟨⟨[(['a'], ['1'])]⟩⟩, some ⟨none, Value.digit 0⟩)) :=
  ⟨⟨by decide, by decide⟩,
    (Apply_operation_normalised emptyFSM "  \u017feT " "SET" "a" (Value.digit 0) (by decide)
      (Or.inl rfl)).1,
    ((Apply_operation_normalised emptyFSM "  \u017feT " "SET" "a" (Value.digit 0) (by decide)
      (Or.inl rfl)).2.1 rfl).trans (by decide)⟩

end Dpasswd

namespace Dpasswd

set_option maxRecDepth 100000 in
/-- C3, at the failing input: on the stream of one valid `SET a 1` record followed by a
closing bracket, `Restore` sets the record and then returns the syntax error of the
token read, not nil. -/
theorem Restore_one_record_then_bracket :
    emptyFSM.Restore (encodeRecords [⟨"SET", "a", Value.digit 0⟩] ++ [']']) =
      some (⟨⟨[(['a'], ['1'])]⟩⟩, some (tokenError ']'), 1) := by
  decide

set_option maxRecDepth 100000 in
/-- C4, counterexample: a stream of two valid `SET` records for the same key `a` leaves
one key populated, not two. -/
theorem Restore_same_key_twice :
    (emptyFSM.Restore
        (encodeRecords [⟨"SET", "a", Value.digit 0⟩, ⟨"SET", "a", Value.digit 1⟩] ++ [']'])).map
      (fun r => r.1.db.keys.length) = some 1 := by
  decide

/-- C4, amended: for every store, every `N` and every stream of `N` valid `SET` records
(each a text that decodes as a `CommandPayload` whose operation is `SET` after trimming
and upper-casing and whose key and value the store takes; white space may stand around
and inside the records), after which the stream ends or a closing bracket or brace
stands: `Restore` sets all `N` records and the store it leaves is the store obtained by
passing the `N` commands of the same texts in order to `Apply`; and when the store starts
empty and the `N` keys are pairwise distinct, exactly `N` keys are populated. -/
theorem Restore_matches_Apply (b : badgerFSM) (records : List Bytes) (tail : Bytes)
    (htail : Decoder.More ⟨tail⟩ = false)
    (hvalid : ∀ r ∈ records, validSetRecord r = true) :
    (b.Restore (concatRecords records ++ tail)).map (fun r => (r.1, r.2.2)) =
      some ((applyAll b (records.map recordLog)).1, records.length) ∧
    (b.db.items = [] → (records.map recordKey).Nodup →
      (applyAll b (records.map recordLog)).1.db.keys.length = records.length) := by
  refine ⟨?_, ?_⟩
  · obtain ⟨e, he⟩ := Restore_stream records tail htail hvalid b
    rw [he]
    rfl
  · intro hempty hnodup
    exact applyAll_record_count records b hvalid hnodup hempty

set_option maxRecDepth 100000 in
/-- Witness of C4 (amended): two records for the keys `a` and `b` on the empty store, the
first with its members in another order, a lower-case operation and white space around
it, the second under lower-case member names; a closing bracket follows. -/
theorem Restore_matches_Apply_witness :
    (Decoder.More ⟨[']']⟩ = false ∧
      ∀ r ∈ [" \x7b\"Key\": \"a\", \"Value\": 1.0, \"Operation\": \" set\"\x7d\n".data,
          "\x7b\"operation\":\"SET\",\"key\":\"b\",\"value\":\x7b\x7d\x7d".data],
        validSetRecord r = true) ∧
    ((emptyFSM.Restore (concatRecords
        [" \x7b\"Key\": \"a\", \"Value\": 1.0, \"Operation\": \" set\"\x7d\n".data,
          "\x7b\"operation\":\"SET\",\"key\":\"b\",\"value\":\x7b\x7d\x7d".data] ++
        [']'])).map (fun r => (r.1, r.2.2)) =
      some ((applyAll emptyFSM
        ([" \x7b\"Key\": \"a\", \"Value\": 1.0, \"Operation\": \" set\"\x7d\n".data,
          "\x7b\"operation\":\"SET\",\"key\":\"b\",\"value\":\x7b\x7d\x7d".data].map
          recordLog)).1, 2) ∧
    (applyAll emptyFSM
        ([" \x7b\"Key\": \"a\", \"Value\": 1.0, \"Operation\": \" set\"\x7d\n".data,
          "\x7b\"operation\":\"SET\",\"key\":\"b\",\"value\":\x7b\x7d\x7d".data].map
          recordLog)).1 = ⟨⟨[(['b'], [Char.ofNat 123, Char.ofNat 125]), (['a'], ['1'])]⟩⟩ ∧
    (applyAll emptyFSM
        ([" \x7b\"Key\": \"a\", \"Value\": 1.0, \"Operation\": \" set\"\x7d\n".data,
          "\x7b\"operation\":\"SET\",\"key\":\"b\",\"value\":\x7b\x7d\x7d".data].map
          recordLog)).1.db.keys.length = 2) :=
  ⟨⟨by decide, by decide⟩,
    (Restore_matches_Apply emptyFSM _ [']'] (by decide) (by decide)).1,
    by decide,
    (Restore_matches_Apply emptyFSM _ [']'] (by decide) (by decide)).2 rfl (by decide)⟩

/-- C5, counterexample: on a follower a write whose key is blank is answered with the
empty-key error, not with the not-leader error. -/
theorem follower_write_blank_key :
    fsmHandler.Set ⟨idleRaft .Follower, ⟨[]⟩⟩ (.ok ⟨"  ", .null⟩) =
      (⟨StatusUnprocessableEntity, errorBody "key is empty"⟩, []) ∧
    (fsmHandler.Set ⟨idleRaft .Follower, ⟨[]⟩⟩ (.ok ⟨"  ", .null⟩)).1 ≠
      ⟨StatusUnprocessableEntity, errorBody "not the leader"⟩ := by
  decide

/-- C5, amended: when the local consensus state is not Leader, each of `Join`, `Remove`,
`Set` and `Delete` answers 422 and calls nothing on the consensus engine or the store
but `State`; the error is "not the leader" whenever the request body binds and, for
`Set` and `Delete`, the trimmed key is not empty. -/
theorem nonleader_rejects (raft : Raft) (db : DB) (h : raft.State ≠ .Leader)
    (joinBind : Except Error raftJoinRequest) (removeBind : Except Error raftRemoveRequest)
    (setBind : Except Error fsmSetRequest) (param : String) :
    ((raftHandler.Join ⟨raft⟩ joinBind).1.code = StatusUnprocessableEntity ∧
      (∀ c ∈ (raftHandler.Join ⟨raft⟩ joinBind).2, c = .State) ∧
      (∀ req, joinBind = .ok req → raftHandler.Join ⟨raft⟩ joinBind =
        (⟨StatusUnprocessableEntity, errorBody "not the leader"⟩, [.State]))) ∧
    ((raftHandler.Remove ⟨raft⟩ removeBind).1.code = StatusUnprocessableEntity ∧
      (∀ c ∈ (raftHandler.Remove ⟨raft⟩ removeBind).2, c = .State) ∧
      (∀ req, removeBind = .ok req → raftHandler.Remove ⟨raft⟩ removeBind =
        (⟨StatusUnprocessableEntity, errorBody "not the leader"⟩, [.State]))) ∧
    ((fsmHandler.Set ⟨raft, db⟩ setBind).1.code = StatusUnprocessableEntity ∧
      (∀ c ∈ (fsmHandler.Set ⟨raft, db⟩ setBind).2, c = .State) ∧
      (∀ req, setBind = .ok req → TrimSpace req.Key ≠ "" → fsmHandler.Set ⟨raft, db⟩ setBind =
        (⟨StatusUnprocessableEntity, errorBody "not the leader"⟩, [.State]))) ∧
    ((fsmHandler.Delete ⟨raft, db⟩ param).1.code = StatusUnprocessableEntity ∧
      (∀ c ∈ (fsmHandler.Delete ⟨raft, db⟩ param).2, c = .State) ∧
      (TrimSpace param ≠ "" → fsmHandler.Delete ⟨raft, db⟩ param =
        (⟨StatusUnprocessableEntity, errorBody "not the leader"⟩, [.State]))) := by
  refine ⟨?_, ?_, ?_, ?_⟩
  · cases joinBind with
    | error e => simp [raftHandler.Join]
    | ok req => simp [raftHandler.Join, h]
  · cases removeBind with
    | error e => simp [raftHandler.Remove]
    | ok req => simp [raftHandler.Remove, h]
  · cases setBind with
    | error e => simp [fsmHandler.Set]
    | ok req =>
      by_cases hk : TrimSpace req.Key = ""
      · simp [fsmHandler.Set, hk]
      · simp [fsmHandler.Set, hk, h]
  · by_cases hk : TrimSpace param = ""
    · simp [fsmHandler.Delete, hk]
    · simp [fsmHandler.Delete, hk, h]

/-- Witness of C5 (amended): a follower, with requests that bind and a key `alice`. -/
theorem nonleader_rejects_witness :
    (idleRaft .Follower).State ≠ .Leader ∧
    raftHandler.Join ⟨idleRaft .Follower⟩ (.ok ⟨"n2", "10.0.0.2:4200"⟩) =
      (⟨StatusUnprocessableEntity, errorBody "not the leader"⟩, [.State]) ∧
    raftHandler.Remove ⟨idleRaft .Follower⟩ (.ok ⟨"n2"⟩) =
      (⟨StatusUnprocessableEntity, errorBody "not the leader"⟩, [.State]) ∧
    fsmHandler.Set ⟨idleRaft .Follower, ⟨[]⟩⟩ (.ok ⟨"alice", .string "secret-blob"⟩) =
      (⟨StatusUnprocessableEntity, errorBody "not the leader"⟩, [.State]) ∧
    fsmHandler.Delete ⟨idleRaft .Follower, ⟨[]⟩⟩ "alice" =
      (⟨StatusUnprocessableEntity, errorBody "not the leader"⟩, [.State]) :=
  ⟨by decide,
    (nonleader_rejects (idleRaft .Follower) ⟨[]⟩ (by decide) (.ok ⟨"n2", "10.0.0.2:4200"⟩)
      (.ok ⟨"n2"⟩) (.ok ⟨"alice", .string "secret-blob"⟩) "alice").1.2.2 _ rfl,
    (nonleader_rejects (idleRaft .Follower) ⟨[]⟩ (by decide) (.ok ⟨"n2", "10.0.0.2:4200"⟩)
      (.ok ⟨"n2"⟩) (.ok ⟨"alice", .string "secret-blob"⟩) "alice").2.1.2.2 _ rfl,
    (nonleader_rejects (idleRaft .Follower) ⟨[]⟩ (by decide) (.ok ⟨"n2", "10.0.0.2:4200"⟩)
      (.ok ⟨"n2"⟩) (.ok ⟨"alice", .string "secret-blob"⟩) "alice").2.2.1.2.2 _ rfl (by decide),
    (nonleader_rejects (idleRaft .Follower) ⟨[]⟩ (by decide) (.ok ⟨"n2", "10.0.0.2:4200"⟩)
      (.ok ⟨"n2"⟩) (.ok ⟨"alice", .string "secret-blob"⟩) "alice").2.2.2.2.2 (by decide)⟩

/-- C8. For every request whose key is empty after trimming, `Set`, `Get` and `Delete`
each answer 422 with "key is empty", whatever the state of the consensus engine, and
make no call at all: no `State`, no `Apply`, no storage transaction. -/
theorem empty_key_rejected_first (fh : fsmHandler) (req : fsmSetRequest) (param : String)
    (hreq : TrimSpace req.Key = "") (hparam : TrimSpace param = "") :
    fh.Set (.ok req) = (⟨StatusUnprocessableEntity, errorBody "key is empty"⟩, []) ∧
    fh.Get param = (⟨StatusUnprocessableEntity, errorBody "key is empty"⟩, []) ∧
    fh.Delete param = (⟨StatusUnprocessableEntity, errorBody "key is empty"⟩, []) := by
  refine ⟨?_, ?_, ?_⟩
  · simp [fsmHandler.Set, hreq]
  · simp [fsmHandler.Get, hparam]
  · simp [fsmHandler.Delete, hparam]

/-- Witness of C8: a blank key on the leader, with the key present in the store. -/
theorem empty_key_rejected_first_witness :
    (TrimSpace " \t" = "" ∧ TrimSpace "  " = "") ∧
    (fsmHandler.Set ⟨idleRaft .Leader, ⟨[([' ', ' '], ['1'])]⟩⟩ (.ok ⟨" \t", .null⟩) =
      (⟨StatusUnprocessableEntity, errorBody "key is empty"⟩, []) ∧
    fsmHandler.Get ⟨idleRaft .Leader, ⟨[([' ', ' '], ['1'])]⟩⟩ "  " =
      (⟨StatusUnprocessableEntity, errorBody "key is empty"⟩, []) ∧
    fsmHandler.Delete ⟨idleRaft .Leader, ⟨[([' ', ' '], ['1'])]⟩⟩ "  " =
      (⟨StatusUnprocessableEntity, errorBody "key is empty"⟩, [])) :=
  ⟨⟨by decide, by decide⟩,
    empty_key_rejected_first ⟨idleRaft .Leader, ⟨[([' ', ' '], ['1'])]⟩⟩ ⟨" \t", .null⟩ "  "
      (by decide) (by decide)⟩

/-- C9, counterexample: two replicas start from the empty store and apply the same
committed entry `SET a 1`.  The engine of the first commits the write; the engine of the
second cannot write (its disk is full) and `txn.Commit` returns an error, which `Apply`
records in the `ApplyResponse` before it goes on.  The replicas end with different
contents and different responses. -/
theorem replicas_diverge_on_store_failure :
    (applyAllWith emptyFSM [(CommandPayload.toLog ⟨"SET", "a", Value.digit 0⟩, none)]) =
      (⟨⟨[(['a'], ['1'])]⟩⟩, [some ⟨none, Value.digit 0⟩]) ∧
    (applyAllWith emptyFSM [(CommandPayload.toLog ⟨"SET", "a", Value.digit 0⟩,
        some (.other "no space left on device"))]) =
      (emptyFSM, [some ⟨some (.other "no space left on device"), Value.digit 0⟩]) ∧
    (applyAllWith emptyFSM
        [(CommandPayload.toLog ⟨"SET", "a", Value.digit 0⟩, none)]).1.db.lookup ['a'] ≠
      (applyAllWith emptyFSM [(CommandPayload.toLog ⟨"SET", "a", Value.digit 0⟩,
        some (.other "no space left on device"))]).1.db.lookup ['a'] := by
  decide

/-- C9, amended. Determinism: two replicas whose stores have the same contents, that pass
the same log entries in the same order to `Apply` and whose storage engines are in the
same condition at every entry that gets as far as a commit (in particular: both healthy
throughout) produce the same sequence of responses and end with stores of the same
contents.  An entry comes with the condition of the engine of the first replica and with
that of the second. -/
theorem replicas_agree (b₁ b₂ : badgerFSM)
    (entries : List (Log × Option Error × Option Error))
    (h : b₁.db.SameContents b₂.db)
    (hfaults : ∀ e ∈ entries, e.2.1 = e.2.2 ∨ reachesCommit e.1 = false) :
    (applyAllWith b₁ (entries.map (fun e => (e.1, e.2.1)))).2 =
        (applyAllWith b₂ (entries.map (fun e => (e.1, e.2.2)))).2 ∧
      (applyAllWith b₁ (entries.map (fun e => (e.1, e.2.1)))).1.db.SameContents
        (applyAllWith b₂ (entries.map (fun e => (e.1, e.2.2)))).1.db := by
  induction entries generalizing b₁ b₂ with
  | nil => exact ⟨rfl, h⟩
  | cons entry entries ih =>
    obtain ⟨log, fault₁, fault₂⟩ := entry
    have hstep : (b₁.ApplyWith fault₁ log).2 = (b₂.ApplyWith fault₂ log).2 ∧
        (b₁.ApplyWith fault₁ log).1.db.SameContents (b₂.ApplyWith fault₂ log).1.db := by
      rcases hfaults (log, fault₁, fault₂) (List.mem_cons_self _ _) with he | hn
      · simp only at he
        subst he
        exact ApplyWith_congr b₁ b₂ fault₁ log h
      · simp only at hn
        rw [ApplyWith_no_commit b₁ fault₁ log hn, ApplyWith_no_commit b₂ fault₂ log hn]
        exact ApplyWith_congr b₁ b₂ none log h
    obtain ⟨hr, hs⟩ := hstep
    obtain ⟨ir, is⟩ := ih (b₁.ApplyWith fault₁ log).1 (b₂.ApplyWith fault₂ log).1 hs
      (fun e he => hfaults e (List.mem_cons_of_mem _ he))
    simp only [List.map_cons, applyAllWith]
    exact ⟨by rw [hr, ir], is⟩

set_option maxRecDepth 100000 in
/-- Witness of C9 (amended): two replicas that hold the same two keys in different
order; both engines are healthy at the `SET` and at the `DELETE`, and the engine of the
second replica cannot write while the `GET` is applied, which commits nothing. -/
theorem replicas_agree_witness :
    (DB.SameContents ⟨[(['a'], ['1']), (['b'], ['2'])]⟩ ⟨[(['b'], ['2']), (['a'], ['1'])]⟩ ∧
      ∀ e ∈ [(CommandPayload.toLog ⟨"SET", "c", .bool true⟩, (none : Option Error),
            (none : Option Error)),
          (CommandPayload.toLog ⟨"GET", "a", .null⟩, none,
            some (.other "no space left on device")),
          (CommandPayload.toLog ⟨"DELETE", "b", .null⟩, none, none)],
        e.2.1 = e.2.2 ∨ reachesCommit e.1 = false) ∧
    ((applyAllWith ⟨⟨[(['a'], ['1']), (['b'], ['2'])]⟩⟩
        [(CommandPayload.toLog ⟨"SET", "c", .bool true⟩, none),
          (CommandPayload.toLog ⟨"GET", "a", .null⟩, none),
          (CommandPayload.toLog ⟨"DELETE", "b", .null⟩, none)]).2 =
      (applyAllWith ⟨⟨[(['b'], ['2']), (['a'], ['1'])]⟩⟩
        [(CommandPayload.toLog ⟨"SET", "c", .bool true⟩, none),
          (CommandPayload.toLog ⟨"GET", "a", .null⟩, some (.other "no space left on device")),
          (CommandPayload.toLog ⟨"DELETE", "b", .null⟩, none)]).2 ∧
    DB.SameContents
      (applyAllWith ⟨⟨[(['a'], ['1']), (['b'], ['2'])]⟩⟩
        [(CommandPayload.toLog ⟨"SET", "c", .bool true⟩, none),
          (CommandPayload.toLog ⟨"GET", "a", .null⟩, none),
          (CommandPayload.toLog ⟨"DELETE", "b", .null⟩, none)]).1.db
      (applyAllWith ⟨⟨[(['b'], ['2']), (['a'], ['1'])]⟩⟩
        [(CommandPayload.toLog ⟨"SET", "c", .bool true⟩, none),
          (CommandPayload.toLog ⟨"GET", "a", .null⟩, some (.other "no space left on device")),
          (CommandPayload.toLog ⟨"DELETE", "b", .null⟩, none)]).1.db) :=
  have hs : DB.SameContents ⟨[(['a'], ['1']), (['b'], ['2'])]⟩
      ⟨[(['b'], ['2']), (['a'], ['1'])]⟩ := by
    intro key
    by_cases h1 : ['a'] = key
    · subst h1; decide
    · by_cases h2 : ['b'] = key
      · subst h2; decide
      · simp [DB.lookup, lookupItem, h1, h2]
  ⟨⟨hs, by decide⟩,
    replicas_agree _ _
      [(CommandPayload.toLog ⟨"SET", "c", .bool true⟩, none, none),
        (CommandPayload.toLog ⟨"GET", "a", .null⟩, none,
          some (.other "no space left on device")),
        (CommandPayload.toLog ⟨"DELETE", "b", .null⟩, none, none)] hs (by decide)⟩

end Dpasswd

namespace Dpasswd

/-- C11. For every write or delete on the leader with a key that is not empty after
trimming: when the apply future of the consensus engine reports no error and carries
an `ApplyResponse`, `fsmHandler.Set` and `fsmHandler.Delete` answer 200 with the echoed
key (and the value, `null` for a delete), whatever the `Error` field of that
`ApplyResponse` holds. -/
theorem apply_response_error_ignored (fh : fsmHandler) (req : fsmSetRequest) (param : String)
    (rs rd : ApplyResponse) (hl : fh.raft.State = .Leader)
    (hreq : TrimSpace req.Key ≠ "") (hparam : TrimSpace param ≠ "")
    (hs : fh.raft.Apply (CommandPayload.encode ⟨"SET", TrimSpace req.Key, req.Value⟩) 500 =
      ⟨none, .applyResponse rs⟩)
    (hd : fh.raft.Apply (CommandPayload.encode ⟨"DELETE", TrimSpace param, .null⟩) 500 =
      ⟨none, .applyResponse rd⟩) :
    fh.Set (.ok req) =
      (⟨StatusOK, okBody "data stored successfully"
          (.object [("key", .string (TrimSpace req.Key)), ("value", req.Value)])⟩,
        [.State, .Apply (CommandPayload.encode ⟨"SET", TrimSpace req.Key, req.Value⟩) 500]) ∧
    fh.Delete param =
      (⟨StatusOK, okBody "data removed successfully"
          (.object [("key", .string (TrimSpace param)), ("value", .null)])⟩,
        [.State, .Apply (CommandPayload.encode ⟨"DELETE", TrimSpace param, .null⟩) 500]) := by
  refine ⟨?_, ?_⟩
  · simp [fsmHandler.Set, hreq, hl, CommandPayload.Marshal, hs, fsmSetRequest.toValue]
  · simp [fsmHandler.Delete, hparam, hl, CommandPayload.Marshal, hd]

/-- Witness of C11: the FSM recorded a store failure for both commands, and both
requests are answered 200. -/
theorem apply_response_error_ignored_witness :
    (storeFailureRaft.State = .Leader ∧ TrimSpace " alice" ≠ "" ∧ TrimSpace "alice " ≠ "" ∧
      (storeFailureRaft.Apply
          (CommandPayload.encode ⟨"SET", TrimSpace " alice", .string "secret-blob"⟩) 500).Response =
        .applyResponse ⟨some (.other "Txn is too big to fit into one request"), .null⟩) ∧
    (fsmHandler.Set ⟨storeFailureRaft, ⟨[]⟩⟩ (.ok ⟨" alice", .string "secret-blob"⟩) =
      (⟨StatusOK, okBody "data stored successfully"
          (.object [("key", .string (TrimSpace " alice")), ("value", .string "secret-blob")])⟩,
        [.State, .Apply (CommandPayload.encode
          ⟨"SET", TrimSpace " alice", .string "secret-blob"⟩) 500]) ∧
    fsmHandler.Delete ⟨storeFailureRaft, ⟨[]⟩⟩ "alice " =
      (⟨StatusOK, okBody "data removed successfully"
          (.object [("key", .string (TrimSpace "alice ")), ("value", .null)])⟩,
        [.State, .Apply (CommandPayload.encode ⟨"DELETE", TrimSpace "alice ", .null⟩) 500])) :=
  ⟨⟨rfl, by decide, by decide, rfl⟩,
    apply_response_error_ignored ⟨storeFailureRaft, ⟨[]⟩⟩ ⟨" alice", .string "secret-blob"⟩
      "alice " _ _ rfl (by decide) (by decide) rfl rfl⟩

/-! ## The slices of `Decrypt` -/

theorem scryptKey_client (c : Crypto) (password salt : List Nat) :
    scryptKey c password salt (2 ^ 15) 8 1 32 =
      .ok ((List.range 32).map (c.scryptByte password salt (2 ^ 15) 8 1)) := by
  have h1 : ¬ ((2 : Nat) ^ 15 ≤ 1 ∨ Nat.land (2 ^ 15) (2 ^ 15 - 1) ≠ 0) := by decide
  have h2 : ¬ (8 * 1 ≥ 2 ^ 30 ∨ 8 > maxInt / 128 / 1 ∨ 8 > maxInt / 256 ∨
      2 ^ 15 > maxInt / 128 / 8) := by decide
  unfold scryptKey
  rw [if_neg h1, if_neg h2]

/-- With a salt in hand, key derivation, cipher and AEAD construction succeed: the
cost parameters are constants in range and the derived key has 32 bytes. -/
theorem client_gcm (c : Crypto) (password salt : List Nat) :
    ∃ key, key.length = 32 ∧ DeriveKey c password (some salt) = .ok (key, salt) ∧
      aesNewCipher key = .ok ⟨key⟩ ∧ NewGCM ⟨key⟩ = .ok ⟨key, 12, 16⟩ := by
  refine ⟨(List.range 32).map (c.scryptByte password salt (2 ^ 15) 8 1), by simp, ?_, ?_, rfl⟩
  · unfold DeriveKey
    simp only
    rw [scryptKey_client]
  · simp [aesNewCipher]

theorem GoSlice.len_le_cap (s : GoSlice) : s.len ≤ s.cap := by
  simp [GoSlice.len, GoSlice.cap]

theorem GoSlice.slice_ok (s : GoSlice) (low high : Int)
    (h : 0 ≤ low ∧ low ≤ high ∧ high ≤ (s.cap : Int)) :
    s.slice low high =
      .ok ⟨((s.elems ++ s.spare).drop low.toNat).take (high.toNat - low.toNat),
        (s.elems ++ s.spare).drop high.toNat⟩ := by
  unfold GoSlice.slice
  rw [if_pos h]

/-- The first slice expression of `Decrypt` is out of range below 32 bytes. -/
theorem sliceFrom_short (data : GoSlice) (h : data.len < 32) :
    data.sliceFrom ((data.len : Int) - 32) =
      .error (.sliceBounds ((data.len : Int) - 32) data.len data.cap) := by
  unfold GoSlice.sliceFrom GoSlice.slice
  rw [if_neg]
  omega

/-- From 32 bytes on the salt is the last 32 bytes. -/
theorem sliceFrom_salt (data : GoSlice) (h : 32 ≤ data.len) :
    ∃ salt, data.sliceFrom ((data.len : Int) - 32) = .ok salt ∧
      salt.elems = data.elems.drop (data.len - 32) := by
  have hc := data.len_le_cap
  have h1 : ((data.len : Int) - 32).toNat = data.len - 32 := by omega
  have h2 : ((data.len : Int)).toNat = data.len := by omega
  refine ⟨_, GoSlice.slice_ok data _ _ (by omega), ?_⟩
  · simp only [h1, h2]
    have hl : data.len = data.elems.length := rfl
    rw [List.drop_append_of_le_length (by omega)]
    rw [List.take_append_of_le_length (by simp only [List.length_drop]; omega)]
    apply List.take_of_length_le
    simp only [List.length_drop]; omega

/-- From 32 bytes on the remainder shows all but the last 32 bytes and keeps the
capacity of the whole slice. -/
theorem sliceTo_remainder (data : GoSlice) (h : 32 ≤ data.len) :
    ∃ rest, data.sliceTo ((data.len : Int) - 32) = .ok rest ∧
      rest.elems = data.elems.take (data.len - 32) ∧
      rest.elems ++ rest.spare = data.elems ++ data.spare := by
  have hc := data.len_le_cap
  have h1 : ((data.len : Int) - 32).toNat = data.len - 32 := by omega
  refine ⟨_, GoSlice.slice_ok data _ _ (by omega), ?_, ?_⟩
  · have hl : data.len = data.elems.length := rfl
    simp only [h1, Int.toNat_zero, List.drop_zero, Nat.sub_zero]
    rw [List.take_append_of_le_length (by omega)]
  · simp only [h1, Int.toNat_zero, List.drop_zero, Nat.sub_zero]
    exact List.take_append_drop _ _

/-- The nonce expression `rest[:12]` is in range as soon as the capacity reaches 12,
whatever the length. -/
theorem sliceTo_nonce (rest : GoSlice) (h : 12 ≤ rest.cap) :
    ∃ nonce, rest.sliceTo ((12 : Nat) : Int) = .ok nonce ∧
      nonce.elems = (rest.elems ++ rest.spare).take 12 := by
  refine ⟨_, GoSlice.slice_ok rest _ _ (by omega), ?_⟩
  simp

/-- The ciphertext expression `rest[12:]` is out of range below 12 bytes. -/
theorem sliceFrom_ciphertext_short (rest : GoSlice) (h : rest.len < 12) :
    rest.sliceFrom ((12 : Nat) : Int) = .error (.sliceBounds 12 rest.len rest.cap) := by
  unfold GoSlice.sliceFrom GoSlice.slice
  rw [if_neg (by omega)]
  rfl

/-- The ciphertext expression `rest[12:]` from 12 bytes on. -/
theorem sliceFrom_ciphertext (rest : GoSlice) (h : 12 ≤ rest.len) :
    ∃ ct, rest.sliceFrom ((12 : Nat) : Int) = .ok ct ∧ ct.elems = rest.elems.drop 12 := by
  have hc := rest.len_le_cap
  refine ⟨_, GoSlice.slice_ok rest _ _ (by omega), ?_⟩
  · have hl : rest.len = rest.elems.length := rfl
    simp only [Int.toNat_ofNat]
    rw [List.drop_append_of_le_length (by omega)]
    rw [List.take_append_of_le_length (by simp only [List.length_drop]; omega)]
    apply List.take_of_length_le
    simp only [List.length_drop]; omega

/-- What `Decrypt` does once the salt is split off: from 32 bytes on it derives the key
and builds the AEAD without error, then slices the remainder; a failing ciphertext
expression ends it in the panic, otherwise the result is that of `gcm.Open`. -/
theorem Decrypt_from_32 (c : Crypto) (data key : GoSlice) (h : 32 ≤ data.len) :
    ∃ (k : List Nat) (rest : GoSlice), k.length = 32 ∧
      rest.elems = data.elems.take (data.len - 32) ∧
      rest.elems ++ rest.spare = data.elems ++ data.spare ∧
      ∀ nonce, rest.sliceTo ((12 : Nat) : Int) = .ok nonce →
        (∀ p, rest.sliceFrom ((12 : Nat) : Int) = .error p → Decrypt c data key = .panic p) ∧
        (∀ ct, rest.sliceFrom ((12 : Nat) : Int) = .ok ct →
          Decrypt c data key = GCM.Open c ⟨k, 12, 16⟩ nonce.elems ct.elems) := by
  obtain ⟨salt, hs, -⟩ := sliceFrom_salt data h
  obtain ⟨rest, hr, hre, hra⟩ := sliceTo_remainder data h
  obtain ⟨k, hk, hdk, haes, hgcm⟩ := client_gcm c key.elems salt.elems
  refine ⟨k, rest, hk, hre, hra, ?_⟩
  intro nonce hn
  refine ⟨?_, ?_⟩
  · intro p hp
    unfold Decrypt
    simp only [hs, hr, hdk, haes, hgcm, GCM.NonceSize, hn, hp]
  · intro ct hct
    unfold Decrypt
    simp only [hs, hr, hdk, haes, hgcm, GCM.NonceSize, hn, hct]

/-- C12. For every byte slice `data` and password, the slice expressions of `Decrypt` are
all in range if and only if `len(data) >= 44`.  Below 32 bytes the first expression,
`data[len(data)-32:]`, panics; from 32 to 43 bytes the expression `data[12:]` on the
remainder panics; in both cases `Decrypt` ends in the panic, not in an error value.
From 44 bytes on there is no panic: the result is that of `gcm.Open` on the first 12
bytes as nonce and the bytes between them and the last 32 as ciphertext. -/
theorem Decrypt_slice_bounds (c : Crypto) (data key : GoSlice) :
    ((∀ p, Decrypt c data key ≠ .panic p) ↔ 44 ≤ data.len) ∧
    (if data.len < 32 then
      Decrypt c data key = .panic (.sliceBounds ((data.len : Int) - 32) data.len data.cap)
    else if data.len < 44 then
      Decrypt c data key = .panic (.sliceBounds 12 ((data.len : Int) - 32) data.cap)
    else
      ∃ k : List Nat, k.length = 32 ∧
        Decrypt c data key = GCM.Open c ⟨k, 12, 16⟩ (data.elems.take 12)
          ((data.elems.drop 12).take (data.len - 44))) := by
  have hc := data.len_le_cap
  have hl : data.len = data.elems.length := rfl
  by_cases h32 : data.len < 32
  · have hp : Decrypt c data key =
        .panic (.sliceBounds ((data.len : Int) - 32) data.len data.cap) := by
      unfold Decrypt
      rw [sliceFrom_short data h32]
    refine ⟨⟨fun hn => absurd hp (hn _), fun h44 => by omega⟩, ?_⟩
    rw [if_pos h32]
    exact hp
  · obtain ⟨k, rest, hk, hre, hra, hD⟩ := Decrypt_from_32 c data key (by omega)
    have hrl : rest.len = data.len - 32 := by
      unfold GoSlice.len
      rw [hre, List.length_take]
      omega
    have hrc : rest.cap = data.cap := by
      have := congrArg List.length hra
      simpa [GoSlice.cap] using this
    obtain ⟨nonce, hn, hne⟩ := sliceTo_nonce rest (by omega)
    obtain ⟨hDp, hDo⟩ := hD nonce hn
    rw [if_neg h32]
    by_cases h44 : data.len < 44
    · have hp : Decrypt c data key =
          .panic (.sliceBounds 12 ((data.len : Int) - 32) data.cap) := by
        rw [hDp _ (sliceFrom_ciphertext_short rest (by omega)), hrl, hrc]
        congr 2
        all_goals omega
      refine ⟨⟨fun hno => absurd hp (hno _), fun h => by omega⟩, ?_⟩
      rw [if_pos h44]
      exact hp
    · obtain ⟨ct, hct, hce⟩ := sliceFrom_ciphertext rest (by omega)
      have hD := hDo ct hct
      have hnonce : nonce.elems = data.elems.take 12 := by
        rw [hne, hra, List.take_append_of_le_length (by omega)]
      have hcipher : ct.elems = (data.elems.drop 12).take (data.len - 44) := by
        rw [hce, hre, List.drop_take]
        congr 1
      rw [hnonce, hcipher] at hD
      have hopen : ∀ p, GCM.Open c ⟨k, 12, 16⟩ (data.elems.take 12)
          ((data.elems.drop 12).take (data.len - 44)) ≠ .panic p := by
        intro p
        have hlen : (data.elems.take 12).length = 12 := by
          rw [List.length_take]; omega
        unfold GCM.Open
        simp only [hlen, ne_eq, not_true_eq_false, if_false]
        split_ifs
        · simp
        · cases c.gcmOpen k (data.elems.take 12)
            ((data.elems.drop 12).take (data.len - 44)) <;> simp
      refine ⟨⟨fun _ => by omega, fun _ p => by rw [hD]; exact hopen p⟩, ?_⟩
      rw [if_neg h44]
      exact ⟨k, hk, hD⟩

/-- C12 on concrete inputs: 31 bytes fail at the salt expression, 43 bytes (even with
spare capacity) at the ciphertext expression, and 44 bytes, the tag missing, end in the
authentication error without any panic. -/
theorem Decrypt_examples :
    Decrypt nullCrypto ⟨List.replicate 31 7, []⟩ ⟨[1, 2, 3], []⟩ =
      .panic (.sliceBounds (-1) 31 31) ∧
    Decrypt nullCrypto ⟨List.replicate 43 7, [0, 0, 0, 0, 0]⟩ ⟨[1, 2, 3], []⟩ =
      .panic (.sliceBounds 12 11 48) ∧
    Decrypt nullCrypto ⟨List.replicate 44 7, []⟩ ⟨[1, 2, 3], []⟩ = .error errOpen := by
  decide

end Dpasswd
